import Mathlib

/-!
BigNum-Calculator: a shallow embedding of `vector.c` and `bignum.c`, and of the base
check `is_base` of `calculator.c`.

The C program keeps an arbitrary-precision signed integer as a sign, a radix and a
growable buffer of `unsigned char` digits, least-significant digit first.  Every
function mutates its operands through pointers; here each function takes the operand
states and returns the states after the call (together with a flag telling whether the
C function returned a non-NULL pointer).

Conventions of the embedding:
* pointers are always valid and allocation always succeeds, so the NULL checks and the
  allocation-failure branches of the C code are not represented;
* the heap is not represented, with one exception: `convert_system_BigNum` deletes the
  BigNum `tmp` a second time after its second loop, and a call that gets there has the
  outcome `invalid_free` instead of a returned state;
* `DATA_TYPE` is `unsigned char`: digits are natural numbers and every conversion of an
  `int` to `DATA_TYPE` is written as an explicit `% 256`;
* a `Vector` records its capacity and the `size` meaningful slots of its storage; the
  slots between `size` and `capacity` are never read by the program.
-/

set_option autoImplicit false

namespace BigNumCalc

/-! ## vector.c -/

/-- The record `Vector` of vector.h: `array` holds the first `size` slots of the storage,
so the field `size` of the C struct is the length of `array`. -/
structure Vector where
  capacity : Nat
  array : List Nat
deriving DecidableEq, Repr

/-- The function `create_vector`: an empty vector without storage. -/
def create_vector : Vector := ⟨0, []⟩

/-- The function `vector_size`. -/
def vector_size (ptr : Vector) : Nat := ptr.array.length

/-- The function `vector_capacity`. -/
def vector_capacity (ptr : Vector) : Nat := ptr.capacity

/-- The function `vector_reserve`: rejects a capacity below the size, otherwise sets it. -/
def vector_reserve (ptr : Vector) (new_capacity : Nat) : Vector :=
  if new_capacity < vector_size ptr then ptr
  else { ptr with capacity := new_capacity }

/-- The function `push_back`: doubles the capacity (2 when it was 0) when the vector is
full, then writes `val` into slot `size` and increments `size`.  The early return after
an unsuccessful `vector_reserve` is an allocation-failure branch (with `size <= capacity`
the new capacity is never below the size, so the reserve is never rejected) and is not
represented. -/
def push_back (ptr : Vector) (val : Nat) : Vector :=
  let ptr1 :=
    if vector_size ptr ≥ ptr.capacity then
      vector_reserve ptr (if ptr.capacity = 0 then 2 else ptr.capacity * 2)
    else ptr
  { ptr1 with array := ptr1.array ++ [val] }

/-- The loop `for (i = ptr->size; i < new_size; ++i) push_back(ptr, 0)` of
`vector_resize`, run for the given number of iterations. -/
def vector_resize_loop : Nat → Vector → Vector
  | 0, ptr => ptr
  | k + 1, ptr => vector_resize_loop k (push_back ptr 0)

/-- The function `vector_resize`: reserves when `new_size` exceeds the capacity, then
appends zeros until the size reaches `new_size` (nothing is appended, and nothing is
removed, when `new_size` is not above the size). -/
def vector_resize (ptr : Vector) (new_size : Nat) : Vector :=
  let ptr1 := if new_size > ptr.capacity then vector_reserve ptr new_size else ptr
  vector_resize_loop (new_size - vector_size ptr1) ptr1

/-- The function `vector_clear`: the size becomes 0, the capacity is kept. -/
def vector_clear (ptr : Vector) : Vector := { ptr with array := [] }

/-- The function `pop_back`: no effect on an empty vector, otherwise `size` decreases. -/
def pop_back (ptr : Vector) : Vector :=
  if vector_size ptr = 0 then ptr else { ptr with array := ptr.array.dropLast }

/-- The function `vector_front`; the error value `-1` is 255 as an `unsigned char`. -/
def vector_front (ptr : Vector) : Nat :=
  if vector_size ptr = 0 then 255 else ptr.array.getD 0 0

/-- The function `vector_back`; the error value `-1` is 255 as an `unsigned char`. -/
def vector_back (ptr : Vector) : Nat :=
  if vector_size ptr = 0 then 255 else ptr.array.getD (vector_size ptr - 1) 0

/-- The function `vector_get`; the error value `-1` is 255 as an `unsigned char`. -/
def vector_get (ptr : Vector) (index : Nat) : Nat :=
  if index ≥ vector_size ptr then 255 else ptr.array.getD index 0

/-- The function `vector_set`: no effect when the index is out of bounds. -/
def vector_set (ptr : Vector) (index : Nat) (val : Nat) : Vector :=
  if index ≥ vector_size ptr then ptr else { ptr with array := ptr.array.set index val }

/-- The loop of `copy_vector`: `push_back(vec, vector_get(ptr, i))` for `i` upwards. -/
def copy_vector_loop (ptr : Vector) : Nat → Nat → Vector → Vector
  | 0, _, vec => vec
  | k + 1, i, vec => copy_vector_loop ptr k (i + 1) (push_back vec (vector_get ptr i))

/-- The function `copy_vector`: a fresh vector with the capacity of `ptr`, filled by
`push_back` with the elements of `ptr`. -/
def copy_vector (ptr : Vector) : Vector :=
  copy_vector_loop ptr (vector_size ptr) 0 (vector_reserve create_vector (vector_capacity ptr))

/-- The function `element_swap` applied to the slots `i` and `j` of the storage. -/
def element_swap (ptr : Vector) (i j : Nat) : Vector :=
  let tmp := ptr.array.getD i 0
  let a1 := ptr.array.set i (ptr.array.getD j 0)
  { ptr with array := a1.set j tmp }

/-- The loop of `reverse_vector`: swap slot `i` with slot `size - i - 1`. -/
def reverse_vector_loop : Nat → Nat → Vector → Vector
  | 0, _, ptr => ptr
  | k + 1, i, ptr =>
    reverse_vector_loop k (i + 1) (element_swap ptr i (vector_size ptr - i - 1))

/-- The function `reverse_vector`: `size / 2` swaps from both ends towards the middle. -/
def reverse_vector (ptr : Vector) : Vector :=
  reverse_vector_loop (vector_size ptr / 2) 0 ptr

/-! ## bignum.c -/

/-- The macro `PLUS`. -/
def PLUS : Int := 1

/-- The macro `MINUS`. -/
def MINUS : Int := -1

/-- The record `BigNum` of bignum.h. -/
structure BigNum where
  sign_bit : Int
  digits : Vector
  num_system : Nat
deriving DecidableEq, Repr

/-- The table `hex_digits`. -/
def hex_digits : List Char :=
  ['0', '1', '2', '3', '4', '5', '6', '7', '8', '9', 'A', 'B', 'C', 'D', 'E', 'F']

/-- The function `create_BigNum`: sign PLUS, no digits, radix 2. -/
def create_BigNum : BigNum := ⟨PLUS, create_vector, 2⟩

/-- The function `clear_BigNum`: sign PLUS and an empty digit buffer. -/
def clear_BigNum (bg : BigNum) : BigNum :=
  { bg with sign_bit := PLUS, digits := vector_clear bg.digits }

/-- The function `map_digit` on a byte: `isdigit` characters map to 0..9, the letters
A..F to 10..15 and every other byte to 255. -/
def map_digit (digit : Char) : Nat :=
  if '0' ≤ digit ∧ digit ≤ '9' then (digit.toNat - ('0' : Char).toNat) % 256
  else if digit = 'A' then 10
  else if digit = 'B' then 11
  else if digit = 'C' then 12
  else if digit = 'D' then 13
  else if digit = 'E' then 14
  else if digit = 'F' then 15
  else 255

/-- The function `BigNum_sign`. -/
def BigNum_sign (bg : BigNum) : Int := bg.sign_bit

/-- The function `BigNum_size`. -/
def BigNum_size (bg : BigNum) : Nat := vector_size bg.digits

/-- The function `BigNum_base`. -/
def BigNum_base (bg : BigNum) : Nat := bg.num_system

/-- The loop `while (BigNum_size(bg) > 1 && vector_back(bg->digits) == 0) pop_back(...)`
of `zero_justify`; the first argument bounds the number of iterations, and the size of
the buffer is always enough. -/
def zero_justify_loop : Nat → Vector → Vector
  | 0, d => d
  | k + 1, d =>
    if vector_size d > 1 ∧ vector_back d = 0 then zero_justify_loop k (pop_back d) else d

/-- The function `zero_justify`: drop most-significant zero digits while more than one
digit is left, then force the sign to PLUS when the number is the single digit 0. -/
def zero_justify (bg : BigNum) : BigNum :=
  let d := zero_justify_loop (vector_size bg.digits) bg.digits
  if vector_size d = 1 ∧ vector_back d = 0 then { bg with sign_bit := PLUS, digits := d }
  else { bg with digits := d }

/-- The outcome of a C function returning `BigNum_ptr` for one operand: `ok` is false
when NULL_TYPE was returned, `bg` is the operand after the call. -/
structure Result1 where
  ok : Bool
  bg : BigNum
deriving DecidableEq, Repr

/-- The outcome of a binary operation: `ok` is false when NULL_TYPE was returned, `bg1`
and `bg2` are the two operands after the call. -/
structure Result where
  ok : Bool
  bg1 : BigNum
  bg2 : BigNum
deriving DecidableEq, Repr

/-- What a call leaves when the C function need not return: `returned x` when it returns
with the state `x`; `bound_reached` when a bound of the embedding was too small to run
the loops of the call to their end; `invalid_free` when the call passes to
`delete_BigNum` a pointer that it has already freed or has never set, which is undefined
behaviour: no state comes back from such a call. -/
inductive Outcome (α : Type) where
  | returned (x : α) : Outcome α
  | bound_reached : Outcome α
  | invalid_free : Outcome α
deriving DecidableEq, Repr

/-- The image of the returned state under `f`; the other outcomes are kept. -/
def Outcome.map {α β : Type} (f : α → β) : Outcome α → Outcome β
  | Outcome.returned x => Outcome.returned (f x)
  | Outcome.bound_reached => Outcome.bound_reached
  | Outcome.invalid_free => Outcome.invalid_free

/-- The digit loop of `assign_value` on the characters that remain: stops with failure
at the first character whose value is not below `system`, keeping the digits pushed so
far. -/
def assign_value_loop (system : Nat) : List Char → Vector → Bool × Vector
  | [], d => (true, d)
  | num :: rest, d =>
    let val := map_digit num
    if val ≥ system then (false, d)
    else assign_value_loop system rest (push_back d val)

/-- The function `assign_value`; the C string is the list of its characters before the
terminating NUL. -/
def assign_value (bg : BigNum) (num_cstring : List Char) (system : Nat) : Result1 :=
  match num_cstring with
  | [] => ⟨false, bg⟩
  | c :: cs =>
    let bg1 := { clear_BigNum bg with num_system := system }
    let bg2 : BigNum := { bg1 with sign_bit := if c = '-' then -1 else 1 }
    let body := if c = '-' ∨ c = '+' then cs else c :: cs
    let r := assign_value_loop system body bg2.digits
    if r.1 = false then ⟨false, { bg2 with digits := r.2 }⟩
    else ⟨true, zero_justify { bg2 with digits := reverse_vector r.2 }⟩

/-- The function `copy_BigNum`. -/
def copy_BigNum (bg : BigNum) : BigNum :=
  { sign_bit := bg.sign_bit, digits := copy_vector bg.digits, num_system := bg.num_system }

/-- The digit loop of `compare_abs_BigNum`, from the most significant digit down. -/
def compare_abs_loop (d1 d2 : Vector) (n : Nat) : Nat → Nat → Int
  | 0, _ => 0
  | k + 1, i =>
    if vector_get d1 (n - i - 1) > vector_get d2 (n - i - 1) then 1
    else if vector_get d1 (n - i - 1) < vector_get d2 (n - i - 1) then -1
    else compare_abs_loop d1 d2 n k (i + 1)

/-- The function `compare_abs_BigNum`: -2 on a radix mismatch, otherwise the longer
buffer is the larger and equal lengths are decided by the first differing digit. -/
def compare_abs_BigNum (bg1 bg2 : BigNum) : Int :=
  if BigNum_base bg1 ≠ BigNum_base bg2 then -2
  else if BigNum_size bg1 > BigNum_size bg2 then 1
  else if BigNum_size bg1 = BigNum_size bg2 then
    compare_abs_loop bg1.digits bg2.digits (BigNum_size bg1) (BigNum_size bg1) 0
  else -1

/-- The carry loop of `add_BigNum`: `carry` and the buffer of `bg1` are the loop state,
`d2` is the buffer of `bg2`. -/
def add_loop (base : Nat) (d2 : Vector) : Nat → Nat → Nat → Vector → Vector
  | 0, _, _, d1 => d1
  | k + 1, i, carry, d1 =>
    let act_val := carry + vector_get d1 i + vector_get d2 i
    add_loop base d2 k (i + 1) (act_val / base) (vector_set d1 i ((act_val % base) % 256))

/-- Lines 255-273 of `add_BigNum`, the branch taken when the signs agree. -/
def add_same_sign (bg1 bg2 : BigNum) : Result :=
  let max_size := max (BigNum_size bg1) (BigNum_size bg2) + 1
  let d1 := vector_resize bg1.digits max_size
  let d2 := vector_resize bg2.digits max_size
  let d1 := add_loop (BigNum_base bg2) d2 max_size 0 0 d1
  ⟨true, zero_justify { bg1 with digits := d1 }, zero_justify { bg2 with digits := d2 }⟩

/-- One pass of the body of the borrow loop of `subtract_BigNum` for a minuend digit
`v`, a subtrahend digit `s` and the incoming `borrow`: returns the final `act_val` and
the outgoing borrow. -/
def subtract_step (base : Nat) (v s : Nat) (borrow : Int) : Int × Int :=
  let act_val : Int := (v : Int) - borrow - (s : Int)
  let borrow1 : Int := if v > 0 then 0 else borrow
  if act_val < 0 then (act_val + (base : Int), 1) else (act_val, borrow1)

/-- The borrow loop of `subtract_BigNum`; the stored digit is
`(DATA_TYPE)act_val % base`, converted to `DATA_TYPE` by `vector_set`. -/
def subtract_loop (base : Nat) (subtrahend : Vector) : Nat → Nat → Int → Vector → Vector
  | 0, _, _, vec => vec
  | k + 1, i, borrow, vec =>
    let st := subtract_step base (vector_get vec i) (vector_get subtrahend i) borrow
    subtract_loop base subtrahend k (i + 1) st.2
      (vector_set vec i ((((st.1 % 256).toNat) % base) % 256))

/-- Lines 294-351 of `subtract_BigNum`, the part run when neither sign is MINUS. -/
def subtract_magnitude (bg1 bg2 : BigNum) : Result :=
  let c := compare_abs_BigNum bg1 bg2
  if c = 1 then
    let vec := copy_vector bg1.digits
    let n := max (vector_size vec) (vector_size bg2.digits)
    let vec := vector_resize vec n
    let subtrahend := vector_resize bg2.digits n
    let vec := subtract_loop (BigNum_base bg2) subtrahend n 0 0 vec
    ⟨true, zero_justify { bg1 with digits := vec },
      zero_justify { bg2 with digits := subtrahend }⟩
  else if c = -1 then
    let vec := copy_vector bg2.digits
    let n := max (vector_size vec) (vector_size bg1.digits)
    let vec := vector_resize vec n
    let subtrahend := vector_resize bg1.digits n
    let vec := subtract_loop (BigNum_base bg2) subtrahend n 0 0 vec
    ⟨true, zero_justify { bg1 with sign_bit := MINUS, digits := vec }, zero_justify bg2⟩
  else if c = 0 then
    ⟨true, { clear_BigNum bg1 with digits := push_back (clear_BigNum bg1).digits 0 }, bg2⟩
  else ⟨false, bg1, bg2⟩

mutual

/-- The function `add_BigNum`. -/
def add_BigNum (bg1 bg2 : BigNum) : Result :=
  if BigNum_base bg1 ≠ BigNum_base bg2 then ⟨false, bg1, bg2⟩
  else if _h : BigNum_sign bg1 ≠ BigNum_sign bg2 then
    if _h1 : BigNum_sign bg1 = MINUS then
      let r := subtract_BigNum { bg1 with sign_bit := PLUS } bg2
      ⟨r.ok, { r.bg1 with sign_bit := MINUS }, r.bg2⟩
    else
      let r := subtract_BigNum bg1 { bg2 with sign_bit := PLUS }
      ⟨r.ok, r.bg1, { r.bg2 with sign_bit := MINUS }⟩
  else add_same_sign bg1 bg2
termination_by (if BigNum_sign bg1 ≠ BigNum_sign bg2 then 2 else 0)
decreasing_by
  all_goals simp_wf
  · simp only [BigNum_sign, PLUS, MINUS] at *
    have hb : ¬ bg2.sign_bit = -1 := fun hc => _h (by rw [_h1, hc])
    simp [_h, hb]
  · simp only [BigNum_sign, PLUS, MINUS] at *
    simp [_h, _h1]

/-- The function `subtract_BigNum`. -/
def subtract_BigNum (bg1 bg2 : BigNum) : Result :=
  if BigNum_base bg1 ≠ BigNum_base bg2 then ⟨false, bg1, bg2⟩
  else if _h : BigNum_sign bg1 = MINUS ∨ BigNum_sign bg2 = MINUS then
    let r := add_BigNum bg1 { bg2 with sign_bit := bg2.sign_bit * -1 }
    ⟨true, r.bg1, { r.bg2 with sign_bit := r.bg2.sign_bit * -1 }⟩
  else subtract_magnitude bg1 bg2
termination_by (if BigNum_sign bg1 = MINUS ∨ BigNum_sign bg2 = MINUS then 3 else 1)
decreasing_by
  all_goals simp_wf
  simp only [BigNum_sign, PLUS, MINUS] at *
  simp [_h]
  split <;> omega

end

/-- The first loop of `digit_shift`, `for (i = size - n - 1; i >= 0; --i)
array[i + n] = array[i]`; the first argument is `i + 1`. -/
def digit_shift_move (n : Nat) : Nat → Vector → Vector
  | 0, ptr => ptr
  | i + 1, ptr =>
    digit_shift_move n i { ptr with array := ptr.array.set (i + n) (ptr.array.getD i 0) }

/-- The second loop of `digit_shift`, `for (i = 0; i < n; ++i) array[i] = 0`. -/
def digit_shift_fill : Nat → Nat → Vector → Vector
  | 0, _, ptr => ptr
  | k + 1, i, ptr => digit_shift_fill k (i + 1) { ptr with array := ptr.array.set i 0 }

/-- The function `digit_shift` for a shift `n` that is not negative (the only caller
passes 1): nothing happens on the single digit 0, otherwise the buffer grows by `n`
slots, the digits move up by `n` and the `n` lowest slots are zeroed. -/
def digit_shift (ptr : Vector) (n : Nat) : Vector :=
  if vector_size ptr = 1 ∧ vector_front ptr = 0 then ptr
  else
    let p := vector_resize ptr (vector_size ptr + n)
    let p := digit_shift_move n (vector_size p - n) p
    digit_shift_fill n 0 p

/-- The inner loop of `multiply_BigNum`: `digit` calls of `add_BigNum(bg1, row)`. -/
def multiply_inner : Nat → BigNum → BigNum → BigNum × BigNum
  | 0, bg1, row => (bg1, row)
  | j + 1, bg1, row =>
    let r := add_BigNum bg1 row
    multiply_inner j r.bg1 r.bg2

/-- The outer loop of `multiply_BigNum` over the digits of `bg2`, least significant
first: add the row `digit` times, then shift the row by one digit. -/
def multiply_loop (bg2 : BigNum) : Nat → Nat → BigNum → BigNum → BigNum × BigNum
  | 0, _, bg1, row => (bg1, row)
  | k + 1, i, bg1, row =>
    let digit := vector_get bg2.digits i
    let st := multiply_inner digit bg1 row
    multiply_loop bg2 k (i + 1) st.1 { st.2 with digits := digit_shift st.2.digits 1 }

/-- The function `multiply_BigNum`; `bg2` is only read. -/
def multiply_BigNum (bg1 bg2 : BigNum) : Result :=
  if BigNum_base bg1 ≠ BigNum_base bg2 then ⟨false, bg1, bg2⟩
  else
    let row := copy_BigNum bg1
    let bg1 := { clear_BigNum bg1 with sign_bit := row.sign_bit }
    let st := multiply_loop bg2 (BigNum_size bg2) 0 bg1 row
    let bg1 := { st.1 with sign_bit := st.1.sign_bit * bg2.sign_bit }
    ⟨true, zero_justify bg1, bg2⟩

/-- The loop `while (compare_abs_BigNum(row, bg2) != -1)` of `divide_BigNum` at digit
position `i`: increments slot `i` of the dividend (an `unsigned char`) and subtracts the
divisor from the row.  The first argument bounds the number of iterations; `none` means
the bound was reached with the loop condition still true. -/
def divide_while : Nat → Nat → BigNum → BigNum → BigNum → Option (BigNum × BigNum × BigNum)
  | fuel, i, bg1, row, bg2 =>
    if compare_abs_BigNum row bg2 ≠ -1 then
      match fuel with
      | 0 => none
      | f + 1 =>
        let bg1 : BigNum :=
          { bg1 with digits :=
              { bg1.digits with
                array := bg1.digits.array.set i ((bg1.digits.array.getD i 0 + 1) % 256) } }
        let r := subtract_BigNum row bg2
        divide_while f i bg1 r.bg1 r.bg2
    else some (bg1, row, bg2)

/-- The loop `for (i = BigNum_size(bg1) - 1; i >= 0; --i)` of `divide_BigNum`; the
second argument is `i + 1`. -/
def divide_loop (fuel : Nat) : Nat → BigNum → BigNum → BigNum →
    Option (BigNum × BigNum × BigNum)
  | 0, bg1, row, bg2 => some (bg1, row, bg2)
  | i + 1, bg1, row, bg2 =>
    let rd := digit_shift row.digits 1
    let rd := { rd with array := rd.array.set 0 (vector_get bg1.digits i) }
    let row := { row with digits := rd }
    let bg1 := { bg1 with digits := vector_set bg1.digits i 0 }
    match divide_while fuel i bg1 row bg2 with
    | none => none
    | some (bg1, row, bg2) => divide_loop fuel i bg1 row bg2

/-- The function `divide_BigNum`.  `fuel` bounds the iterations of the inner `while`
loop at each digit position; the result is `none` when that bound is too small. -/
def divide_BigNum (fuel : Nat) (bg1 bg2 : BigNum) : Option Result :=
  if BigNum_base bg1 ≠ BigNum_base bg2 then some ⟨false, bg1, bg2⟩
  else if BigNum_size bg2 = 1 ∧ vector_get bg2.digits 0 = 0 then some ⟨false, bg1, bg2⟩
  else
    let bg1_sign := bg1.sign_bit
    let bg2_sign := bg2.sign_bit
    let bg1 := { bg1 with sign_bit := PLUS }
    let bg2 := { bg2 with sign_bit := PLUS }
    let row := { create_BigNum with num_system := bg2.num_system }
    match divide_loop fuel (BigNum_size bg1) bg1 row bg2 with
    | none => none
    | some (bg1, _, bg2) =>
      let bg1 := zero_justify bg1
      some ⟨true, { bg1 with sign_bit := bg1_sign * bg2_sign },
        { bg2 with sign_bit := bg2_sign }⟩

/-- The function `BigNum_to_cstring`: the characters written before the terminating NUL.
A digit outside the table `hex_digits` (a read past the table in C) is shown as '?'. -/
def BigNum_to_cstring (bg : BigNum) : List Char :=
  let n := BigNum_size bg
  if BigNum_sign bg = PLUS then
    (List.range n).map fun i => hex_digits.getD (vector_get bg.digits (n - i - 1)) '?'
  else
    '-' :: (List.range n).map fun j => hex_digits.getD (vector_get bg.digits (n - (j + 1))) '?'

/-- The digits of `n` in base 10, least significant first, as written by a `%d`
conversion: the single digit 0 for zero, no most-significant zero otherwise.  The first
argument bounds the number of digits; `n + 1` is always enough. -/
def decimal_digits : Nat → Nat → List Nat
  | 0, _ => []
  | f + 1, n => if n < 10 then [n] else (n % 10) :: decimal_digits f (n / 10)

/-- The libc call `sprintf(str, "%d", val)`: the decimal text of an `int`. -/
def sprintf_d (val : Int) : List Char :=
  let ds := (decimal_digits (val.natAbs + 1) val.natAbs).reverse.map
    (fun d => Char.ofNat (('0' : Char).toNat + d))
  if val < 0 then '-' :: ds else ds

/-- The conversion of a `size_t` to `int` at a call of `int_to_BigNum`: reduction modulo
2^32 into the range of a 32-bit `int`. -/
def size_t_to_int (n : Nat) : Int :=
  (((n + 2 ^ 31) % 2 ^ 32 : Nat) : Int) - 2 ^ 31

/-- The function `int_to_BigNum`: the decimal text of `val` assigned to a fresh BigNum
with radix 10. -/
def int_to_BigNum (val : Int) : Result1 :=
  assign_value create_BigNum (sprintf_d val) 10

/-- The digit loop of the libc function `atoi`: decimal digits are accumulated until the
first character that is not a digit. -/
def atoi_loop : List Char → Nat → Nat
  | [], acc => acc
  | c :: cs, acc =>
    if '0' ≤ c ∧ c ≤ '9' then atoi_loop cs (acc * 10 + (c.toNat - ('0' : Char).toNat))
    else acc

/-- The libc function `atoi` on a text without leading white space: an optional sign,
then decimal digits. -/
def atoi (s : List Char) : Int :=
  match s with
  | [] => 0
  | c :: cs =>
    if c = '-' then -(atoi_loop cs 0 : Int)
    else if c = '+' then (atoi_loop cs 0 : Int)
    else (atoi_loop (c :: cs) 0 : Int)

/-- The function `modulo_BigNum`, `r = a - d * floor(a / d)` on a copy of `bg1`.  `fuel`
is the bound passed to `divide_BigNum`; the result is `none` when it is too small. -/
def modulo_BigNum (fuel : Nat) (bg1 bg2 : BigNum) : Option Result :=
  if BigNum_base bg1 ≠ BigNum_base bg2 then some ⟨false, bg1, bg2⟩
  else if BigNum_size bg2 = 1 ∧ vector_get bg2.digits 0 = 0 then some ⟨false, bg1, bg2⟩
  else if BigNum_sign bg1 = MINUS ∨ BigNum_sign bg2 = MINUS then some ⟨false, bg1, bg2⟩
  else
    let tmp := copy_BigNum bg1
    match divide_BigNum fuel tmp bg2 with
    | none => none
    | some r1 =>
      let r2 := multiply_BigNum r1.bg1 r1.bg2
      let r3 := subtract_BigNum bg1 r2.bg1
      some ⟨true, r3.bg1, r2.bg2⟩

/-- The first loop of `convert_system_BigNum`, over the digits of `bg` from the least
significant: `result += digit * multiplicant; multiplicant *= num_system`, on BigNums of
radix 10.  The state is `(result, multiplicant, num_system)`. -/
def convert_to_decimal_loop (bg : BigNum) :
    Nat → Nat → BigNum → BigNum → BigNum → BigNum × BigNum × BigNum
  | 0, _, result, multiplicant, num_system => (result, multiplicant, num_system)
  | k + 1, i, result, multiplicant, num_system =>
    let tmp := (int_to_BigNum (vector_get bg.digits i : Nat)).bg
    let r1 := multiply_BigNum tmp multiplicant
    let r2 := add_BigNum result r1.bg1
    let r3 := multiply_BigNum r1.bg2 num_system
    convert_to_decimal_loop bg k (i + 1) r2.bg1 r3.bg1 r3.bg2

/-- The loop `while (compare_abs_BigNum(result, zero) == PLUS)` of
`convert_system_BigNum`: push `atoi` of the text of `result mod num_system` onto the
buffer `d` of `bg`, then divide `result` by `num_system`.  `fuel` is the bound passed to
the divisions, the second argument bounds the number of iterations; `none` means that a
bound was reached. -/
def convert_from_decimal_loop (fuel : Nat) :
    Nat → Vector → BigNum → BigNum → BigNum → Option (Vector × BigNum × BigNum)
  | n, d, result, num_system, zero =>
    if compare_abs_BigNum result zero = PLUS then
      match n with
      | 0 => none
      | n + 1 =>
        let tmp := copy_BigNum result
        match modulo_BigNum fuel tmp num_system with
        | none => none
        | some m =>
          let num := BigNum_to_cstring m.bg1
          let d := push_back d ((atoi num % 256).toNat)
          match divide_BigNum fuel result m.bg2 with
          | none => none
          | some q => convert_from_decimal_loop fuel n d q.bg1 q.bg2 zero
    else some (d, result, num_system)

/-- Lines 579-596 of `convert_system_BigNum`: the decimal BigNum `result` after the first
loop, which runs over the digits of `bg` with `bg->num_system` already set to 10. -/
def convert_to_decimal (bg : BigNum) : BigNum :=
  let result := (assign_value create_BigNum ['0'] 10).bg
  let multiplicant := (int_to_BigNum 1).bg
  let num_system := (int_to_BigNum (size_t_to_int bg.num_system)).bg
  let bg : BigNum := { bg with num_system := 10 }
  (convert_to_decimal_loop bg (BigNum_size bg) 0 result multiplicant num_system).1

/-- Lines 612-628 of `convert_system_BigNum`: the digit buffer of `bg` after the second
loop, which starts from the cleared buffer and from the decimal `result` of the first
loop.  `fuel` bounds both the inner loops of the divisions and the number of digits
produced; the result is `none` when it is too small. -/
def convert_from_decimal (fuel : Nat) (bg : BigNum) (base_system : Nat) : Option Vector :=
  let num_system := (int_to_BigNum (size_t_to_int base_system)).bg
  let zero := (assign_value create_BigNum ['0'] 10).bg
  match convert_from_decimal_loop fuel fuel (vector_clear bg.digits) (convert_to_decimal bg)
      num_system zero with
  | none => none
  | some (d, _, _) => some d

/-- The function `convert_system_BigNum`.  The two guards return before any write, and
the target 10 returns after the first loop with the digits of `result`.  For every other
target the second loop is followed by `delete_BigNum(tmp)` (line 631), where `tmp` has
been deleted at the end of the last iteration of the second loop (line 627), or of the
first loop (line 595) when the second did not run, or has never been set when neither
ran: the call ends there with `invalid_free`, before `bg->num_system = base_system` and
`zero_justify(bg)` are reached.  `fuel` is the bound of `convert_from_decimal`. -/
def convert_system_BigNum (fuel : Nat) (bg : BigNum) (base_system : Nat) : Outcome Result1 :=
  if base_system < 2 ∨ base_system > 16 then Outcome.returned ⟨false, bg⟩
  else if bg.num_system = base_system then Outcome.returned ⟨true, bg⟩
  else
    let result := convert_to_decimal bg
    if base_system = 10 then
      Outcome.returned
        ⟨true, zero_justify { bg with digits := result.digits, num_system := 10 }⟩
    else
      match convert_from_decimal fuel bg base_system with
      | none => Outcome.bound_reached
      | some _ => Outcome.invalid_free

/-- The loop of `exponentiate_BigNum` over the binary digits left in `exp`, most
significant first: square `result`, and multiply it by `bg1` when the digit is 1; a
digit other than 0 or 1 ends the function with NULL_TYPE (first component false).  The
first argument is the size of `exp`. -/
def exponentiate_loop (bg1 : BigNum) : Nat → Vector → BigNum → Bool × BigNum
  | 0, _, result => (true, result)
  | k + 1, exp, result =>
    let tmp := copy_BigNum result
    if vector_back exp = 0 then
      exponentiate_loop bg1 k (pop_back exp) (multiply_BigNum result tmp).bg1
    else if vector_back exp = 1 then
      let r1 := multiply_BigNum result tmp
      exponentiate_loop bg1 k (pop_back exp) (multiply_BigNum r1.bg1 bg1).bg1
    else (false, result)

/-- The function `exponentiate_BigNum`: square-and-multiply over the binary digits of a
copy of `bg2`; only the digit buffer of `bg1` is replaced.  `fuel` is the bound passed
to `convert_system_BigNum`; when that call does not return, this one does not either. -/
def exponentiate_BigNum (fuel : Nat) (bg1 bg2 : BigNum) : Outcome Result :=
  if BigNum_base bg1 ≠ BigNum_base bg2 then Outcome.returned ⟨false, bg1, bg2⟩
  else if BigNum_sign bg2 = MINUS then Outcome.returned ⟨false, bg1, bg2⟩
  else
    match convert_system_BigNum fuel (copy_BigNum bg2) 2 with
    | Outcome.bound_reached => Outcome.bound_reached
    | Outcome.invalid_free => Outcome.invalid_free
    | Outcome.returned c =>
      let exp := pop_back c.bg.digits
      let st := exponentiate_loop bg1 (vector_size exp) exp (copy_BigNum bg1)
      if st.1 = false then Outcome.returned ⟨false, bg1, bg2⟩
      else Outcome.returned ⟨true, { bg1 with digits := st.2.digits }, bg2⟩

/-- The function `compare_BigNum`: -2 on a radix mismatch, PLUS above MINUS, and for
other signs the comparison of the magnitudes multiplied by the sign of `bg1`. -/
def compare_BigNum (bg1 bg2 : BigNum) : Int :=
  if BigNum_base bg1 ≠ BigNum_base bg2 then -2
  else if bg1.sign_bit = PLUS ∧ bg2.sign_bit = MINUS then 1
  else if bg1.sign_bit = MINUS ∧ bg2.sign_bit = PLUS then -1
  else compare_abs_BigNum bg1 bg2 * bg1.sign_bit

/-- The loop `for (i = 1; i <= 10; i++) push_back(vec, i * i)` of `vector_test`, for
`i` from the given start; the first argument is the number of iterations. -/
def vector_test_fill : Nat → Nat → Vector → Vector
  | 0, _, vec => vec
  | k + 1, i, vec => vector_test_fill k (i + 1) (push_back vec ((i * i) % 256))

/-! ## calculator.c -/

/-- The function `is_base` of calculator.c on the characters of `str` before the
terminating NUL: a string of length 1 is accepted when its character is between '0' and
'9', a string of length 2 when it is '1' followed by a character between '0' and '6', and
every other string is rejected. -/
def is_base (str : List Char) : Bool :=
  match str with
  | [c0] => if '0' ≤ c0 ∧ c0 ≤ '9' then true else false
  | [c0, c1] => if c0 = '1' ∧ '0' ≤ c1 ∧ c1 ≤ '6' then true else false
  | _ => false

/-! ## Vocabulary of the specification -/

/-- The magnitude of a digit list, least significant digit first:
the sum of `digit[i] * radix ^ i`. -/
def magnitude (radix : Nat) : List Nat → Nat
  | [] => 0
  | d :: ds => d + radix * magnitude radix ds

/-- The integer value of a BigNum: `sign * sum of digit[i] * radix ^ i`. -/
def val (bg : BigNum) : Int := bg.sign_bit * (magnitude bg.num_system bg.digits.array : Int)

/-- No most-significant zero digit, unless the list is the single digit 0; at least one
digit. -/
def justified (ds : List Nat) : Prop :=
  ds ≠ [] ∧ (ds.getLast? ≠ some 0 ∨ ds = [0])

instance (ds : List Nat) : Decidable (justified ds) := by
  unfold justified; infer_instance

/-- A normalized BigNum of the data model: radix in 2..16, sign PLUS or MINUS, at least
one digit, every digit below the radix, no most-significant zero digit unless the number
is the single digit 0, and zero has sign PLUS. -/
def normalized (bg : BigNum) : Prop :=
  2 ≤ bg.num_system ∧ bg.num_system ≤ 16 ∧
  (bg.sign_bit = PLUS ∨ bg.sign_bit = MINUS) ∧
  (∀ d ∈ bg.digits.array, d < bg.num_system) ∧
  justified bg.digits.array ∧
  (bg.digits.array = [0] → bg.sign_bit = PLUS)

instance (bg : BigNum) : Decidable (normalized bg) := by
  unfold normalized; infer_instance

/-- The digits of a numeral string: the string without one leading '+' or '-'. -/
def numeral_body (s : List Char) : List Char :=
  match s with
  | [] => []
  | c :: cs => if c = '-' ∨ c = '+' then cs else c :: cs

/-- A valid numeral of radix `r`: an optional sign, then one or more characters of the
alphabet 0-9A-F whose digit values are all below `r`. -/
def valid_numeral (r : Nat) (s : List Char) : Prop :=
  numeral_body s ≠ [] ∧ ∀ c ∈ numeral_body s, c ∈ hex_digits ∧ map_digit c < r

instance (r : Nat) (s : List Char) : Decidable (valid_numeral r s) := by
  unfold valid_numeral; infer_instance

/-- Leading zero characters removed, one digit kept. -/
def strip_leading_zeros : List Char → List Char
  | [] => []
  | [c] => [c]
  | c :: d :: cs => if c = '0' then strip_leading_zeros (d :: cs) else c :: d :: cs

/-- The canonical form of a numeral string: its digits with leading zeros removed (one
digit is kept), no '+' prefix, and a '-' prefix exactly when the string starts with '-'
and some digit is not '0' (the value is nonzero). -/
def canonical_form (s : List Char) : List Char :=
  if s.head? = some '-' ∧ (numeral_body s).any (fun c => c != '0') then
    '-' :: strip_leading_zeros (numeral_body s)
  else strip_leading_zeros (numeral_body s)

/-! ## Auxiliary predicates of the proofs -/

/-- The loop invariant of `multiply_BigNum` for the accumulator `bg1` and the row: both
have radix `r` and sign `s`, all digits are below `r`, the row has no most-significant
zero digit, and a row of magnitude zero occurs only with sign PLUS. -/
def multiply_invariant (r : Nat) (s : Int) (bg1 row : BigNum) : Prop :=
  bg1.num_system = r ∧ row.num_system = r ∧ bg1.sign_bit = s ∧ row.sign_bit = s ∧
  (∀ d ∈ bg1.digits.array, d < r) ∧ (∀ d ∈ row.digits.array, d < r) ∧
  justified row.digits.array ∧ (magnitude r row.digits.array = 0 → s = PLUS)

/-- An operand of the magnitude subtraction inside `divide_BigNum`: radix `r`, sign PLUS,
digits below `r` and no most-significant zero digit. -/
def plain_operand (r : Nat) (x : BigNum) : Prop :=
  x.num_system = r ∧ x.sign_bit = PLUS ∧ (∀ d ∈ x.digits.array, d < r) ∧
  justified x.digits.array

/-! ## Lemmas on the digit buffer -/


theorem vector_reserve_array (v : Vector) (c : Nat) : (vector_reserve v c).array = v.array := by
  unfold vector_reserve; split <;> rfl

theorem push_back_array (v : Vector) (x : Nat) : (push_back v x).array = v.array ++ [x] := by
  unfold push_back; simp only []; split <;> simp [vector_reserve_array]

theorem vector_resize_loop_array (k : Nat) (v : Vector) :
    (vector_resize_loop k v).array = v.array ++ List.replicate k 0 := by
  induction k generalizing v with
  | zero => simp [vector_resize_loop]
  | succ k ih =>
    simp only [vector_resize_loop, ih, push_back_array, List.append_assoc, List.singleton_append,
      List.replicate_succ]

theorem vector_resize_array (v : Vector) (n : Nat) :
    (vector_resize v n).array = v.array ++ List.replicate (n - v.array.length) 0 := by
  unfold vector_resize
  simp only [vector_resize_loop_array]
  split <;> simp [vector_reserve_array, vector_size]

theorem getD_append_cons (pre rest : List Nat) (a d : Nat) :
    (pre ++ a :: rest).getD pre.length d = a := by
  induction pre with
  | nil => rfl
  | cons p pre ih => simpa using ih

theorem set_append_cons (pre rest : List Nat) (a x : Nat) :
    (pre ++ a :: rest).set pre.length x = pre ++ x :: rest := by
  induction pre with
  | nil => rfl
  | cons p pre ih => simp [ih]

theorem vector_get_mid (v : Vector) (pre rest : List Nat) (a : Nat) (i : Nat)
    (h : v.array = pre ++ a :: rest) (hi : pre.length = i) : vector_get v i = a := by
  subst hi
  simp only [vector_get, vector_size, h, getD_append_cons]
  simp

theorem vector_set_mid (v : Vector) (pre rest : List Nat) (a x : Nat) (i : Nat)
    (h : v.array = pre ++ a :: rest) (hi : pre.length = i) :
    (vector_set v i x).array = pre ++ x :: rest ∧ (vector_set v i x).capacity = v.capacity := by
  subst hi
  simp only [vector_set, vector_size, h, set_append_cons]
  simp

theorem copy_vector_loop_array (p : Vector) (k : Nat) : ∀ (i : Nat) (vec : Vector)
    (pre rest : List Nat), p.array = pre ++ rest → pre.length = i → rest.length = k →
    (copy_vector_loop p k i vec).array = vec.array ++ rest := by
  induction k with
  | zero =>
    intro i vec pre rest _ _ hk
    simp [copy_vector_loop, List.length_eq_zero.mp hk]
  | succ k ih =>
    intro i vec pre rest hp hi hk
    obtain ⟨a, rest', rfl⟩ := List.exists_cons_of_length_eq_add_one hk
    simp only [copy_vector_loop]
    rw [ih (i + 1) _ (pre ++ [a]) rest' (by simp [hp]) (by simp [hi]) (by simpa using hk)]
    rw [push_back_array, vector_get_mid p pre rest' a i hp hi]
    simp

theorem copy_vector_array (p : Vector) : (copy_vector p).array = p.array := by
  unfold copy_vector vector_size
  rw [copy_vector_loop_array p _ 0 _ [] p.array (by simp) rfl rfl]
  simp [vector_reserve_array, create_vector]

theorem element_swap_ends (c : Nat) (pre mid suf : List Nat) (a b : Nat) :
    (element_swap ⟨c, pre ++ (a :: mid ++ [b]) ++ suf⟩ pre.length
      (pre.length + mid.length + 1)).array = pre ++ (b :: mid ++ [a]) ++ suf := by
  have e1 : pre ++ (a :: mid ++ [b]) ++ suf = pre ++ a :: (mid ++ b :: suf) := by simp
  have e2 : pre ++ (a :: mid ++ [b]) ++ suf = (pre ++ a :: mid) ++ b :: suf := by simp
  have l2 : pre.length + mid.length + 1 = (pre ++ a :: mid).length := by simp; omega
  have e3 : pre ++ (b :: (mid ++ b :: suf)) = (pre ++ b :: mid) ++ b :: suf := by simp
  have l3 : pre.length + mid.length + 1 = (pre ++ b :: mid).length := by simp; omega
  simp only [element_swap]
  rw [show (pre ++ (a :: mid ++ [b]) ++ suf).getD pre.length 0 = a by
        rw [e1, getD_append_cons],
      show (pre ++ (a :: mid ++ [b]) ++ suf).getD (pre.length + mid.length + 1) 0 = b by
        rw [e2, l2, getD_append_cons]]
  rw [e1, set_append_cons, e3, l3, set_append_cons]
  simp

theorem reverse_vector_loop_array (k : Nat) : ∀ (i : Nat) (ptr : Vector)
    (pre mid suf : List Nat), ptr.array = pre ++ mid ++ suf → pre.length = i →
    suf.length = i → mid.length / 2 = k →
    (reverse_vector_loop k i ptr).array = pre ++ mid.reverse ++ suf := by
  induction k with
  | zero =>
    intro i ptr pre mid suf hp _ _ hk
    have hm : mid.length ≤ 1 := by omega
    have : mid.reverse = mid := by
      match mid, hm with
      | [], _ => rfl
      | [_], _ => rfl
    simp [reverse_vector_loop, hp, this]
  | succ k ih =>
    intro i ptr pre mid suf hp hi hs hk
    have hm : 2 ≤ mid.length := by omega
    obtain ⟨a, t, rfl⟩ : ∃ a t, mid = a :: t := by
      cases mid with
      | nil => simp at hm
      | cons a t => exact ⟨a, t, rfl⟩
    rcases List.eq_nil_or_concat t with rfl | ⟨m, b, ht⟩
    · simp at hm
    · rw [List.concat_eq_append] at ht
      subst ht
      simp only [reverse_vector_loop]
      have hsz : vector_size ptr - i - 1 = pre.length + m.length + 1 := by
        simp [vector_size, hp]; omega
      have hsw : (element_swap ptr i (vector_size ptr - i - 1)).array
          = pre ++ (b :: m ++ [a]) ++ suf := by
        rw [hsz, ← hi]
        have := element_swap_ends ptr.capacity pre m suf a b
        have hptr : ptr = ⟨ptr.capacity, pre ++ (a :: m ++ [b]) ++ suf⟩ := by
          cases ptr; simp_all
        rw [hptr]
        exact this
      rw [ih (i + 1) _ (pre ++ [b]) m ([a] ++ suf) (by rw [hsw]; simp) (by simp [hi])
        (by simp [hs]) (by simp at hk; omega)]
      simp

theorem reverse_vector_array (p : Vector) : (reverse_vector p).array = p.array.reverse := by
  unfold reverse_vector vector_size
  rw [reverse_vector_loop_array _ 0 p [] p.array [] (by simp) rfl rfl rfl]
  simp

theorem vector_back_concat (c : Nat) (l : List Nat) (x : Nat) :
    vector_back ⟨c, l ++ [x]⟩ = x := by
  simp only [vector_back, vector_size, List.length_append, List.length_singleton,
    Nat.add_sub_cancel]
  rw [getD_append_cons]
  simp

theorem pop_back_concat (c : Nat) (l : List Nat) (x : Nat) :
    pop_back ⟨c, l ++ [x]⟩ = ⟨c, l⟩ := by
  simp [pop_back, vector_size]

theorem magnitude_append_zeros (r : Nat) (l : List Nat) (k : Nat) :
    magnitude r (l ++ List.replicate k 0) = magnitude r l := by
  induction l with
  | nil =>
    induction k with
    | zero => rfl
    | succ k ih =>
      simp only [List.nil_append] at ih
      simp [List.replicate_succ, magnitude, ih]
  | cons a l ih => simp [magnitude, ih]

theorem justified_iff_exit (c : Nat) (l : List Nat) (h : l ≠ []) :
    justified l ↔ ¬ (vector_size ⟨c, l⟩ > 1 ∧ vector_back ⟨c, l⟩ = 0) := by
  rcases List.eq_nil_or_concat l with rfl | ⟨m, b, hm⟩
  · exact absurd rfl h
  · rw [List.concat_eq_append] at hm
    subst hm
    rw [vector_back_concat]
    simp only [justified, vector_size, List.length_append, List.length_singleton]
    constructor
    · rintro ⟨_, h1 | h1⟩
      · rintro ⟨_, rfl⟩
        simp at h1
      · rintro ⟨h2, _⟩
        have : (m ++ [b]).length = 1 := by rw [h1]; rfl
        simp at this
        simp [this] at h2
    · intro h2
      refine ⟨h, ?_⟩
      by_cases hb : b = 0
      · right
        subst hb
        have : m.length = 0 := by
          by_contra hne
          exact h2 ⟨by omega, rfl⟩
        simp [List.length_eq_zero.mp this]
      · left
        simp [hb]

theorem zero_justify_loop_prefix (fuel : Nat) : ∀ v : Vector,
    ∃ k, v.array = (zero_justify_loop fuel v).array ++ List.replicate k 0 ∧
      (zero_justify_loop fuel v).capacity = v.capacity := by
  induction fuel with
  | zero => intro v; exact ⟨0, by simp [zero_justify_loop]⟩
  | succ f ih =>
    intro v
    simp only [zero_justify_loop]
    split
    · rename_i hc
      obtain ⟨c, l⟩ := v
      rcases List.eq_nil_or_concat l with rfl | ⟨m, b, hm⟩
      · simp [vector_size] at hc
      · rw [List.concat_eq_append] at hm
        subst hm
        rw [vector_back_concat] at hc
        obtain ⟨_, rfl⟩ := hc
        rw [pop_back_concat]
        obtain ⟨k, hk, hcap⟩ := ih ⟨c, m⟩
        refine ⟨k + 1, ?_, hcap⟩
        simp only at hk
        conv_lhs => rw [hk]
        simp [List.replicate_succ']
    · exact ⟨0, by simp⟩

theorem zero_justify_loop_justified (fuel : Nat) : ∀ v : Vector, v.array ≠ [] →
    v.array.length ≤ fuel + 1 → justified (zero_justify_loop fuel v).array := by
  induction fuel with
  | zero =>
    intro v hne hlen
    simp only [zero_justify_loop]
    obtain ⟨c, l⟩ := v
    rw [justified_iff_exit c l hne]
    simp only [vector_size]
    simp at hlen
    omega
  | succ f ih =>
    intro v hne hlen
    simp only [zero_justify_loop]
    split
    · rename_i hc
      obtain ⟨c, l⟩ := v
      rcases List.eq_nil_or_concat l with rfl | ⟨m, b, hm⟩
      · exact absurd rfl hne
      · rw [List.concat_eq_append] at hm
        subst hm
        rw [pop_back_concat]
        apply ih
        · simp only [vector_size, List.length_append, List.length_singleton] at hc
          intro hm
          simp only at hm
          simp [hm] at hc
        · simp at hlen ⊢
          omega
    · rename_i hc
      obtain ⟨c, l⟩ := v
      exact (justified_iff_exit c l hne).mpr hc

theorem zero_justify_loop_pad (l : List Nat) (hl : justified l) (k : Nat) :
    ∀ (fuel c : Nat), k ≤ fuel →
    (zero_justify_loop fuel ⟨c, l ++ List.replicate k 0⟩).array = l := by
  induction k with
  | zero =>
    intro fuel c _
    simp only [List.replicate_zero, List.append_nil]
    cases fuel with
    | zero => rfl
    | succ f =>
      simp only [zero_justify_loop]
      rw [if_neg ((justified_iff_exit c l hl.1).mp hl)]
  | succ k ih =>
    intro fuel c hf
    obtain ⟨f, rfl⟩ : ∃ f, fuel = f + 1 := ⟨fuel - 1, by omega⟩
    have e : l ++ List.replicate (k + 1) 0 = (l ++ List.replicate k 0) ++ [0] := by
      simp [List.replicate_succ']
    simp only [zero_justify_loop]
    rw [e, vector_back_concat, pop_back_concat]
    have hl1 : 0 < l.length := List.length_pos.mpr hl.1
    rw [if_pos ⟨by simp [vector_size]; omega, rfl⟩]
    exact ih f c (by omega)

/-! ## Parsing and printing -/

theorem hex_map_digit : ∀ c ∈ hex_digits, hex_digits.getD (map_digit c) '?' = c := by
  decide

theorem hex_zero_iff : ∀ d < 16, (hex_digits.getD d '?' = '0' ↔ d = 0) := by
  decide

theorem assign_value_loop_ok (system : Nat) (body : List Char) :
    ∀ d : Vector, (∀ c ∈ body, map_digit c < system) →
    (assign_value_loop system body d).1 = true ∧
    (assign_value_loop system body d).2.array = d.array ++ body.map map_digit := by
  induction body with
  | nil => intro d _; simp [assign_value_loop]
  | cons c cs ih =>
    intro d h
    have hc : ¬ map_digit c ≥ system := by
      have := h c (List.mem_cons_self _ _); omega
    simp only [assign_value_loop, if_neg hc]
    obtain ⟨h1, h2⟩ := ih (push_back d (map_digit c)) (fun x hx => h x (List.mem_cons_of_mem _ hx))
    exact ⟨h1, by rw [h2, push_back_array]; simp⟩

theorem to_text_digits (v : Vector) :
    (List.range (vector_size v)).map
      (fun i => hex_digits.getD (vector_get v (vector_size v - i - 1)) '?')
    = v.array.reverse.map (fun d => hex_digits.getD d '?') := by
  apply List.ext_getElem
  · simp [vector_size]
  · intro i h1 h2
    simp only [List.length_map, List.length_range, vector_size] at h1
    simp only [List.getElem_map, List.getElem_range, List.getElem_reverse, vector_get,
      vector_size]
    rw [if_neg (by omega)]
    congr 1
    rw [List.getD_eq_getElem _ _ (by omega)]
    congr 1
    omega

theorem strip_leading_zeros_replicate (y : List Char) (hy : y ≠ [])
    (hh : y.head? ≠ some '0' ∨ y = ['0']) (k : Nat) :
    strip_leading_zeros (List.replicate k '0' ++ y) = y := by
  induction k with
  | zero =>
    simp only [List.replicate_zero, List.nil_append]
    match y, hy, hh with
    | [c], _, _ => rfl
    | c :: d :: cs, _, hh =>
      simp only [strip_leading_zeros]
      rw [if_neg]
      rintro rfl
      simp at hh
  | succ k ih =>
    rw [List.replicate_succ, List.cons_append]
    cases hrest : List.replicate k '0' ++ y with
    | nil => simp [hy] at hrest
    | cons d cs =>
      simp only [strip_leading_zeros, if_true]
      rw [← hrest, ih]

theorem any_nonzero_replicate (y : List Char) (hy : y ≠ [])
    (hh : y.head? ≠ some '0' ∨ y = ['0']) (k : Nat) :
    (List.replicate k '0' ++ y).any (fun c => c != '0') = true ↔ y ≠ ['0'] := by
  constructor
  · intro h1 h2
    subst h2
    simp at h1
  · intro h1
    rcases hh with hh | hh
    · match y, hy, hh with
      | c :: cs, _, hh =>
        have : c ≠ '0' := by rintro rfl; simp at hh
        simp [this]
    · exact absurd hh h1

theorem single_zero_iff (d : Vector) :
    (vector_size d = 1 ∧ vector_back d = 0) ↔ d.array = [0] := by
  obtain ⟨c, l⟩ := d
  match l with
  | [] => simp [vector_size]
  | [x] => simp [vector_size, vector_back]
  | x :: y :: t => simp [vector_size]

theorem zero_justify_digits (bg : BigNum) :
    (zero_justify bg).digits = zero_justify_loop (vector_size bg.digits) bg.digits := by
  unfold zero_justify; simp only []; split <;> rfl

theorem zero_justify_num_system (bg : BigNum) :
    (zero_justify bg).num_system = bg.num_system := by
  unfold zero_justify; simp only []; split <;> rfl

theorem zero_justify_sign (bg : BigNum) :
    (zero_justify bg).sign_bit =
      if (zero_justify bg).digits.array = [0] then PLUS else bg.sign_bit := by
  rw [zero_justify_digits]
  unfold zero_justify
  simp only [single_zero_iff]
  split <;> rfl

theorem to_cstring_eq (b : BigNum) :
    BigNum_to_cstring b =
      (if b.sign_bit = PLUS then [] else ['-']) ++
        b.digits.array.reverse.map (fun d => hex_digits.getD d '?') := by
  have h2 : (List.range (vector_size b.digits)).map
      (fun j => hex_digits.getD (vector_get b.digits (vector_size b.digits - (j + 1))) '?')
      = b.digits.array.reverse.map (fun d => hex_digits.getD d '?') := by
    rw [← to_text_digits]
    apply List.map_congr_left
    intro j _
    rw [Nat.sub_add_eq, Nat.sub_right_comm]
  unfold BigNum_to_cstring
  simp only [BigNum_size, BigNum_sign]
  split
  · rw [to_text_digits]; simp
  · rw [h2]; simp

/-- C1: for every radix r in 2..16 and every valid numeral s of that radix (optional
sign, then one or more digits of the alphabet 0-9A-F with values below r),
`assign_value` succeeds and `BigNum_to_cstring` of the result is the canonical form
of s. -/
theorem C1_parse_print_roundtrip (bg : BigNum) (r : Nat) (s : List Char)
    (_hr2 : 2 ≤ r) (_hr16 : r ≤ 16) (hs : valid_numeral r s) :
    (assign_value bg s r).ok = true ∧
    BigNum_to_cstring (assign_value bg s r).bg = canonical_form s := by
  obtain ⟨hne, hval⟩ := hs
  match s, hne, hval with
  | c :: cs, hne, hval =>
    -- the digit loop succeeds and stores the digit values in reading order
    obtain ⟨hok, harr⟩ := assign_value_loop_ok r (numeral_body (c :: cs))
      (vector_clear bg.digits) (fun x hx => (hval x hx).2)
    simp only [numeral_body] at hok harr hne hval
    simp only [vector_clear, List.nil_append] at harr hok
    simp only [assign_value, clear_BigNum, vector_clear, hok]
    refine ⟨by simp, ?_⟩
    simp only [Bool.true_eq_false, if_false]
    generalize hbody : (if c = '-' ∨ c = '+' then cs else c :: cs) = body at *
    generalize hrv : (assign_value_loop r body ⟨bg.digits.capacity, []⟩).2 = rv at *
    -- the printed text in terms of the justified digits
    rw [to_cstring_eq, zero_justify_sign, zero_justify_digits]
    simp only []
    obtain ⟨k, hk, _⟩ := zero_justify_loop_prefix (vector_size (reverse_vector rv))
      (reverse_vector rv)
    have hj := zero_justify_loop_justified (vector_size (reverse_vector rv)) (reverse_vector rv)
      (by rw [reverse_vector_array, harr]; simpa using hne)
      (by simp [vector_size])
    generalize (zero_justify_loop (vector_size (reverse_vector rv)) (reverse_vector rv)).array
      = z at hk hj
    rw [reverse_vector_array, harr] at hk
    -- the body is k zeros followed by the printed digits
    have hds : body.map map_digit = List.replicate k 0 ++ z.reverse := by
      have := congrArg List.reverse hk
      simpa using this
    have hbody2 : body = List.replicate k '0' ++ z.reverse.map (fun d => hex_digits.getD d '?') := by
      have h1 : (body.map map_digit).map (fun d => hex_digits.getD d '?') = body := by
        rw [List.map_map]
        conv_rhs => rw [← List.map_id body]
        apply List.map_congr_left
        intro x hx
        exact hex_map_digit x (hval x hx).1
      rw [← h1, hds]
      simp [hex_digits]
    have hz16 : ∀ d ∈ z, d < 16 := by
      intro d hd
      have : d ∈ body.map map_digit := by rw [hds]; simp [hd]
      obtain ⟨x, hx, rfl⟩ := List.mem_map.mp this
      have := (hval x hx).2
      omega
    set y := z.reverse.map (fun d => hex_digits.getD d '?') with hy
    have hyne : y ≠ [] := by
      rw [hy]; simpa using hj.1
    have hyz : y = ['0'] ↔ z = [0] := by
      constructor
      · intro h
        have hl : z.length = 1 := by
          have := congrArg List.length h
          simpa [hy] using this
        match z, hl with
        | [d], _ =>
          simp [hy] at h
          rw [← List.getD_eq_getElem?_getD] at h
          rw [(hex_zero_iff d (hz16 d (by simp))).mp h]
      · intro h; rw [hy, h]; rfl
    have hyh : y.head? ≠ some '0' ∨ y = ['0'] := by
      rcases hj.2 with h | h
      · left
        intro hc
        apply h
        rcases List.eq_nil_or_concat z with rfl | ⟨m, b, hm⟩
        · exact absurd rfl hj.1
        · rw [List.concat_eq_append] at hm
          subst hm
          simp [hy] at hc
          rw [← List.getD_eq_getElem?_getD] at hc
          simp [(hex_zero_iff b (hz16 b (by simp))).mp hc]
      · right; exact hyz.mpr h
    have hstrip : strip_leading_zeros body = y := by
      rw [hbody2]; exact strip_leading_zeros_replicate y hyne hyh k
    have hany : body.any (fun c => c != '0') = true ↔ z ≠ [0] := by
      rw [hbody2, any_nonzero_replicate y hyne hyh k]
      exact not_congr hyz
    simp only [canonical_form, numeral_body, hbody, hstrip, List.head?_cons, Option.some.injEq]
    by_cases hz : z = [0]
    · have : ¬ (body.any (fun c => c != '0') = true) := fun h => hany.mp h hz
      simp [hz, this, PLUS]
    · have : body.any (fun c => c != '0') = true := hany.mpr hz
      rw [if_neg hz]
      by_cases hc : c = '-'
      · simp [hc, this, PLUS]
      · simp [hc, PLUS]

/-- A valid hexadecimal numeral with redundant zeros and a sign, for C1. -/
theorem C1_parse_print_roundtrip_witness :
    valid_numeral 16 ['-', '0', '0', 'F', 'B'] ∧
    (assign_value create_BigNum ['-', '0', '0', 'F', 'B'] 16).ok = true ∧
    BigNum_to_cstring (assign_value create_BigNum ['-', '0', '0', 'F', 'B'] 16).bg
      = canonical_form ['-', '0', '0', 'F', 'B'] :=
  ⟨by decide, C1_parse_print_roundtrip create_BigNum 16 _ (by decide) (by decide) (by decide)⟩

/-! ## Addition -/

theorem magnitude_append (r : Nat) (l m : List Nat) :
    magnitude r (l ++ m) = magnitude r l + r ^ l.length * magnitude r m := by
  induction l with
  | nil => simp [magnitude]
  | cons a l ih => simp [magnitude, ih, pow_succ]; ring

theorem magnitude_lt (r : Nat) (l : List Nat) (h : ∀ d ∈ l, d < r) :
    magnitude r l < r ^ l.length := by
  induction l with
  | nil => simp [magnitude]
  | cons a l ih =>
    have ha : a < r := h a (List.mem_cons_self _ _)
    have hl := ih (fun d hd => h d (List.mem_cons_of_mem _ hd))
    simp only [magnitude, List.length_cons, pow_succ]
    have : r * (magnitude r l + 1) ≤ r * r ^ l.length := Nat.mul_le_mul_left r hl
    nlinarith

theorem add_loop_spec (r : Nat) (hr : 2 ≤ r) (hr256 : r ≤ 256) (d2 : Vector) (k : Nat) :
    ∀ (i carry : Nat) (d1 : Vector) (pre pre2 xs ys : List Nat),
    d1.array = pre ++ xs → d2.array = pre2 ++ ys → pre.length = i → pre2.length = i →
    xs.length = k → ys.length = k → (∀ a ∈ xs, a < r) → (∀ b ∈ ys, b < r) → carry ≤ 1 →
    ∃ out cout, (add_loop r d2 k i carry d1).array = pre ++ out ∧ out.length = k ∧
      (∀ d ∈ out, d < r) ∧
      magnitude r out + r ^ k * cout = carry + magnitude r xs + magnitude r ys ∧
      (add_loop r d2 k i carry d1).capacity = d1.capacity := by
  induction k with
  | zero =>
    intro i carry d1 pre pre2 xs ys h1 _ _ _ hx hy _ _ _
    rw [List.length_eq_zero.mp hx] at h1 ⊢
    rw [List.length_eq_zero.mp hy]
    exact ⟨[], carry, by simpa [add_loop] using h1, rfl, by simp, by simp [magnitude], rfl⟩
  | succ k ih =>
    intro i carry d1 pre pre2 xs ys h1 h2 hp hp2 hx hy hxr hyr hc
    obtain ⟨a, xs', rfl⟩ := List.exists_cons_of_length_eq_add_one hx
    obtain ⟨b, ys', rfl⟩ := List.exists_cons_of_length_eq_add_one hy
    have ha : a < r := hxr a (List.mem_cons_self _ _)
    have hb : b < r := hyr b (List.mem_cons_self _ _)
    simp only [add_loop]
    rw [vector_get_mid d1 pre xs' a i h1 hp, vector_get_mid d2 pre2 ys' b i h2 hp2]
    obtain ⟨hset, hcap⟩ := vector_set_mid d1 pre xs' a ((carry + a + b) % r % 256) i h1 hp
    have hdig : (carry + a + b) % r % 256 = (carry + a + b) % r :=
      Nat.mod_eq_of_lt (lt_of_lt_of_le (Nat.mod_lt _ (by omega)) hr256)
    have hcar : (carry + a + b) / r ≤ 1 := by
      have : carry + a + b < 2 * r := by omega
      have := Nat.div_lt_of_lt_mul (by rw [Nat.mul_comm] at this; exact this)
      omega
    obtain ⟨out, cout, ho1, ho2, ho3, ho4, ho5⟩ := ih (i + 1) ((carry + a + b) / r)
      (vector_set d1 i ((carry + a + b) % r % 256)) (pre ++ [(carry + a + b) % r])
      (pre2 ++ [b]) xs' ys' (by rw [hset, hdig]; simp) (by rw [h2]; simp) (by simp [hp])
      (by simp [hp2]) (by simpa using hx) (by simpa using hy)
      (fun d hd => hxr d (List.mem_cons_of_mem _ hd))
      (fun d hd => hyr d (List.mem_cons_of_mem _ hd)) hcar
    refine ⟨(carry + a + b) % r :: out, cout, by rw [ho1]; simp, by simp [ho2], ?_, ?_,
      by rw [ho5, hcap]⟩
    · intro d hd
      rcases List.mem_cons.mp hd with rfl | hd
      · exact Nat.mod_lt _ (by omega)
      · exact ho3 d hd
    · simp only [magnitude, pow_succ]
      have hdm := Nat.div_add_mod (carry + a + b) r
      have e : r * (magnitude r out + r ^ k * cout)
          = r * ((carry + a + b) / r + magnitude r xs' + magnitude r ys') := by rw [ho4]
      linarith

theorem zero_justify_spec (bg : BigNum) (r : Nat) (hne : bg.digits.array ≠ []) :
    justified (zero_justify bg).digits.array ∧
    magnitude r (zero_justify bg).digits.array = magnitude r bg.digits.array ∧
    (∀ d ∈ (zero_justify bg).digits.array, d ∈ bg.digits.array) := by
  rw [zero_justify_digits]
  obtain ⟨k, hk, _⟩ := zero_justify_loop_prefix (vector_size bg.digits) bg.digits
  refine ⟨zero_justify_loop_justified _ _ hne (by simp [vector_size]), ?_, ?_⟩
  · conv_rhs => rw [hk, magnitude_append_zeros]
  · intro d hd
    rw [hk]
    exact List.mem_append_left _ hd

theorem zero_justify_pad (bg : BigNum) (l : List Nat) (k : Nat)
    (h : bg.digits.array = l ++ List.replicate k 0) (hl : justified l) :
    (zero_justify bg).digits.array = l := by
  rw [zero_justify_digits]
  have e : bg.digits = ⟨bg.digits.capacity, l ++ List.replicate k 0⟩ := by
    rw [← h]
  rw [e]
  exact zero_justify_loop_pad l hl k _ _ (by simp [vector_size])

theorem zero_justify_normalized_eq (bg : BigNum) (hl : justified bg.digits.array) :
    (zero_justify bg).digits.array = bg.digits.array :=
  zero_justify_pad bg bg.digits.array 0 (by simp) hl

theorem add_same_sign_spec (a b : BigNum) (r : Nat) (hr : 2 ≤ r) (hr256 : r ≤ 256)
    (hb : b.num_system = r)
    (hda : ∀ d ∈ a.digits.array, d < r) (hdb : ∀ d ∈ b.digits.array, d < r) :
    (add_same_sign a b).ok = true ∧
    justified (add_same_sign a b).bg1.digits.array ∧
    (∀ d ∈ (add_same_sign a b).bg1.digits.array, d < r) ∧
    magnitude r (add_same_sign a b).bg1.digits.array
      = magnitude r a.digits.array + magnitude r b.digits.array ∧
    (add_same_sign a b).bg1.num_system = a.num_system ∧
    (add_same_sign a b).bg1.sign_bit
      = (if (add_same_sign a b).bg1.digits.array = [0] then PLUS else a.sign_bit) ∧
    (add_same_sign a b).bg2.num_system = b.num_system ∧
    (add_same_sign a b).bg2.sign_bit
      = (if (add_same_sign a b).bg2.digits.array = [0] then PLUS else b.sign_bit) ∧
    (justified b.digits.array → (add_same_sign a b).bg2.digits.array = b.digits.array) := by
  set m := max (BigNum_size a) (BigNum_size b) + 1 with hm
  have hma : a.digits.array.length + 1 ≤ m := by
    simp only [hm, BigNum_size, vector_size]; omega
  have hmb : b.digits.array.length + 1 ≤ m := by
    simp only [hm, BigNum_size, vector_size]; omega
  have h1 := vector_resize_array a.digits m
  have h2 := vector_resize_array b.digits m
  have hz : ∀ (l : List Nat) (n : Nat), (∀ d ∈ l, d < r) →
      ∀ d ∈ l ++ List.replicate n 0, d < r := by
    intro l n hl d hd
    rcases List.mem_append.mp hd with h | h
    · exact hl d h
    · rw [(List.mem_replicate.mp h).2]; omega
  obtain ⟨out, cout, ho1, ho2, ho3, ho4, _⟩ := add_loop_spec r hr hr256 (vector_resize b.digits m)
    m 0 0 (vector_resize a.digits m) [] [] _ _ (by rw [h1]; rfl) (by rw [h2]; rfl) rfl rfl
    (by simp; omega) (by simp; omega) (hz _ _ hda) (hz _ _ hdb) (by omega)
  rw [magnitude_append_zeros, magnitude_append_zeros] at ho4
  have hcout : cout = 0 := by
    have ha := magnitude_lt r _ hda
    have hb' := magnitude_lt r _ hdb
    have hpa : r ^ a.digits.array.length ≤ r ^ (m - 1) :=
      Nat.pow_le_pow_right (by omega) (by omega)
    have hpb : r ^ b.digits.array.length ≤ r ^ (m - 1) :=
      Nat.pow_le_pow_right (by omega) (by omega)
    have hpm : r ^ m = r * r ^ (m - 1) := by
      conv_lhs => rw [show m = (m - 1) + 1 by omega, pow_succ]
      ring
    have h2r : 2 * r ^ (m - 1) ≤ r * r ^ (m - 1) := Nat.mul_le_mul_right _ hr
    by_contra hne
    have : r ^ m ≤ r ^ m * cout := Nat.le_mul_of_pos_right _ (Nat.pos_of_ne_zero hne)
    omega
  rw [hcout] at ho4
  simp only [Nat.mul_zero, Nat.add_zero, Nat.zero_add, List.nil_append] at ho4 ho1
  have hbase : BigNum_base b = r := hb
  generalize hL : add_loop r (vector_resize b.digits m) m 0 0 (vector_resize a.digits m) = L
    at ho1
  have hres1 : (add_same_sign a b).bg1 = zero_justify { a with digits := L } := by
    rw [← hL, ← hbase]; rfl
  have hres2 : (add_same_sign a b).bg2
      = zero_justify { b with digits := vector_resize b.digits m } := rfl
  have hne : out ≠ [] := by
    intro h; rw [h] at ho2; simp at ho2; omega
  obtain ⟨z1, z2, z3⟩ := zero_justify_spec { a with digits := L } r
    (by simpa [ho1] using hne)
  simp only [ho1] at z2 z3
  refine ⟨rfl, ?_, ?_, ?_, ?_, ?_, ?_, ?_, ?_⟩
  · rw [hres1]; exact z1
  · rw [hres1]; exact fun d hd => ho3 d (z3 d hd)
  · rw [hres1, z2, ho4]
  · rw [hres1, zero_justify_num_system]
  · rw [hres1, zero_justify_sign]
  · rw [hres2, zero_justify_num_system]
  · rw [hres2, zero_justify_sign]
  · intro hj
    rw [hres2]
    exact zero_justify_pad _ _ _ h2 hj

/-! ## The mutual calls of `add_BigNum` and `subtract_BigNum` -/

theorem subtract_BigNum_unsigned (a b : BigNum) (hr : a.num_system = b.num_system)
    (ha : a.sign_bit ≠ MINUS) (hb : b.sign_bit ≠ MINUS) :
    subtract_BigNum a b = subtract_magnitude a b := by
  rw [subtract_BigNum]
  simp [BigNum_base, BigNum_sign, hr, ha, hb]

theorem subtract_BigNum_signed (a b : BigNum) (hr : a.num_system = b.num_system)
    (h : a.sign_bit = MINUS ∨ b.sign_bit = MINUS) :
    subtract_BigNum a b =
      ⟨true, (add_BigNum a { b with sign_bit := b.sign_bit * -1 }).bg1,
        { (add_BigNum a { b with sign_bit := b.sign_bit * -1 }).bg2 with
          sign_bit := (add_BigNum a { b with sign_bit := b.sign_bit * -1 }).bg2.sign_bit * -1 }⟩ := by
  rw [subtract_BigNum]
  simp [BigNum_base, BigNum_sign, hr, h]

theorem add_BigNum_same (a b : BigNum) (hr : a.num_system = b.num_system)
    (hs : a.sign_bit = b.sign_bit) : add_BigNum a b = add_same_sign a b := by
  rw [add_BigNum]
  simp [BigNum_base, BigNum_sign, hr, hs]

theorem add_BigNum_minus_plus (a b : BigNum) (hr : a.num_system = b.num_system)
    (ha : a.sign_bit = MINUS) (hb : b.sign_bit ≠ MINUS) :
    add_BigNum a b =
      ⟨(subtract_magnitude { a with sign_bit := PLUS } b).ok,
        { (subtract_magnitude { a with sign_bit := PLUS } b).bg1 with sign_bit := MINUS },
        (subtract_magnitude { a with sign_bit := PLUS } b).bg2⟩ := by
  have hne : a.sign_bit ≠ b.sign_bit := by rw [ha]; exact fun h => hb h.symm
  have e := subtract_BigNum_unsigned { a with sign_bit := PLUS } b hr
    (by simp [PLUS, MINUS]) hb
  rw [add_BigNum]
  simp only [e]
  simp [BigNum_base, BigNum_sign, hr, hne, ha]
  intro h
  exact absurd h.symm hb

theorem add_BigNum_plus_other (a b : BigNum) (hr : a.num_system = b.num_system)
    (ha : a.sign_bit ≠ MINUS) (hs : a.sign_bit ≠ b.sign_bit) :
    add_BigNum a b =
      ⟨(subtract_magnitude a { b with sign_bit := PLUS }).ok,
        (subtract_magnitude a { b with sign_bit := PLUS }).bg1,
        { (subtract_magnitude a { b with sign_bit := PLUS }).bg2 with sign_bit := MINUS }⟩ := by
  have e := subtract_BigNum_unsigned a { b with sign_bit := PLUS } hr ha
    (by simp [PLUS, MINUS])
  rw [add_BigNum]
  simp only [e]
  simp [BigNum_base, BigNum_sign, hr, hs, ha]

theorem normalized_sign_zero (a : BigNum) (ha : normalized a)
    (h : magnitude a.num_system a.digits.array = 0) : a.digits.array = [0] := by
  obtain ⟨h2, _, _, hd, ⟨hne, hj⟩, _⟩ := ha
  rcases hj with hj | hj
  · exfalso
    rcases List.eq_nil_or_concat a.digits.array with h0 | ⟨m, x, hm⟩
    · exact hne h0
    · rw [List.concat_eq_append] at hm
      rw [hm] at hj h
      rw [magnitude_append] at h
      simp only [magnitude, Nat.mul_zero, Nat.add_zero] at h
      have hx : x ≠ 0 := by
        intro hx; apply hj; simp [hx]
      have hp : 0 < a.num_system ^ m.length := Nat.pow_pos (by omega)
      have : 0 < a.num_system ^ m.length * x := Nat.mul_pos hp (Nat.pos_of_ne_zero hx)
      omega
  · exact hj

/-- C3: when the operands are normalized, of equal radix and of equal sign,
`add_BigNum` succeeds, leaves the first operand normalized with the same radix and sign,
with magnitude |a| + |b| and value val(a) + val(b), and leaves the second operand with
the sign, digits and radix it had. -/
theorem C3_add_same_sign (a b : BigNum) (ha : normalized a) (hb : normalized b)
    (hr : a.num_system = b.num_system) (hs : a.sign_bit = b.sign_bit) :
    (add_BigNum a b).ok = true ∧
    normalized (add_BigNum a b).bg1 ∧
    (add_BigNum a b).bg1.num_system = a.num_system ∧
    (add_BigNum a b).bg1.sign_bit = a.sign_bit ∧
    magnitude a.num_system (add_BigNum a b).bg1.digits.array
      = magnitude a.num_system a.digits.array + magnitude b.num_system b.digits.array ∧
    val (add_BigNum a b).bg1 = val a + val b ∧
    (add_BigNum a b).bg2.sign_bit = b.sign_bit ∧
    (add_BigNum a b).bg2.digits.array = b.digits.array ∧
    (add_BigNum a b).bg2.num_system = b.num_system := by
  rw [add_BigNum_same a b hr hs]
  obtain ⟨a2, a16, asg, ad, aj, az⟩ := id ha
  obtain ⟨b2, b16, bsg, bd, bj, bz⟩ := id hb
  obtain ⟨h1, h2, h3, h4, h5, h6, h7, h8, h9⟩ := add_same_sign_spec a b a.num_system a2
    (by omega) hr.symm ad (by rw [hr]; exact bd)
  have h9' := h9 bj
  -- the sign of the sum is the common sign
  have hsign : (add_same_sign a b).bg1.sign_bit = a.sign_bit := by
    rw [h6]
    split
    · rename_i hz
      rw [hz] at h4
      simp only [magnitude, Nat.mul_zero, Nat.add_zero] at h4
      have : magnitude a.num_system a.digits.array = 0 := by omega
      exact (az (normalized_sign_zero a ha this)).symm
    · rfl
  have hsign2 : (add_same_sign a b).bg2.sign_bit = b.sign_bit := by
    rw [h8, h9']
    split
    · rename_i hz; exact (bz hz).symm
    · rfl
  refine ⟨h1, ⟨by rw [h5]; exact a2, by rw [h5]; exact a16, by rw [hsign]; exact asg,
    by rw [h5]; exact h3, h2, ?_⟩, h5, hsign, by rw [h4, hr], ?_, hsign2, h9', h7⟩
  · intro hz
    rw [h6, if_pos hz]
  · simp only [val, h5, hsign, h4, ← hr, hs]
    push_cast
    ring

/-- Two negative decimal numbers, 95 and 7, for C3. -/
theorem C3_add_same_sign_witness :
    normalized ⟨-1, ⟨2, [5, 9]⟩, 10⟩ ∧ normalized ⟨-1, ⟨1, [7]⟩, 10⟩ ∧
    val (add_BigNum ⟨-1, ⟨2, [5, 9]⟩, 10⟩ ⟨-1, ⟨1, [7]⟩, 10⟩).bg1
      = val ⟨-1, ⟨2, [5, 9]⟩, 10⟩ + val ⟨-1, ⟨1, [7]⟩, 10⟩ :=
  ⟨by decide, by decide,
    (C3_add_same_sign ⟨-1, ⟨2, [5, 9]⟩, 10⟩ ⟨-1, ⟨1, [7]⟩, 10⟩ (by decide) (by decide) rfl
      rfl).2.2.2.2.2.1⟩

/-! ## Comparison of magnitudes -/

theorem magnitude_concat_lt (r : Nat) (xs ys : List Nat) (x y : Nat)
    (hl : xs.length = ys.length) (hy : ∀ d ∈ ys, d < r) (hxy : y < x) :
    magnitude r (ys ++ [y]) < magnitude r (xs ++ [x]) := by
  rw [magnitude_append, magnitude_append]
  simp only [magnitude, Nat.mul_zero, Nat.add_zero]
  have h1 := magnitude_lt r ys hy
  rw [hl]
  have h2 : r ^ ys.length * (y + 1) ≤ r ^ ys.length * x := Nat.mul_le_mul_left _ hxy
  rw [Nat.mul_add, Nat.mul_one] at h2
  omega

theorem compare_abs_loop_spec (r : Nat) (d1 d2 : Vector) (n : Nat) (k : Nat) :
    ∀ (i : Nat) (xs ys s1 s2 : List Nat), d1.array = xs ++ s1 → d2.array = ys ++ s2 →
    xs.length = k → ys.length = k → n = k + i →
    (∀ d ∈ xs, d < r) → (∀ d ∈ ys, d < r) →
    (compare_abs_loop d1 d2 n k i = 1 ∧ magnitude r ys < magnitude r xs) ∨
    (compare_abs_loop d1 d2 n k i = 0 ∧ xs = ys) ∨
    (compare_abs_loop d1 d2 n k i = -1 ∧ magnitude r xs < magnitude r ys) := by
  induction k with
  | zero =>
    intro i xs ys s1 s2 _ _ hx hy _ _ _
    right; left
    rw [List.length_eq_zero.mp hx, List.length_eq_zero.mp hy]
    exact ⟨rfl, rfl⟩
  | succ k ih =>
    intro i xs ys s1 s2 h1 h2 hx hy hn hxr hyr
    rcases List.eq_nil_or_concat xs with rfl | ⟨xs', x, hxs⟩
    · simp at hx
    rcases List.eq_nil_or_concat ys with rfl | ⟨ys', y, hys⟩
    · simp at hy
    rw [List.concat_eq_append] at hxs hys
    subst hxs hys
    simp only [List.length_append, List.length_singleton, Nat.add_right_cancel_iff] at hx hy
    have hidx : n - i - 1 = k := by omega
    have g1 : vector_get d1 (n - i - 1) = x :=
      vector_get_mid d1 xs' s1 x _ (by rw [h1]; simp) (by omega)
    have g2 : vector_get d2 (n - i - 1) = y :=
      vector_get_mid d2 ys' s2 y _ (by rw [h2]; simp) (by omega)
    have hxr' : ∀ d ∈ xs', d < r := fun d hd => hxr d (List.mem_append_left _ hd)
    have hyr' : ∀ d ∈ ys', d < r := fun d hd => hyr d (List.mem_append_left _ hd)
    simp only [compare_abs_loop, g1, g2]
    by_cases hgt : x > y
    · left
      rw [if_pos hgt]
      exact ⟨rfl, magnitude_concat_lt r xs' ys' x y (by omega) hyr' hgt⟩
    · rw [if_neg hgt]
      by_cases hlt : x < y
      · right; right
        rw [if_pos hlt]
        exact ⟨rfl, magnitude_concat_lt r ys' xs' y x (by omega) hxr' hlt⟩
      · rw [if_neg hlt]
        have hxy : x = y := by omega
        subst hxy
        rcases ih (i + 1) xs' ys' (x :: s1) (x :: s2) (by rw [h1]; simp) (by rw [h2]; simp)
          hx hy (by omega) hxr' hyr' with h | h | h
        · left
          refine ⟨h.1, ?_⟩
          rw [magnitude_append, magnitude_append, hx, hy]
          omega
        · right; left
          exact ⟨h.1, by rw [h.2]⟩
        · right; right
          refine ⟨h.1, ?_⟩
          rw [magnitude_append, magnitude_append, hx, hy]
          omega

theorem magnitude_ge_of_justified (r : Nat) (l : List Nat) (hl : justified l)
    (h2 : 2 ≤ l.length) : r ^ (l.length - 1) ≤ magnitude r l := by
  rcases List.eq_nil_or_concat l with rfl | ⟨m, x, hm⟩
  · simp at h2
  · rw [List.concat_eq_append] at hm
    subst hm
    have hx : x ≠ 0 := by
      rcases hl.2 with h | h
      · intro hx; apply h; simp [hx]
      · have := congrArg List.length h
        simp only [List.length_append, List.length_singleton, List.length_cons,
          List.length_nil] at this h2
        omega
    rw [magnitude_append]
    simp only [magnitude, Nat.mul_zero, Nat.add_zero, List.length_append, List.length_singleton,
      Nat.add_sub_cancel]
    have : r ^ m.length * 1 ≤ r ^ m.length * x :=
      Nat.mul_le_mul_left _ (Nat.pos_of_ne_zero hx)
    omega

theorem magnitude_lt_of_shorter (r : Nat) (hr : 2 ≤ r) (a b : List Nat)
    (ha : justified a) (hb : justified b) (hdb : ∀ d ∈ b, d < r)
    (hlen : b.length < a.length) : magnitude r b < magnitude r a := by
  have hb1 : 0 < b.length := List.length_pos.mpr hb.1
  have h1 := magnitude_ge_of_justified r a ha (by omega)
  have h2 := magnitude_lt r b hdb
  have h3 : r ^ b.length ≤ r ^ (a.length - 1) := Nat.pow_le_pow_right (by omega) (by omega)
  omega

theorem compare_abs_spec (a b : BigNum) (r : Nat) (hr : 2 ≤ r)
    (hra : a.num_system = r) (hrb : b.num_system = r)
    (hda : ∀ d ∈ a.digits.array, d < r) (hdb : ∀ d ∈ b.digits.array, d < r)
    (ha : justified a.digits.array) (hb : justified b.digits.array) :
    (compare_abs_BigNum a b = 1 ∧ magnitude r b.digits.array < magnitude r a.digits.array) ∨
    (compare_abs_BigNum a b = 0 ∧ a.digits.array = b.digits.array) ∨
    (compare_abs_BigNum a b = -1 ∧
      magnitude r a.digits.array < magnitude r b.digits.array) := by
  unfold compare_abs_BigNum
  simp only [BigNum_base, BigNum_size, vector_size, hra, hrb, ne_eq, not_true_eq_false,
    if_false]
  by_cases h1 : a.digits.array.length > b.digits.array.length
  · left
    rw [if_pos h1]
    exact ⟨rfl, magnitude_lt_of_shorter r hr _ _ ha hb hdb h1⟩
  · rw [if_neg h1]
    by_cases h2 : a.digits.array.length = b.digits.array.length
    · rw [if_pos h2]
      exact compare_abs_loop_spec r a.digits b.digits _ _ 0 a.digits.array b.digits.array [] []
        (by simp) (by simp) rfl h2.symm (by omega) hda hdb
    · right; right
      rw [if_neg h2]
      exact ⟨rfl, magnitude_lt_of_shorter r hr _ _ hb ha hda (by omega)⟩

/-! ## Subtraction of magnitudes -/

theorem subtract_step_borrow (base v s : Nat) (borrow : Int)
    (hb : borrow = 0 ∨ borrow = 1) :
    (subtract_step base v s borrow).2 = if (v : Int) - borrow - (s : Int) < 0 then 1 else 0 := by
  unfold subtract_step
  simp only []
  split
  · rfl
  · rename_i hneg
    simp only []
    split
    · rfl
    · rename_i hv
      have hv0 : v = 0 := by omega
      subst hv0
      rcases hb with h | h
      · exact h
      · subst h
        exfalso
        apply hneg
        have : (0 : Int) ≤ (s : Int) := Int.ofNat_nonneg s
        simp
        omega

theorem subtract_step_spec (r v s bn : Nat) (hr : 2 ≤ r) (hr256 : r ≤ 256)
    (hv : v < r) (hs : s < r) (hbn : bn ≤ 1) :
    ∃ d bo : Nat, (((subtract_step r v s (bn : Int)).1 % 256).toNat % r) % 256 = d ∧
      (subtract_step r v s (bn : Int)).2 = (bo : Int) ∧ d < r ∧ bo ≤ 1 ∧
      d + s + bn = v + r * bo := by
  have hb2 := subtract_step_borrow r v s (bn : Int) (by omega)
  by_cases hneg : (v : Int) - (bn : Int) - (s : Int) < 0
  · have h1 : (subtract_step r v s (bn : Int)).1 = ((v + r - bn - s : Nat) : Int) := by
      unfold subtract_step
      simp only [hneg, if_true]
      omega
    refine ⟨v + r - bn - s, 1, ?_, ?_, by omega, by omega, by omega⟩
    · rw [h1]
      have : ((v + r - bn - s : Nat) : Int) % 256 = ((v + r - bn - s : Nat) : Int) := by
        apply Int.emod_eq_of_lt <;> omega
      have h3 : (v + r - bn - s) % r = v + r - bn - s := Nat.mod_eq_of_lt (by omega)
      rw [this, Int.toNat_ofNat, h3, Nat.mod_eq_of_lt (by omega)]
    · rw [hb2, if_pos hneg]; rfl
  · have h1 : (subtract_step r v s (bn : Int)).1 = ((v - bn - s : Nat) : Int) := by
      unfold subtract_step
      simp only [hneg, if_false]
      omega
    refine ⟨v - bn - s, 0, ?_, ?_, by omega, by omega, by omega⟩
    · rw [h1]
      have : ((v - bn - s : Nat) : Int) % 256 = ((v - bn - s : Nat) : Int) := by
        apply Int.emod_eq_of_lt <;> omega
      have h3 : (v - bn - s) % r = v - bn - s := Nat.mod_eq_of_lt (by omega)
      rw [this, Int.toNat_ofNat, h3, Nat.mod_eq_of_lt (by omega)]
    · rw [hb2, if_neg hneg]; rfl

theorem subtract_loop_spec (r : Nat) (hr : 2 ≤ r) (hr256 : r ≤ 256) (sub : Vector) (k : Nat) :
    ∀ (i bn : Nat) (vec : Vector) (pre pre2 xs ys : List Nat),
    vec.array = pre ++ xs → sub.array = pre2 ++ ys → pre.length = i → pre2.length = i →
    xs.length = k → ys.length = k → (∀ a ∈ xs, a < r) → (∀ b ∈ ys, b < r) → bn ≤ 1 →
    ∃ out bout, (subtract_loop r sub k i (bn : Int) vec).array = pre ++ out ∧ out.length = k ∧
      (∀ d ∈ out, d < r) ∧
      magnitude r out + magnitude r ys + bn = magnitude r xs + r ^ k * bout := by
  induction k with
  | zero =>
    intro i bn vec pre pre2 xs ys h1 _ _ _ hx hy _ _ _
    rw [List.length_eq_zero.mp hx] at h1 ⊢
    rw [List.length_eq_zero.mp hy]
    exact ⟨[], bn, by simpa [subtract_loop] using h1, rfl, by simp, by simp [magnitude]⟩
  | succ k ih =>
    intro i bn vec pre pre2 xs ys h1 h2 hp hp2 hx hy hxr hyr hc
    obtain ⟨a, xs', rfl⟩ := List.exists_cons_of_length_eq_add_one hx
    obtain ⟨b, ys', rfl⟩ := List.exists_cons_of_length_eq_add_one hy
    have ha : a < r := hxr a (List.mem_cons_self _ _)
    have hb : b < r := hyr b (List.mem_cons_self _ _)
    simp only [subtract_loop]
    rw [vector_get_mid vec pre xs' a i h1 hp, vector_get_mid sub pre2 ys' b i h2 hp2]
    obtain ⟨d, bo, hd1, hd2, hd3, hd4, hd5⟩ := subtract_step_spec r a b bn hr hr256 ha hb hc
    rw [hd1, hd2]
    obtain ⟨hset, _⟩ := vector_set_mid vec pre xs' a d i h1 hp
    obtain ⟨out, bout, ho1, ho2, ho3, ho4⟩ := ih (i + 1) bo (vector_set vec i d) (pre ++ [d])
      (pre2 ++ [b]) xs' ys' (by rw [hset]; simp) (by rw [h2]; simp) (by simp [hp])
      (by simp [hp2]) (by simpa using hx) (by simpa using hy)
      (fun d hd => hxr d (List.mem_cons_of_mem _ hd))
      (fun d hd => hyr d (List.mem_cons_of_mem _ hd)) hd4
    refine ⟨d :: out, bout, by rw [ho1]; simp, by simp [ho2], ?_, ?_⟩
    · intro e he
      rcases List.mem_cons.mp he with rfl | he
      · exact hd3
      · exact ho3 e he
    · simp only [magnitude, pow_succ]
      have e : r * (magnitude r out + magnitude r ys' + bo)
          = r * (magnitude r xs' + r ^ k * bout) := by rw [ho4]
      linarith

theorem lt_of_mem_append_zeros (r : Nat) (hr : 2 ≤ r) (l : List Nat) (n : Nat)
    (hl : ∀ d ∈ l, d < r) : ∀ d ∈ l ++ List.replicate n 0, d < r := by
  intro d hd
  rcases List.mem_append.mp hd with h | h
  · exact hl d h
  · rw [(List.mem_replicate.mp h).2]; omega

theorem subtract_digits_value (r : Nat) (hr : 2 ≤ r) (hr256 : r ≤ 256) (big small : Vector)
    (hbig : ∀ d ∈ big.array, d < r) (hsmall : ∀ d ∈ small.array, d < r)
    (hle : magnitude r small.array ≤ magnitude r big.array) (n : Nat)
    (hn : n = max (vector_size (copy_vector big)) (vector_size small)) :
    ∃ out, (subtract_loop r (vector_resize small n) n 0 0
        (vector_resize (copy_vector big) n)).array = out ∧ out.length = n ∧
      (∀ d ∈ out, d < r) ∧ magnitude r out + magnitude r small.array = magnitude r big.array := by
  have hsz : vector_size (copy_vector big) = big.array.length := by
    simp [vector_size, copy_vector_array]
  have h1 : (vector_resize (copy_vector big) n).array
      = big.array ++ List.replicate (n - big.array.length) 0 := by
    rw [vector_resize_array, copy_vector_array]
  have h2 := vector_resize_array small n
  have hn1 : big.array.length ≤ n := by rw [hn, hsz]; omega
  have hn2 : small.array.length ≤ n := by rw [hn]; simp only [vector_size]; omega
  obtain ⟨out, bout, ho1, ho2, ho3, ho4⟩ := subtract_loop_spec r hr hr256 (vector_resize small n)
    n 0 0 (vector_resize (copy_vector big) n) [] [] _ _ (by rw [h1]; rfl) (by rw [h2]; rfl) rfl
    rfl (by simp; omega) (by simp; omega) (lt_of_mem_append_zeros r hr _ _ hbig)
    (lt_of_mem_append_zeros r hr _ _ hsmall) (by omega)
  rw [magnitude_append_zeros, magnitude_append_zeros] at ho4
  have hbout : bout = 0 := by
    by_contra hne
    have h3 := magnitude_lt r out ho3
    rw [ho2] at h3
    have : r ^ n ≤ r ^ n * bout := Nat.le_mul_of_pos_right _ (Nat.pos_of_ne_zero hne)
    omega
  rw [hbout] at ho4
  exact ⟨out, by simpa using ho1, ho2, ho3, by omega⟩

theorem magnitude_pos_not_zero (r : Nat) (l : List Nat) (h : 0 < magnitude r l) : l ≠ [0] := by
  rintro rfl
  simp [magnitude] at h

theorem subtract_magnitude_spec (a b : BigNum) (r : Nat) (hr : 2 ≤ r) (hr256 : r ≤ 256)
    (hra : a.num_system = r) (hrb : b.num_system = r)
    (hda : ∀ d ∈ a.digits.array, d < r) (hdb : ∀ d ∈ b.digits.array, d < r)
    (ha : justified a.digits.array) (hb : justified b.digits.array) :
    (subtract_magnitude a b).ok = true ∧
    (subtract_magnitude a b).bg1.num_system = r ∧
    justified (subtract_magnitude a b).bg1.digits.array ∧
    (∀ d ∈ (subtract_magnitude a b).bg1.digits.array, d < r) ∧
    (magnitude r b.digits.array < magnitude r a.digits.array →
      magnitude r (subtract_magnitude a b).bg1.digits.array + magnitude r b.digits.array
        = magnitude r a.digits.array ∧
      (subtract_magnitude a b).bg1.sign_bit = a.sign_bit) ∧
    (magnitude r a.digits.array < magnitude r b.digits.array →
      magnitude r (subtract_magnitude a b).bg1.digits.array + magnitude r a.digits.array
        = magnitude r b.digits.array ∧
      (subtract_magnitude a b).bg1.sign_bit = MINUS) ∧
    (magnitude r a.digits.array = magnitude r b.digits.array →
      (subtract_magnitude a b).bg1.digits.array = [0] ∧
      (subtract_magnitude a b).bg1.sign_bit = PLUS) ∧
    (subtract_magnitude a b).bg2.num_system = r ∧
    (subtract_magnitude a b).bg2.digits.array = b.digits.array ∧
    ((b.digits.array = [0] → b.sign_bit = PLUS) →
      (subtract_magnitude a b).bg2.sign_bit = b.sign_bit) := by
  have hbase : BigNum_base b = r := hrb
  rcases compare_abs_spec a b r hr hra hrb hda hdb ha hb with ⟨hc, hm⟩ | ⟨hc, hm⟩ | ⟨hc, hm⟩
  · -- |a| > |b|
    obtain ⟨out, ho1, ho2, ho3, ho4⟩ := subtract_digits_value r hr hr256 a.digits b.digits hda hdb
      (by omega) _ rfl
    generalize hn : max (vector_size (copy_vector a.digits)) (vector_size b.digits) = n at ho1 ho2
    generalize hL : subtract_loop r (vector_resize b.digits n) n 0 0
      (vector_resize (copy_vector a.digits) n) = L at ho1
    have e1 : (subtract_magnitude a b).bg1 = zero_justify { a with digits := L } := by
      unfold subtract_magnitude
      simp only [hc, if_true, hbase, hn, hL]
    have e2 : (subtract_magnitude a b).bg2
        = zero_justify { b with digits := vector_resize b.digits n } := by
      unfold subtract_magnitude
      simp only [hc, if_true, hbase, hn, hL]
    have hne : out ≠ [] := by
      intro h
      rw [h] at ho4
      simp [magnitude] at ho4
      omega
    obtain ⟨z1, z2, z3⟩ := zero_justify_spec { a with digits := L } r (by simpa [ho1] using hne)
    simp only [ho1] at z2 z3
    have hb2 : (zero_justify { b with digits := vector_resize b.digits n }).digits.array
        = b.digits.array := zero_justify_pad _ _ _ (vector_resize_array b.digits n) hb
    refine ⟨by unfold subtract_magnitude; simp only [hc, if_true], ?_, ?_, ?_, ?_, ?_, ?_, ?_, ?_,
      ?_⟩
    · rw [e1, zero_justify_num_system]; exact hra
    · rw [e1]; exact z1
    · rw [e1]; exact fun d hd => ho3 d (z3 d hd)
    · intro _
      rw [e1, z2]
      refine ⟨ho4, ?_⟩
      rw [zero_justify_sign, if_neg]
      apply magnitude_pos_not_zero r
      rw [z2]; omega
    · intro h; omega
    · intro h; omega
    · rw [e2, zero_justify_num_system]; exact hrb
    · rw [e2]; exact hb2
    · intro hz
      rw [e2, zero_justify_sign, hb2]
      split
      · rename_i h0; exact (hz h0).symm
      · rfl
  · -- |a| = |b|
    have hmag : magnitude r a.digits.array = magnitude r b.digits.array := by rw [hm]
    have e1 : (subtract_magnitude a b).bg1
        = { clear_BigNum a with digits := push_back (clear_BigNum a).digits 0 } := by
      unfold subtract_magnitude
      simp only [hc]
      simp
    have e2 : (subtract_magnitude a b).bg2 = b := by
      unfold subtract_magnitude
      simp only [hc]
      simp
    have harr : (subtract_magnitude a b).bg1.digits.array = [0] := by
      rw [e1]
      simp [push_back_array, clear_BigNum, vector_clear]
    refine ⟨by unfold subtract_magnitude; simp only [hc]; simp, ?_, ?_, ?_, ?_, ?_, ?_, ?_, ?_,
      ?_⟩
    · rw [e1]; exact hra
    · rw [harr]; decide
    · rw [harr]; intro d hd; simp at hd; omega
    · intro h; omega
    · intro h; omega
    · intro _
      exact ⟨harr, by rw [e1]; rfl⟩
    · rw [e2]; exact hrb
    · rw [e2]
    · intro _; rw [e2]
  · -- |a| < |b|
    obtain ⟨out, ho1, ho2, ho3, ho4⟩ := subtract_digits_value r hr hr256 b.digits a.digits hdb hda
      (by omega) _ rfl
    generalize hn : max (vector_size (copy_vector b.digits)) (vector_size a.digits) = n at ho1 ho2
    generalize hL : subtract_loop r (vector_resize a.digits n) n 0 0
      (vector_resize (copy_vector b.digits) n) = L at ho1
    have e1 : (subtract_magnitude a b).bg1
        = zero_justify { a with sign_bit := MINUS, digits := L } := by
      unfold subtract_magnitude
      simp only [hc, hbase, hn, hL]
      simp
    have e2 : (subtract_magnitude a b).bg2 = zero_justify b := by
      unfold subtract_magnitude
      simp only [hc, hbase, hn, hL]
      simp
    have hne : out ≠ [] := by
      intro h
      rw [h] at ho4
      simp [magnitude] at ho4
      omega
    obtain ⟨z1, z2, z3⟩ := zero_justify_spec { a with sign_bit := MINUS, digits := L } r
      (by simpa [ho1] using hne)
    simp only [ho1] at z2 z3
    have hb2 : (zero_justify b).digits.array = b.digits.array :=
      zero_justify_normalized_eq b hb
    refine ⟨by unfold subtract_magnitude; simp only [hc]; simp, ?_, ?_, ?_, ?_, ?_, ?_, ?_, ?_,
      ?_⟩
    · rw [e1, zero_justify_num_system]; exact hra
    · rw [e1]; exact z1
    · rw [e1]; exact fun d hd => ho3 d (z3 d hd)
    · intro h; omega
    · intro _
      rw [e1, z2]
      refine ⟨ho4, ?_⟩
      rw [zero_justify_sign, if_neg]
      apply magnitude_pos_not_zero r
      rw [z2]; omega
    · intro h; omega
    · rw [e2, zero_justify_num_system]; exact hrb
    · rw [e2]; exact hb2
    · intro hz
      rw [e2, zero_justify_sign, hb2]
      split
      · rename_i h0; exact (hz h0).symm
      · rfl

/-- C6: for normalized operands of equal radix that both have sign PLUS,
`subtract_BigNum` succeeds and leaves the first operand normalized with value
val(a) - val(b): canonical zero when the magnitudes are equal, magnitude |a| - |b| and
sign PLUS when |a| > |b|, magnitude |b| - |a| and sign MINUS when |a| < |b|.  The borrow
left by one pass of the digit loop is the schoolbook borrow: 1 exactly when minuend
digit minus incoming borrow minus subtrahend digit is negative. -/
theorem C6_subtract_nonnegative (a b : BigNum) (ha : normalized a) (hb : normalized b)
    (hr : a.num_system = b.num_system) (hpa : a.sign_bit = PLUS) (hpb : b.sign_bit = PLUS) :
    (subtract_BigNum a b).ok = true ∧
    normalized (subtract_BigNum a b).bg1 ∧
    (subtract_BigNum a b).bg1.num_system = a.num_system ∧
    val (subtract_BigNum a b).bg1 = val a - val b ∧
    (magnitude a.num_system a.digits.array = magnitude a.num_system b.digits.array →
      (subtract_BigNum a b).bg1.digits.array = [0] ∧
      (subtract_BigNum a b).bg1.sign_bit = PLUS) ∧
    (magnitude a.num_system b.digits.array < magnitude a.num_system a.digits.array →
      magnitude a.num_system (subtract_BigNum a b).bg1.digits.array
        = magnitude a.num_system a.digits.array - magnitude a.num_system b.digits.array ∧
      (subtract_BigNum a b).bg1.sign_bit = PLUS) ∧
    (magnitude a.num_system a.digits.array < magnitude a.num_system b.digits.array →
      magnitude a.num_system (subtract_BigNum a b).bg1.digits.array
        = magnitude a.num_system b.digits.array - magnitude a.num_system a.digits.array ∧
      (subtract_BigNum a b).bg1.sign_bit = MINUS) ∧
    (∀ (v s : Nat) (borrow : Int), borrow = 0 ∨ borrow = 1 →
      (subtract_step a.num_system v s borrow).2
        = if (v : Int) - borrow - (s : Int) < 0 then 1 else 0) := by
  obtain ⟨a2, a16, _, ad, aj, _⟩ := id ha
  obtain ⟨_, _, _, bd, bj, _⟩ := id hb
  rw [subtract_BigNum_unsigned a b hr (by rw [hpa]; decide) (by rw [hpb]; decide)]
  obtain ⟨h1, h2, h3, h4, h5, h6, h7, _, _, _⟩ := subtract_magnitude_spec a b a.num_system a2
    (by omega) rfl hr.symm ad (by rw [hr]; exact bd) aj bj
  generalize subtract_magnitude a b = res at h1 h2 h3 h4 h5 h6 h7
  have hsign : res.bg1.sign_bit = PLUS ∨ res.bg1.sign_bit = MINUS := by
    rcases Nat.lt_trichotomy (magnitude a.num_system a.digits.array)
      (magnitude a.num_system b.digits.array) with h | h | h
    · exact Or.inr (h6 h).2
    · exact Or.inl (h7 h).2
    · exact Or.inl ((h5 h).2.trans hpa)
  have hzero : res.bg1.digits.array = [0] → res.bg1.sign_bit = PLUS := by
    intro hz
    rcases Nat.lt_trichotomy (magnitude a.num_system a.digits.array)
      (magnitude a.num_system b.digits.array) with h | h | h
    · have := (h6 h).1
      rw [hz] at this
      simp [magnitude] at this
      omega
    · exact (h7 h).2
    · exact (h5 h).2.trans hpa
  have hval : val res.bg1 = val a - val b := by
    simp only [val, h2, hpa, hpb, ← hr]
    rcases Nat.lt_trichotomy (magnitude a.num_system a.digits.array)
      (magnitude a.num_system b.digits.array) with h | h | h
    · obtain ⟨e1, e2⟩ := h6 h
      rw [e2, ← e1]
      simp only [PLUS, MINUS]
      push_cast
      ring
    · obtain ⟨e1, e2⟩ := h7 h
      rw [e1, e2, h]
      simp [magnitude, PLUS]
    · obtain ⟨e1, e2⟩ := h5 h
      rw [e2, hpa, ← e1]
      simp only [PLUS]
      push_cast
      ring
  refine ⟨h1, ⟨by rw [h2]; exact a2, by rw [h2]; exact a16, hsign, by rw [h2]; exact h4, h3,
    hzero⟩, h2, hval, h7, ?_, ?_, fun v s borrow hbw => subtract_step_borrow _ v s borrow hbw⟩
  · intro h
    obtain ⟨e1, e2⟩ := h5 h
    exact ⟨by omega, e2.trans hpa⟩
  · intro h
    obtain ⟨e1, e2⟩ := h6 h
    exact ⟨by omega, e2⟩

/-- The decimal numbers 1000 and 1, whose difference needs a borrow through three zero
digits, for C6. -/
theorem C6_subtract_nonnegative_witness :
    normalized ⟨1, ⟨4, [0, 0, 0, 1]⟩, 10⟩ ∧ normalized ⟨1, ⟨1, [1]⟩, 10⟩ ∧
    val (subtract_BigNum ⟨1, ⟨4, [0, 0, 0, 1]⟩, 10⟩ ⟨1, ⟨1, [1]⟩, 10⟩).bg1
      = val ⟨1, ⟨4, [0, 0, 0, 1]⟩, 10⟩ - val ⟨1, ⟨1, [1]⟩, 10⟩ :=
  ⟨by decide, by decide,
    (C6_subtract_nonnegative ⟨1, ⟨4, [0, 0, 0, 1]⟩, 10⟩ ⟨1, ⟨1, [1]⟩, 10⟩ (by decide)
      (by decide) rfl rfl rfl).2.2.2.1⟩

/-- C2 (failing input): adding the normalized decimal numbers -1 and +3 leaves the
first operand with sign MINUS and the digit 2, the value -2, while val(a) + val(b) = 2;
adding -3 and +3 leaves the digit 0 with sign MINUS, which is not normalized. -/
theorem C2_add_mixed_sign_failing :
    normalized ⟨-1, ⟨1, [1]⟩, 10⟩ ∧ normalized ⟨1, ⟨1, [3]⟩, 10⟩ ∧
    (add_BigNum ⟨-1, ⟨1, [1]⟩, 10⟩ ⟨1, ⟨1, [3]⟩, 10⟩).bg1 = ⟨-1, ⟨1, [2]⟩, 10⟩ ∧
    val (add_BigNum ⟨-1, ⟨1, [1]⟩, 10⟩ ⟨1, ⟨1, [3]⟩, 10⟩).bg1 = -2 ∧
    val ⟨-1, ⟨1, [1]⟩, 10⟩ + val ⟨1, ⟨1, [3]⟩, 10⟩ = 2 ∧
    (add_BigNum ⟨-1, ⟨1, [3]⟩, 10⟩ ⟨1, ⟨1, [3]⟩, 10⟩).bg1 = ⟨-1, ⟨1, [0]⟩, 10⟩ ∧
    ¬ normalized (add_BigNum ⟨-1, ⟨1, [3]⟩, 10⟩ ⟨1, ⟨1, [3]⟩, 10⟩).bg1 := by
  rw [add_BigNum_minus_plus ⟨-1, ⟨1, [1]⟩, 10⟩ ⟨1, ⟨1, [3]⟩, 10⟩ rfl rfl (by decide),
    add_BigNum_minus_plus ⟨-1, ⟨1, [3]⟩, 10⟩ ⟨1, ⟨1, [3]⟩, 10⟩ rfl rfl (by decide)]
  decide

/-- C4 (failing input): for the normalized decimal numbers a = -1 and b = +3 the text of
add(copy(a), copy(b)) is "-2" and the text of add(copy(b), copy(a)) is "2". -/
theorem C4_add_commutes_failing :
    normalized ⟨-1, ⟨1, [1]⟩, 10⟩ ∧ normalized ⟨1, ⟨1, [3]⟩, 10⟩ ∧
    BigNum_to_cstring
      (add_BigNum (copy_BigNum ⟨-1, ⟨1, [1]⟩, 10⟩) (copy_BigNum ⟨1, ⟨1, [3]⟩, 10⟩)).bg1
      = ['-', '2'] ∧
    BigNum_to_cstring
      (add_BigNum (copy_BigNum ⟨1, ⟨1, [3]⟩, 10⟩) (copy_BigNum ⟨-1, ⟨1, [1]⟩, 10⟩)).bg1
      = ['2'] := by
  rw [add_BigNum_minus_plus (copy_BigNum ⟨-1, ⟨1, [1]⟩, 10⟩) (copy_BigNum ⟨1, ⟨1, [3]⟩, 10⟩)
      rfl rfl (by decide),
    add_BigNum_plus_other (copy_BigNum ⟨1, ⟨1, [3]⟩, 10⟩) (copy_BigNum ⟨-1, ⟨1, [1]⟩, 10⟩)
      rfl (by decide) (by decide)]
  decide

/-- C5 (failing input): for the normalized decimal numbers a = -1 and b = +3,
subtract(add(copy(a), copy(b)), copy(b)) leaves sign MINUS and the digit 5, not the sign
and digit of a. -/
theorem C5_add_then_subtract_failing :
    normalized ⟨-1, ⟨1, [1]⟩, 10⟩ ∧ normalized ⟨1, ⟨1, [3]⟩, 10⟩ ∧
    (subtract_BigNum
      (add_BigNum (copy_BigNum ⟨-1, ⟨1, [1]⟩, 10⟩) (copy_BigNum ⟨1, ⟨1, [3]⟩, 10⟩)).bg1
      (copy_BigNum ⟨1, ⟨1, [3]⟩, 10⟩)).bg1.sign_bit = MINUS ∧
    (subtract_BigNum
      (add_BigNum (copy_BigNum ⟨-1, ⟨1, [1]⟩, 10⟩) (copy_BigNum ⟨1, ⟨1, [3]⟩, 10⟩)).bg1
      (copy_BigNum ⟨1, ⟨1, [3]⟩, 10⟩)).bg1.digits.array = [5] := by
  have h1 : (add_BigNum (copy_BigNum ⟨-1, ⟨1, [1]⟩, 10⟩)
      (copy_BigNum ⟨1, ⟨1, [3]⟩, 10⟩)).bg1 = ⟨-1, ⟨1, [2]⟩, 10⟩ := by
    rw [add_BigNum_minus_plus (copy_BigNum ⟨-1, ⟨1, [1]⟩, 10⟩) (copy_BigNum ⟨1, ⟨1, [3]⟩, 10⟩)
      rfl rfl (by decide)]
    decide
  rw [h1, subtract_BigNum_signed ⟨-1, ⟨1, [2]⟩, 10⟩ (copy_BigNum ⟨1, ⟨1, [3]⟩, 10⟩) rfl
    (Or.inl rfl)]
  rw [add_BigNum_same ⟨-1, ⟨1, [2]⟩, 10⟩
    { copy_BigNum ⟨1, ⟨1, [3]⟩, 10⟩ with
      sign_bit := (copy_BigNum ⟨1, ⟨1, [3]⟩, 10⟩).sign_bit * -1 } rfl (by decide)]
  decide

/-- C7 (failing input): subtracting the canonical zero from the normalized decimal
number -5 leaves the second operand as the digit 0 with sign MINUS, which is neither the
sign it had nor normalized. -/
theorem C7_subtract_zero_failing :
    normalized ⟨-1, ⟨1, [5]⟩, 10⟩ ∧ normalized ⟨1, ⟨1, [0]⟩, 10⟩ ∧
    (subtract_BigNum ⟨-1, ⟨1, [5]⟩, 10⟩ ⟨1, ⟨1, [0]⟩, 10⟩).bg2.sign_bit = MINUS ∧
    (subtract_BigNum ⟨-1, ⟨1, [5]⟩, 10⟩ ⟨1, ⟨1, [0]⟩, 10⟩).bg2.digits.array = [0] ∧
    ¬ normalized (subtract_BigNum ⟨-1, ⟨1, [5]⟩, 10⟩ ⟨1, ⟨1, [0]⟩, 10⟩).bg2 := by
  rw [subtract_BigNum_signed ⟨-1, ⟨1, [5]⟩, 10⟩ ⟨1, ⟨1, [0]⟩, 10⟩ rfl (Or.inl rfl)]
  rw [add_BigNum_same ⟨-1, ⟨1, [5]⟩, 10⟩ ⟨1 * -1, ⟨1, [0]⟩, 10⟩ rfl (by decide)]
  decide

/-- C9 (failing input): multiplying the normalized decimal number 5 by the canonical
zero leaves the first operand with no digit at all, which is not normalized and is
rendered as the empty text. -/
theorem C9_multiply_by_zero_failing :
    normalized ⟨1, ⟨1, [5]⟩, 10⟩ ∧ normalized ⟨1, ⟨1, [0]⟩, 10⟩ ∧
    (multiply_BigNum ⟨1, ⟨1, [5]⟩, 10⟩ ⟨1, ⟨1, [0]⟩, 10⟩).bg1.digits.array = [] ∧
    ¬ normalized (multiply_BigNum ⟨1, ⟨1, [5]⟩, 10⟩ ⟨1, ⟨1, [0]⟩, 10⟩).bg1 ∧
    BigNum_to_cstring (multiply_BigNum ⟨1, ⟨1, [5]⟩, 10⟩ ⟨1, ⟨1, [0]⟩, 10⟩).bg1 = [] := by
  decide

/-! ## Multiplication -/

theorem digit_shift_move_one (k : Nat) : ∀ (c : Nat) (xs suf : List Nat) (y : Nat),
    xs.length = k →
    ∃ h, (digit_shift_move 1 k ⟨c, xs ++ y :: suf⟩).array = h :: xs ++ suf := by
  induction k with
  | zero =>
    intro c xs suf y hx
    rw [List.length_eq_zero.mp hx]
    exact ⟨y, rfl⟩
  | succ k ih =>
    intro c xs suf y hx
    rcases List.eq_nil_or_concat xs with rfl | ⟨xs', x, hxs⟩
    · simp at hx
    rw [List.concat_eq_append] at hxs
    subst hxs
    simp only [List.length_append, List.length_singleton, Nat.add_right_cancel_iff] at hx
    simp only [digit_shift_move]
    have e1 : (xs' ++ [x] ++ y :: suf).getD k 0 = x := by
      rw [← hx, List.append_assoc, List.singleton_append, getD_append_cons]
    have e2 : (xs' ++ [x] ++ y :: suf).set (k + 1) x = xs' ++ x :: x :: suf := by
      have : k + 1 = (xs' ++ [x]).length := by simp [hx]
      rw [this, set_append_cons]
      simp
    rw [e1, e2]
    obtain ⟨h, hh⟩ := ih c xs' (x :: suf) x hx
    exact ⟨h, by rw [hh]; simp⟩

theorem digit_shift_one (v : Vector) :
    (v.array = [0] → digit_shift v 1 = v) ∧
    (v.array ≠ [0] → (digit_shift v 1).array = 0 :: v.array) := by
  constructor
  · intro h
    unfold digit_shift
    rw [if_pos]
    simp [vector_size, vector_front, h]
  · intro h
    have hc : ¬ (vector_size v = 1 ∧ vector_front v = 0) := by
      rintro ⟨h1, h2⟩
      apply h
      obtain ⟨c, l⟩ := v
      match l, h1 with
      | [x], _ =>
        simp [vector_front, vector_size] at h2
        simp [h2]
    unfold digit_shift
    rw [if_neg hc]
    simp only []
    have hp : vector_resize v (vector_size v + 1) =
        ⟨(vector_resize v (vector_size v + 1)).capacity, v.array ++ 0 :: []⟩ := by
      have := vector_resize_array v (vector_size v + 1)
      simp only [vector_size, Nat.add_sub_cancel_left] at this
      cases hv : vector_resize v (vector_size v + 1) with
      | mk c l =>
        simp only [vector_size] at hv
        rw [hv] at this
        simp only at this
        rw [this]
        rfl
    have hsz : vector_size (vector_resize v (vector_size v + 1)) - 1 = v.array.length := by
      simp [vector_size, vector_resize_array]
    rw [hsz, hp]
    obtain ⟨h0, hh⟩ := digit_shift_move_one v.array.length
      (vector_resize v (vector_size v + 1)).capacity v.array [] 0 rfl
    generalize digit_shift_move 1 v.array.length
      ⟨(vector_resize v (vector_size v + 1)).capacity, v.array ++ [0]⟩ = q at hh
    simp only [digit_shift_fill, hh]
    simp

theorem justified_magnitude_zero (r : Nat) (hr : 0 < r) (l : List Nat) (hl : justified l)
    (h : magnitude r l = 0) : l = [0] := by
  rcases hl.2 with hj | hj
  · exfalso
    rcases List.eq_nil_or_concat l with h0 | ⟨m, x, hm⟩
    · exact hl.1 h0
    · rw [List.concat_eq_append] at hm
      rw [hm] at hj h
      rw [magnitude_append] at h
      simp only [magnitude, Nat.mul_zero, Nat.add_zero] at h
      have hx : x ≠ 0 := by
        intro hx; apply hj; simp [hx]
      have hp : 0 < r ^ m.length := Nat.pow_pos hr
      have : 0 < r ^ m.length * x := Nat.mul_pos hp (Nat.pos_of_ne_zero hx)
      omega
  · exact hj

theorem justified_shift (l : List Nat) (hl : justified l) (h0 : l ≠ [0]) :
    justified (0 :: l) := by
  refine ⟨by simp, Or.inl ?_⟩
  rcases hl.2 with hj | hj
  · match l, hl.1, hj with
    | x :: t, _, hj => simpa [List.getLast?_cons_cons] using hj
  · exact absurd hj h0

theorem multiply_inner_spec (r : Nat) (hr : 2 ≤ r) (hr256 : r ≤ 256) (s : Int) (j : Nat) :
    ∀ (bg1 row : BigNum), multiply_invariant r s bg1 row →
    multiply_invariant r s (multiply_inner j bg1 row).1 (multiply_inner j bg1 row).2 ∧
    (multiply_inner j bg1 row).2.digits.array = row.digits.array ∧
    magnitude r (multiply_inner j bg1 row).1.digits.array
      = magnitude r bg1.digits.array + j * magnitude r row.digits.array ∧
    (justified bg1.digits.array ∨ 0 < j →
      justified (multiply_inner j bg1 row).1.digits.array) := by
  induction j with
  | zero =>
    intro bg1 row hinv
    refine ⟨hinv, rfl, by simp [multiply_inner], ?_⟩
    rintro (h | h)
    · exact h
    · omega
  | succ j ih =>
    intro bg1 row hinv
    obtain ⟨i1, i2, i3, i4, i5, i6, i7, i8⟩ := id hinv
    simp only [multiply_inner]
    rw [add_BigNum_same bg1 row (i1.trans i2.symm) (i3.trans i4.symm)]
    obtain ⟨_, h2, h3, h4, h5, h6, h7, h8, h9⟩ := add_same_sign_spec bg1 row r hr hr256 i2 i5 i6
    have h9' := h9 i7
    generalize add_same_sign bg1 row = res at h2 h3 h4 h5 h6 h7 h8 h9'
    have hinv' : multiply_invariant r s res.bg1 res.bg2 := by
      refine ⟨h5.trans i1, h7.trans i2, ?_, ?_, h3, by rw [h9']; exact i6, by rw [h9']; exact i7,
        by rw [h9']; exact i8⟩
      · rw [h6, i3]
        split
        · rename_i hz
          rw [hz] at h4
          simp only [magnitude, Nat.mul_zero, Nat.add_zero] at h4
          exact (i8 (by omega)).symm
        · rfl
      · rw [h8, i4]
        split
        · rename_i hz
          rw [h9'] at hz
          exact (i8 (by rw [hz]; simp [magnitude])).symm
        · rfl
    obtain ⟨k1, k2, k3, k4⟩ := ih res.bg1 res.bg2 hinv'
    refine ⟨k1, by rw [k2, h9'], ?_, fun _ => k4 (Or.inl h2)⟩
    rw [k3, h4, h9']
    ring

theorem multiply_loop_spec (r : Nat) (hr : 2 ≤ r) (hr256 : r ≤ 256) (s : Int) (b : BigNum)
    (k : Nat) : ∀ (i : Nat) (bg1 row : BigNum) (pre ys : List Nat),
    b.digits.array = pre ++ ys → pre.length = i → ys.length = k →
    multiply_invariant r s bg1 row →
    multiply_invariant r s (multiply_loop b k i bg1 row).1 (multiply_loop b k i bg1 row).2 ∧
    magnitude r (multiply_loop b k i bg1 row).1.digits.array
      = magnitude r bg1.digits.array + magnitude r row.digits.array * magnitude r ys ∧
    (justified bg1.digits.array ∨ 0 < magnitude r ys →
      justified (multiply_loop b k i bg1 row).1.digits.array) := by
  induction k with
  | zero =>
    intro i bg1 row pre ys _ _ hy hinv
    rw [List.length_eq_zero.mp hy]
    refine ⟨hinv, by simp [multiply_loop, magnitude], ?_⟩
    rintro (h | h)
    · exact h
    · simp [magnitude] at h
  | succ k ih =>
    intro i bg1 row pre ys hb hp hy hinv
    obtain ⟨y, ys', rfl⟩ := List.exists_cons_of_length_eq_add_one hy
    simp only [multiply_loop]
    rw [vector_get_mid b.digits pre ys' y i hb hp]
    obtain ⟨m1, m2, m3, m4⟩ := multiply_inner_spec r hr hr256 s y bg1 row hinv
    generalize multiply_inner y bg1 row = st at m1 m2 m3 m4
    obtain ⟨i1, i2, i3, i4, i5, i6, i7, i8⟩ := id m1
    obtain ⟨ds1, ds2⟩ := digit_shift_one st.2.digits
    -- the shifted row
    have hrow : multiply_invariant r s st.1 { st.2 with digits := digit_shift st.2.digits 1 } ∧
        magnitude r (digit_shift st.2.digits 1).array = r * magnitude r row.digits.array := by
      by_cases hz : st.2.digits.array = [0]
      · rw [ds1 hz]
        refine ⟨m1, ?_⟩
        rw [← m2, hz]
        simp [magnitude]
      · have e := ds2 hz
        refine ⟨⟨i1, i2, i3, i4, i5, ?_, ?_, ?_⟩, ?_⟩
        · intro d hd
          simp only [e] at hd
          rcases List.mem_cons.mp hd with rfl | hd
          · omega
          · exact i6 d hd
        · simp only [e]
          exact justified_shift _ i7 hz
        · simp only [e, magnitude, Nat.zero_add]
          intro h0
          apply i8
          rcases Nat.mul_eq_zero.mp h0 with h | h
          · omega
          · exact h
        · rw [e, ← m2]
          simp [magnitude]
    obtain ⟨hrow1, hrow2⟩ := hrow
    obtain ⟨k1, k2, k3⟩ := ih (i + 1) st.1 { st.2 with digits := digit_shift st.2.digits 1 }
      (pre ++ [y]) ys' (by rw [hb]; simp) (by simp [hp]) (by simpa using hy) hrow1
    refine ⟨k1, ?_, ?_⟩
    · rw [k2, m3]
      simp only [hrow2, magnitude]
      ring
    · intro h
      apply k3
      rcases h with h | h
      · exact Or.inl (m4 (Or.inl h))
      · simp only [magnitude] at h
        by_cases hy0 : 0 < y
        · exact Or.inl (m4 (Or.inr hy0))
        · right
          have : y = 0 := by omega
          subst this
          rcases Nat.eq_zero_or_pos (magnitude r ys') with h0 | h0
          · rw [h0] at h; simp at h
          · exact h0

/-- C8: for normalized operands of equal radix with val(b) nonzero, `multiply_BigNum`
succeeds and leaves the first operand normalized, of the same radix, with magnitude
|a| * |b| and value val(a) * val(b); its sign is the product of the two signs, and PLUS
when the product is zero.  The second operand is unchanged. -/
theorem C8_multiply (a b : BigNum) (ha : normalized a) (hb : normalized b)
    (hr : a.num_system = b.num_system) (hbz : val b ≠ 0) :
    (multiply_BigNum a b).ok = true ∧
    normalized (multiply_BigNum a b).bg1 ∧
    (multiply_BigNum a b).bg1.num_system = a.num_system ∧
    magnitude a.num_system (multiply_BigNum a b).bg1.digits.array
      = magnitude a.num_system a.digits.array * magnitude b.num_system b.digits.array ∧
    val (multiply_BigNum a b).bg1 = val a * val b ∧
    (multiply_BigNum a b).bg1.sign_bit
      = (if val a * val b = 0 then PLUS else a.sign_bit * b.sign_bit) ∧
    (multiply_BigNum a b).bg2 = b := by
  obtain ⟨a2, a16, asg, ad, aj, az⟩ := id ha
  obtain ⟨_, _, bsg, bd, bj, _⟩ := id hb
  have hbm : 0 < magnitude a.num_system b.digits.array := by
    rcases Nat.eq_zero_or_pos (magnitude a.num_system b.digits.array) with h | h
    · exfalso; apply hbz
      simp [val, ← hr, h]
    · exact h
  -- the state before the loop satisfies the invariant
  have hinv : multiply_invariant a.num_system a.sign_bit
      { clear_BigNum a with sign_bit := (copy_BigNum a).sign_bit } (copy_BigNum a) := by
    refine ⟨rfl, rfl, rfl, rfl, ?_, ?_, ?_, ?_⟩
    · intro d hd; simp [clear_BigNum, vector_clear] at hd
    · intro d hd
      simp only [copy_BigNum, copy_vector_array] at hd
      exact ad d hd
    · simp only [copy_BigNum, copy_vector_array]; exact aj
    · intro h0
      simp only [copy_BigNum, copy_vector_array] at h0
      exact az (justified_magnitude_zero _ (by omega) _ aj h0)
  obtain ⟨k1, k2, k3⟩ := multiply_loop_spec a.num_system a2 (by omega) a.sign_bit b
    (BigNum_size b) 0 _ _ [] b.digits.array (by simp) rfl (by simp [BigNum_size, vector_size])
    hinv
  have k3' := k3 (Or.inr hbm)
  generalize hst : multiply_loop b (BigNum_size b) 0
    { clear_BigNum a with sign_bit := (copy_BigNum a).sign_bit } (copy_BigNum a) = st
    at k1 k2 k3'
  simp only [clear_BigNum, vector_clear, magnitude, Nat.zero_add, copy_BigNum,
    copy_vector_array] at k2
  obtain ⟨i1, _, i3, _, i5, _, _, _⟩ := k1
  have hres : multiply_BigNum a b
      = ⟨true, zero_justify { st.1 with sign_bit := st.1.sign_bit * b.sign_bit }, b⟩ := by
    unfold multiply_BigNum
    rw [if_neg (by simp [BigNum_base, hr])]
    simp only [hst]
  rw [hres]
  simp only []
  have harr : (zero_justify { st.1 with sign_bit := st.1.sign_bit * b.sign_bit }).digits.array
      = st.1.digits.array := zero_justify_normalized_eq _ k3'
  have hsgn : (zero_justify { st.1 with sign_bit := st.1.sign_bit * b.sign_bit }).sign_bit
      = if st.1.digits.array = [0] then PLUS else a.sign_bit * b.sign_bit := by
    rw [zero_justify_sign, harr, i3]
  have hnum : (zero_justify { st.1 with sign_bit := st.1.sign_bit * b.sign_bit }).num_system
      = a.num_system := by
    rw [zero_justify_num_system]; exact i1
  generalize zero_justify { st.1 with sign_bit := st.1.sign_bit * b.sign_bit } = z
    at harr hsgn hnum
  have hzero : z.digits.array = [0] ↔ val a * val b = 0 := by
    rw [harr]
    constructor
    · intro h
      rw [h] at k2
      simp only [magnitude, Nat.mul_zero, Nat.add_zero] at k2
      rcases Nat.mul_eq_zero.mp k2.symm with h0 | h0
      · simp [val, h0]
      · exact absurd h0 (by omega)
    · intro h
      apply justified_magnitude_zero a.num_system (by omega) _ k3'
      rw [k2]
      rcases mul_eq_zero.mp h with h0 | h0
      · have : (magnitude a.num_system a.digits.array : Int) = 0 := by
          simp only [val] at h0
          rcases mul_eq_zero.mp h0 with h1 | h1
          · rcases asg with h2 | h2 <;> rw [h2] at h1 <;> simp [PLUS, MINUS] at h1
          · exact h1
        have : magnitude a.num_system a.digits.array = 0 := by exact_mod_cast this
        rw [this]; simp
      · exact absurd h0 hbz
  have hsign : z.sign_bit = (if val a * val b = 0 then PLUS else a.sign_bit * b.sign_bit) := by
    rw [hsgn]
    by_cases h : st.1.digits.array = [0]
    · rw [if_pos h, if_pos (hzero.mp (harr.trans h))]
    · rw [if_neg h, if_neg (fun hc => h (harr.symm.trans (hzero.mpr hc)))]
  refine ⟨trivial, ⟨by rw [hnum]; exact a2, by rw [hnum]; exact a16, ?_, ?_,
    by rw [harr]; exact k3', ?_⟩, hnum, by rw [harr, k2, hr], ?_, hsign, trivial⟩
  · rw [hsign]
    split
    · exact Or.inl rfl
    · rcases asg with h1 | h1 <;> rcases bsg with h2 | h2 <;> rw [h1, h2] <;>
        simp [PLUS, MINUS]
  · rw [hnum, harr]; exact i5
  · intro h
    rw [hsign, if_pos (hzero.mp h)]
  · by_cases h : val a * val b = 0
    · have h' := hzero.mpr h
      rw [h]
      simp [val, h', magnitude]
    · have hs := hsign
      rw [if_neg h] at hs
      simp only [val, hnum, harr, k2, ← hr, hs]
      push_cast
      ring

/-- The decimal numbers -25 and 307 for C8. -/
theorem C8_multiply_witness :
    normalized ⟨-1, ⟨2, [5, 2]⟩, 10⟩ ∧ normalized ⟨1, ⟨3, [7, 0, 3]⟩, 10⟩ ∧
    val (⟨1, ⟨3, [7, 0, 3]⟩, 10⟩ : BigNum) ≠ 0 ∧
    val (multiply_BigNum ⟨-1, ⟨2, [5, 2]⟩, 10⟩ ⟨1, ⟨3, [7, 0, 3]⟩, 10⟩).bg1
      = val ⟨-1, ⟨2, [5, 2]⟩, 10⟩ * val ⟨1, ⟨3, [7, 0, 3]⟩, 10⟩ :=
  ⟨by decide, by decide, by decide,
    (C8_multiply ⟨-1, ⟨2, [5, 2]⟩, 10⟩ ⟨1, ⟨3, [7, 0, 3]⟩, 10⟩ (by decide) (by decide) rfl
      (by decide)).2.2.2.2.1⟩

/-! ## Division -/

theorem divide_while_spec (r : Nat) (hr : 2 ≤ r) (hr256 : r ≤ 256) (b0 : List Nat)
    (fuel : Nat) :
    ∀ (i : Nat) (bg1 row bg2 : BigNum) (pre Q : List Nat) (q : Nat),
    bg1.digits.array = pre ++ q :: Q → pre.length = i →
    plain_operand r row → plain_operand r bg2 → bg2.digits.array = b0 →
    magnitude r row.digits.array < (fuel + 1) * magnitude r b0 →
    q * magnitude r b0 + magnitude r row.digits.array < r * magnitude r b0 →
    ∃ bg1' row' bg2' q', divide_while fuel i bg1 row bg2 = some (bg1', row', bg2') ∧
      bg1'.digits.array = pre ++ q' :: Q ∧
      bg1'.sign_bit = bg1.sign_bit ∧ bg1'.num_system = bg1.num_system ∧
      q' * magnitude r b0 + magnitude r row'.digits.array
        = q * magnitude r b0 + magnitude r row.digits.array ∧
      magnitude r row'.digits.array < magnitude r b0 ∧
      plain_operand r row' ∧ plain_operand r bg2' ∧ bg2'.digits.array = b0 := by
  induction fuel with
  | zero =>
    intro i bg1 row bg2 pre Q q h1 hi hrow hbg2 hb0 hfuel hq
    obtain ⟨r1, r2, r3, r4⟩ := id hrow
    obtain ⟨b1, b2, b3, b4⟩ := id hbg2
    rw [divide_while]
    rcases compare_abs_spec row bg2 r hr r1 b1 r3 b3 r4 b4 with ⟨_, hm⟩ | ⟨_, hm⟩ | ⟨hc, hm⟩
    · rw [hb0] at hm; omega
    · rw [hm, hb0] at hfuel; omega
    · rw [if_neg (by rw [hc]; simp)]
      rw [hb0] at hm
      exact ⟨bg1, row, bg2, q, rfl, h1, rfl, rfl, rfl, hm, hrow, hbg2, hb0⟩
  | succ f ih =>
    intro i bg1 row bg2 pre Q q h1 hi hrow hbg2 hb0 hfuel hq
    obtain ⟨r1, r2, r3, r4⟩ := id hrow
    obtain ⟨b1, b2, b3, b4⟩ := id hbg2
    rw [divide_while]
    have hstep : magnitude r b0 ≤ magnitude r row.digits.array →
        compare_abs_BigNum row bg2 ≠ -1 →
        ∃ bg1' row' bg2' q', divide_while f i
          { bg1 with digits := { bg1.digits with
              array := bg1.digits.array.set i ((bg1.digits.array.getD i 0 + 1) % 256) } }
          (subtract_BigNum row bg2).bg1 (subtract_BigNum row bg2).bg2
            = some (bg1', row', bg2') ∧
        bg1'.digits.array = pre ++ q' :: Q ∧
        bg1'.sign_bit = bg1.sign_bit ∧ bg1'.num_system = bg1.num_system ∧
        q' * magnitude r b0 + magnitude r row'.digits.array
          = q * magnitude r b0 + magnitude r row.digits.array ∧
        magnitude r row'.digits.array < magnitude r b0 ∧
        plain_operand r row' ∧ plain_operand r bg2' ∧ bg2'.digits.array = b0 := by
      intro hge _
      rw [subtract_BigNum_unsigned row bg2 (r1.trans b1.symm) (by rw [r2]; decide)
        (by rw [b2]; decide)]
      obtain ⟨_, s2, s3, s4, s5, _, s7, s8, s9, s10⟩ := subtract_magnitude_spec row bg2 r hr hr256
        r1 b1 r3 b3 r4 b4
      rw [hb0] at s5 s7 s9
      generalize subtract_magnitude row bg2 = res at s2 s3 s4 s5 s7 s8 s9 s10
      have hres : magnitude r res.bg1.digits.array + magnitude r b0
          = magnitude r row.digits.array ∧ res.bg1.sign_bit = PLUS := by
        rcases Nat.lt_or_eq_of_le hge with h | h
        · obtain ⟨e1, e2⟩ := s5 h
          exact ⟨e1, e2.trans r2⟩
        · obtain ⟨e1, e2⟩ := s7 h.symm
          rw [e1]
          exact ⟨by simp [magnitude, h], e2⟩
      have hq1 : (q + 1) * magnitude r b0 ≤ q * magnitude r b0 + magnitude r row.digits.array := by
        rw [Nat.add_mul, Nat.one_mul]; omega
      have hqr : q + 1 < r := by
        by_contra hc
        have : r * magnitude r b0 ≤ (q + 1) * magnitude r b0 :=
          Nat.mul_le_mul_right _ (by omega)
        omega
      have hget : bg1.digits.array.getD i 0 = q := by
        rw [h1, ← hi, getD_append_cons]
      have hset : bg1.digits.array.set i ((q + 1) % 256) = pre ++ (q + 1) :: Q := by
        rw [h1, ← hi, set_append_cons, Nat.mod_eq_of_lt (by omega)]
      rw [hget, hset]
      have hf' : magnitude r res.bg1.digits.array < (f + 1) * magnitude r b0 := by
        rw [Nat.add_mul, Nat.one_mul] at hfuel ⊢
        rw [Nat.add_mul, Nat.one_mul] at hfuel
        omega
      obtain ⟨bg1', row', bg2', q', k1, k2, k3, k4, k5, k6, k7, k8, k9⟩ := ih i
        { bg1 with digits := { bg1.digits with array := pre ++ (q + 1) :: Q } } res.bg1 res.bg2
        pre Q (q + 1) rfl hi ⟨s2, hres.2, s4, s3⟩ ⟨s8, (s10 (fun _ => b2)).trans b2, by
          rw [s9, ← hb0]; exact b3, by rw [s9, ← hb0]; exact b4⟩ s9 hf'
        (by rw [Nat.add_mul, Nat.one_mul] at hq1 ⊢; omega)
      refine ⟨bg1', row', bg2', q', k1, k2, k3, k4, ?_, k6, k7, k8, k9⟩
      rw [k5, Nat.add_mul, Nat.one_mul]
      omega
    rcases compare_abs_spec row bg2 r hr r1 b1 r3 b3 r4 b4 with ⟨hc, hm⟩ | ⟨hc, hm⟩ | ⟨hc, hm⟩
    · rw [if_pos (by rw [hc]; decide)]
      rw [hb0] at hm
      exact hstep (by omega) (by rw [hc]; decide)
    · rw [if_pos (by rw [hc]; decide)]
      exact hstep (by rw [hm, hb0]) (by rw [hc]; decide)
    · rw [if_neg (by rw [hc]; simp)]
      rw [hb0] at hm
      exact ⟨bg1, row, bg2, q, rfl, h1, rfl, rfl, rfl, hm, hrow, hbg2, hb0⟩

theorem divide_inject (r : Nat) (row : BigNum) (d : Nat) (hd : d < r)
    (h1 : row.num_system = r) (h2 : row.sign_bit = PLUS)
    (h3 : ∀ x ∈ row.digits.array, x < r)
    (h4 : row.digits.array = [] ∨ justified row.digits.array) :
    plain_operand r { row with digits := { digit_shift row.digits 1 with
      array := (digit_shift row.digits 1).array.set 0 d } } ∧
    magnitude r ((digit_shift row.digits 1).array.set 0 d)
      = d + r * magnitude r row.digits.array := by
  obtain ⟨ds1, ds2⟩ := digit_shift_one row.digits
  have hjd : justified [d] := by
    refine ⟨by simp, ?_⟩
    by_cases h0 : d = 0
    · right; rw [h0]
    · left; simp [h0]
  by_cases hz : row.digits.array = [0]
  · rw [ds1 hz, hz]
    refine ⟨⟨h1, h2, ?_, ?_⟩, by simp [magnitude]⟩
    · intro x hx
      simp only [List.set_cons_zero, List.mem_singleton] at hx
      rw [hx]; exact hd
    · exact hjd
  · rw [ds2 hz]
    simp only [List.set_cons_zero]
    refine ⟨⟨h1, h2, ?_, ?_⟩, by simp [magnitude]⟩
    · intro x hx
      rcases List.mem_cons.mp hx with rfl | hx
      · exact hd
      · exact h3 x hx
    · rcases h4 with h4 | h4
      · simp only [h4]; exact hjd
      · have := justified_shift _ h4 hz
        refine ⟨by simp, Or.inl ?_⟩
        rcases this.2 with h | h
        · match hra : row.digits.array, h4.1 with
          | x :: t, _ =>
            rw [hra] at h
            simpa [List.getLast?_cons_cons] using h
        · simp at h
          exact absurd h h4.1

theorem divide_loop_spec (r : Nat) (hr : 2 ≤ r) (hr256 : r ≤ 256) (b0 : List Nat)
    (fuel : Nat) (hfuel : r ≤ fuel + 1) (k : Nat) :
    ∀ (bg1 row bg2 : BigNum) (lo Q : List Nat) (V : Nat),
    bg1.digits.array = lo ++ Q → lo.length = k →
    (∀ d ∈ lo, d < r) → (∀ d ∈ Q, d < r) →
    row.num_system = r → row.sign_bit = PLUS → (∀ x ∈ row.digits.array, x < r) →
    (row.digits.array = [] ∨ justified row.digits.array) →
    magnitude r row.digits.array < magnitude r b0 →
    V = magnitude r b0 * magnitude r Q + magnitude r row.digits.array →
    plain_operand r bg2 → bg2.digits.array = b0 →
    ∃ bg1' row' bg2', divide_loop fuel k bg1 row bg2 = some (bg1', row', bg2') ∧
      (∀ d ∈ bg1'.digits.array, d < r) ∧
      bg1'.digits.array.length = k + Q.length ∧
      magnitude r lo + r ^ k * V
        = magnitude r b0 * magnitude r bg1'.digits.array + magnitude r row'.digits.array ∧
      magnitude r row'.digits.array < magnitude r b0 ∧
      bg1'.sign_bit = bg1.sign_bit ∧ bg1'.num_system = bg1.num_system ∧
      plain_operand r bg2' ∧ bg2'.digits.array = b0 := by
  induction k with
  | zero =>
    intro bg1 row bg2 lo Q V h1 hlo _ hQ _ _ _ _ hlt hV hbg2 hb0
    rw [List.length_eq_zero.mp hlo] at h1 ⊢
    simp only [List.nil_append] at h1
    refine ⟨bg1, row, bg2, rfl, by rw [h1]; exact hQ, by rw [h1]; simp, ?_, hlt, rfl, rfl, hbg2,
      hb0⟩
    rw [h1, hV]
    simp [magnitude]
  | succ k ih =>
    intro bg1 row bg2 lo Q V h1 hlo hlor hQ r1 r2 r3 r4 hlt hV hbg2 hb0
    rcases List.eq_nil_or_concat lo with rfl | ⟨lo', d, hlo'⟩
    · simp at hlo
    rw [List.concat_eq_append] at hlo'
    subst hlo'
    simp only [List.length_append, List.length_singleton, Nat.add_right_cancel_iff] at hlo
    have hd : d < r := hlor d (by simp)
    have h1' : bg1.digits.array = lo' ++ d :: Q := by rw [h1]; simp
    simp only [divide_loop]
    rw [vector_get_mid bg1.digits lo' Q d k h1' hlo]
    obtain ⟨hinj1, hinj2⟩ := divide_inject r row d hd r1 r2 r3 r4
    generalize hrow1 : ({ row with digits := { digit_shift row.digits 1 with
      array := (digit_shift row.digits 1).array.set 0 d } } : BigNum) = row1 at hinj1
    have hm1 : magnitude r row1.digits.array = d + r * magnitude r row.digits.array := by
      rw [← hrow1]; exact hinj2
    have hbound : magnitude r row1.digits.array < r * magnitude r b0 := by
      rw [hm1]
      have : r * (magnitude r row.digits.array + 1) ≤ r * magnitude r b0 :=
        Nat.mul_le_mul_left _ hlt
      rw [Nat.mul_add, Nat.mul_one] at this
      omega
    obtain ⟨hset, _⟩ := vector_set_mid bg1.digits lo' Q d 0 k h1' hlo
    obtain ⟨bg1', row', bg2', q', w1, w2, w3, w4, w5, w6, w7, w8, w9⟩ := divide_while_spec r hr
      hr256 b0 fuel k { bg1 with digits := vector_set bg1.digits k 0 } row1 bg2 lo' Q 0 hset hlo
      hinj1 hbg2 hb0
      (lt_of_lt_of_le hbound (Nat.mul_le_mul_right _ hfuel)) (by simpa using hbound)
    rw [w1]
    simp only []
    simp only [Nat.zero_mul, Nat.zero_add] at w5
    have hq' : q' < r := by
      by_contra hc
      have : r * magnitude r b0 ≤ q' * magnitude r b0 := Nat.mul_le_mul_right _ (by omega)
      omega
    obtain ⟨c1, c2, c3, c4, c5, c6, c7, c8, c9, c10, c11, c12⟩ := ih bg1' row' bg2' lo' (q' :: Q)
      (magnitude r b0 * magnitude r (q' :: Q) + magnitude r row'.digits.array) w2 hlo
      (fun x hx => hlor x (List.mem_append_left _ hx))
      (by
        intro x hx
        rcases List.mem_cons.mp hx with rfl | hx
        · exact hq'
        · exact hQ x hx)
      w7.1 w7.2.1 w7.2.2.1 (Or.inr w7.2.2.2) w6 rfl w8 w9
    refine ⟨c1, c2, c3, c4, c5, by rw [c6]; simp; omega, ?_, c8, c9.trans w3, c10.trans w4, c11,
      c12⟩
    rw [← c7, magnitude_append, hlo, hV, pow_succ]
    simp only [magnitude, Nat.mul_zero, Nat.add_zero]
    have e1 : q' * magnitude r b0 + magnitude r row'.digits.array
        = d + r * magnitude r row.digits.array := by rw [w5, hm1]
    have e2 : r ^ k * (q' * magnitude r b0 + magnitude r row'.digits.array)
        = r ^ k * (d + r * magnitude r row.digits.array) := by rw [e1]
    linarith

theorem divide_BigNum_spec (fuel : Nat) (a b : BigNum) (ha : normalized a) (hb : normalized b)
    (hr : a.num_system = b.num_system) (hbz : 0 < magnitude b.num_system b.digits.array)
    (hf : a.num_system ≤ fuel + 1) :
    ∃ res, divide_BigNum fuel a b = some res ∧ res.ok = true ∧
      res.bg1.num_system = a.num_system ∧
      res.bg1.sign_bit = a.sign_bit * b.sign_bit ∧
      justified res.bg1.digits.array ∧
      (∀ d ∈ res.bg1.digits.array, d < a.num_system) ∧
      magnitude a.num_system res.bg1.digits.array
        = magnitude a.num_system a.digits.array / magnitude b.num_system b.digits.array ∧
      res.bg2.sign_bit = b.sign_bit ∧ res.bg2.digits.array = b.digits.array ∧
      res.bg2.num_system = b.num_system := by
  obtain ⟨a2, a16, _, ad, aj, _⟩ := id ha
  obtain ⟨_, _, _, bd, bj, _⟩ := id hb
  rw [← hr] at hbz bd
  have hnz : ¬ (BigNum_size b = 1 ∧ vector_get b.digits 0 = 0) := by
    rintro ⟨h1, h2⟩
    obtain ⟨s, ⟨c, l⟩, n⟩ := b
    simp only [BigNum_size, vector_size] at h1
    match l, h1 with
    | [x], _ =>
      simp [vector_get, vector_size] at h2
      simp [h2, magnitude] at hbz
  obtain ⟨bg1', row', bg2', w1, w2, w3, w4, w5, w6, w7, w8, w9⟩ := divide_loop_spec a.num_system
    a2 (by omega) b.digits.array fuel hf (BigNum_size { a with sign_bit := PLUS })
    { a with sign_bit := PLUS }
    { create_BigNum with num_system := ({ b with sign_bit := PLUS } : BigNum).num_system }
    { b with sign_bit := PLUS } a.digits.array [] 0 (by simp) (by simp [BigNum_size, vector_size])
    ad (by simp) hr.symm rfl (by simp [create_BigNum, create_vector]) (Or.inl rfl)
    (by simpa [create_BigNum, create_vector, magnitude] using hbz)
    (by simp [create_BigNum, create_vector, magnitude])
    ⟨hr.symm, rfl, bd, bj⟩ rfl
  simp only [Nat.mul_zero, Nat.add_zero] at w4
  have hne : bg1'.digits.array ≠ [] := by
    intro h
    rw [h] at w3
    have := List.length_pos.mpr aj.1
    simp [BigNum_size, vector_size] at w3
    omega
  obtain ⟨z1, z2, z3⟩ := zero_justify_spec bg1' a.num_system hne
  have hres : divide_BigNum fuel a b = some ⟨true,
      { zero_justify bg1' with sign_bit := a.sign_bit * b.sign_bit },
      { bg2' with sign_bit := b.sign_bit }⟩ := by
    unfold divide_BigNum
    rw [if_neg (by simp [BigNum_base, hr]), if_neg hnz]
    simp only [w1]
  refine ⟨_, hres, rfl, ?_, rfl, z1, fun d hd => w2 d (z3 d hd), ?_, rfl, w9, ?_⟩
  · simp only [zero_justify_num_system]
    exact w7
  · simp only [z2, ← hr]
    have : magnitude a.num_system a.digits.array
        = magnitude a.num_system row'.digits.array
          + magnitude a.num_system b.digits.array * magnitude a.num_system bg1'.digits.array := by
      omega
    rw [this, Nat.add_mul_div_left _ _ hbz, Nat.div_eq_of_lt w5, Nat.zero_add]
  · simp only []
    exact w8.1.trans hr

/-- C10: for normalized operands of equal radix with val(b) nonzero, `divide_BigNum`
returns (any bound of at least radix - 1 inner iterations per digit is enough) and
leaves the first operand holding floor(|a| / |b|) as its magnitude, with digits below
the radix and without leading zeros, and leaves the second operand with the sign,
digits and radix it had. -/
theorem C10_divide_quotient (fuel : Nat) (a b : BigNum) (ha : normalized a)
    (hb : normalized b) (hr : a.num_system = b.num_system) (hbz : val b ≠ 0)
    (hf : a.num_system ≤ fuel + 1) :
    ∃ res, divide_BigNum fuel a b = some res ∧ res.ok = true ∧
      magnitude a.num_system res.bg1.digits.array
        = magnitude a.num_system a.digits.array / magnitude b.num_system b.digits.array ∧
      justified res.bg1.digits.array ∧
      (∀ d ∈ res.bg1.digits.array, d < a.num_system) ∧
      res.bg2.sign_bit = b.sign_bit ∧ res.bg2.digits.array = b.digits.array ∧
      res.bg2.num_system = b.num_system := by
  have hbm : 0 < magnitude b.num_system b.digits.array := by
    rcases Nat.eq_zero_or_pos (magnitude b.num_system b.digits.array) with h | h
    · exfalso; apply hbz
      simp [val, h]
    · exact h
  obtain ⟨res, h1, h2, _, _, h5, h6, h7, h8, h9, h10⟩ :=
    divide_BigNum_spec fuel a b ha hb hr hbm hf
  exact ⟨res, h1, h2, h7, h5, h6, h8, h9, h10⟩

/-- The decimal numbers -9925 and 37 for C10, with nine inner iterations allowed. -/
theorem C10_divide_quotient_witness :
    normalized ⟨-1, ⟨4, [5, 2, 9, 9]⟩, 10⟩ ∧ normalized ⟨1, ⟨2, [7, 3]⟩, 10⟩ ∧
    val (⟨1, ⟨2, [7, 3]⟩, 10⟩ : BigNum) ≠ 0 ∧
    ∃ res, divide_BigNum 9 ⟨-1, ⟨4, [5, 2, 9, 9]⟩, 10⟩ ⟨1, ⟨2, [7, 3]⟩, 10⟩ = some res ∧
      res.ok = true ∧
      magnitude 10 res.bg1.digits.array = magnitude 10 [5, 2, 9, 9] / magnitude 10 [7, 3] ∧
      justified res.bg1.digits.array ∧
      (∀ d ∈ res.bg1.digits.array, d < 10) ∧
      res.bg2.sign_bit = 1 ∧ res.bg2.digits.array = [7, 3] ∧ res.bg2.num_system = 10 :=
  ⟨by decide, by decide, by decide,
    C10_divide_quotient 9 ⟨-1, ⟨4, [5, 2, 9, 9]⟩, 10⟩ ⟨1, ⟨2, [7, 3]⟩, 10⟩ (by decide)
      (by decide) rfl (by decide) (by decide)⟩

/-! ## Failure paths of division, modulo and exponentiation -/

theorem zero_divisor_check (b : BigNum) (hb : b.digits.array = [0]) :
    BigNum_size b = 1 ∧ vector_get b.digits 0 = 0 := by
  simp [BigNum_size, vector_size, vector_get, hb]

/-- C12: for a normalized dividend and the canonical zero divisor of the same radix,
`divide_BigNum` returns NULL_TYPE (whatever the bound on its inner loop) and both
operands are exactly what they were. -/
theorem C12_divide_by_zero (fuel : Nat) (a b : BigNum) (_ha : normalized a)
    (_hb : normalized b) (hr : a.num_system = b.num_system) (hz : b.digits.array = [0]) :
    divide_BigNum fuel a b = some ⟨false, a, b⟩ := by
  unfold divide_BigNum
  rw [if_neg (by simp [BigNum_base, hr]), if_pos (zero_divisor_check b hz)]

/-- The decimal number -26 divided by the canonical zero, for C12. -/
theorem C12_divide_by_zero_witness :
    normalized ⟨-1, ⟨2, [6, 2]⟩, 10⟩ ∧ normalized ⟨1, ⟨1, [0]⟩, 10⟩ ∧
    divide_BigNum 9 ⟨-1, ⟨2, [6, 2]⟩, 10⟩ ⟨1, ⟨1, [0]⟩, 10⟩
      = some ⟨false, ⟨-1, ⟨2, [6, 2]⟩, 10⟩, ⟨1, ⟨1, [0]⟩, 10⟩⟩ :=
  ⟨by decide, by decide,
    C12_divide_by_zero 9 ⟨-1, ⟨2, [6, 2]⟩, 10⟩ ⟨1, ⟨1, [0]⟩, 10⟩ (by decide) (by decide) rfl rfl⟩

/-- C15: for normalized operands of equal radix, `modulo_BigNum` returns NULL_TYPE when
the second operand is the canonical zero or when either operand has sign MINUS, and both
operands are exactly what they were. -/
theorem C15_modulo_domain_error (fuel : Nat) (a b : BigNum) (_ha : normalized a)
    (_hb : normalized b) (hr : a.num_system = b.num_system)
    (h : b.digits.array = [0] ∨ a.sign_bit = MINUS ∨ b.sign_bit = MINUS) :
    modulo_BigNum fuel a b = some ⟨false, a, b⟩ := by
  unfold modulo_BigNum
  rw [if_neg (by simp [BigNum_base, hr])]
  by_cases hz : BigNum_size b = 1 ∧ vector_get b.digits 0 = 0
  · rw [if_pos hz]
  · rw [if_neg hz]
    rcases h with h | h
    · exact absurd (zero_divisor_check b h) hz
    · exact if_pos h

/-- The decimal numbers -26 and 3 (a negative first operand), for C15. -/
theorem C15_modulo_domain_error_witness :
    normalized ⟨-1, ⟨2, [6, 2]⟩, 10⟩ ∧ normalized ⟨1, ⟨1, [3]⟩, 10⟩ ∧
    modulo_BigNum 9 ⟨-1, ⟨2, [6, 2]⟩, 10⟩ ⟨1, ⟨1, [3]⟩, 10⟩
      = some ⟨false, ⟨-1, ⟨2, [6, 2]⟩, 10⟩, ⟨1, ⟨1, [3]⟩, 10⟩⟩ :=
  ⟨by decide, by decide,
    C15_modulo_domain_error 9 ⟨-1, ⟨2, [6, 2]⟩, 10⟩ ⟨1, ⟨1, [3]⟩, 10⟩ (by decide) (by decide)
      rfl (Or.inr (Or.inl rfl))⟩

/-- C19: for normalized operands of equal radix with an exponent of sign MINUS,
`exponentiate_BigNum` returns NULL_TYPE and both operands are exactly what they were. -/
theorem C19_negative_exponent (fuel : Nat) (a n : BigNum) (_ha : normalized a)
    (_hn : normalized n) (hr : a.num_system = n.num_system) (hs : n.sign_bit = MINUS) :
    exponentiate_BigNum fuel a n = Outcome.returned ⟨false, a, n⟩ := by
  unfold exponentiate_BigNum
  rw [if_neg (by simp [BigNum_base, hr])]
  exact if_pos hs

/-- The decimal numbers 3 and -2, for C19. -/
theorem C19_negative_exponent_witness :
    normalized ⟨1, ⟨1, [3]⟩, 10⟩ ∧ normalized ⟨-1, ⟨1, [2]⟩, 10⟩ ∧
    exponentiate_BigNum 9 ⟨1, ⟨1, [3]⟩, 10⟩ ⟨-1, ⟨1, [2]⟩, 10⟩
      = Outcome.returned ⟨false, ⟨1, ⟨1, [3]⟩, 10⟩, ⟨-1, ⟨1, [2]⟩, 10⟩⟩ :=
  ⟨by decide, by decide,
    C19_negative_exponent 9 ⟨1, ⟨1, [3]⟩, 10⟩ ⟨-1, ⟨1, [2]⟩, 10⟩ (by decide) (by decide) rfl rfl⟩

/-- C11 (failing input): dividing the normalized decimal number -1 by +3 leaves the
first operand as the digit 0 with sign MINUS, which is not normalized; the second
operand is unchanged. -/
theorem C11_divide_zero_quotient_failing :
    normalized ⟨-1, ⟨1, [1]⟩, 10⟩ ∧ normalized ⟨1, ⟨1, [3]⟩, 10⟩ ∧
    val (⟨1, ⟨1, [3]⟩, 10⟩ : BigNum) ≠ 0 ∧
    divide_BigNum 9 ⟨-1, ⟨1, [1]⟩, 10⟩ ⟨1, ⟨1, [3]⟩, 10⟩
      = some ⟨true, ⟨-1, ⟨1, [0]⟩, 10⟩, ⟨1, ⟨1, [3]⟩, 10⟩⟩ ∧
    ¬ normalized ⟨-1, ⟨1, [0]⟩, 10⟩ := by
  decide

/-- C17 (failing input): raising the normalized binary number 10 (two) to the canonical
zero exponent leaves the base operand as it was, the digits 1, 0, not the single digit
1. -/
theorem C17_zero_exponent_failing :
    normalized ⟨1, ⟨2, [0, 1]⟩, 2⟩ ∧ normalized ⟨1, ⟨1, [0]⟩, 2⟩ ∧
    exponentiate_BigNum 9 ⟨1, ⟨2, [0, 1]⟩, 2⟩ ⟨1, ⟨1, [0]⟩, 2⟩
      = Outcome.returned ⟨true, ⟨1, ⟨2, [0, 1]⟩, 2⟩, ⟨1, ⟨1, [0]⟩, 2⟩⟩ := by
  decide

/-- C18 (failing input): raising the canonical zero of radix 2 to the normalized binary
exponent 10 (two) leaves the base operand with no digit at all, rendered as the empty
text, not as the single digit 0. -/
theorem C18_zero_base_failing :
    normalized ⟨1, ⟨1, [0]⟩, 2⟩ ∧ normalized ⟨1, ⟨2, [0, 1]⟩, 2⟩ ∧
    (exponentiate_BigNum 9 ⟨1, ⟨1, [0]⟩, 2⟩ ⟨1, ⟨2, [0, 1]⟩, 2⟩).map
      (fun res => (res.ok, res.bg1.sign_bit, res.bg1.digits.array, BigNum_to_cstring res.bg1))
      = Outcome.returned (true, 1, [], []) := by
  decide

/-! ## Arithmetic on operands of sign PLUS -/

theorem normalized_of_plain (r : Nat) (hr : 2 ≤ r) (hr16 : r ≤ 16) (x : BigNum)
    (hx : plain_operand r x) : normalized x := by
  obtain ⟨h1, h2, h3, h4⟩ := hx
  exact ⟨by rw [h1]; exact hr, by rw [h1]; exact hr16, Or.inl h2, by rw [h1]; exact h3, h4,
    fun _ => h2⟩

theorem plain_of_normalized (x : BigNum) (hx : normalized x) (hs : x.sign_bit = PLUS) :
    plain_operand x.num_system x :=
  ⟨rfl, hs, hx.2.2.2.1, hx.2.2.2.2.1⟩

theorem plain_copy (r : Nat) (x : BigNum) (hx : plain_operand r x) :
    plain_operand r (copy_BigNum x) ∧ (copy_BigNum x).digits.array = x.digits.array := by
  obtain ⟨h1, h2, h3, h4⟩ := hx
  have e : (copy_BigNum x).digits.array = x.digits.array := by
    simp [copy_BigNum, copy_vector_array]
  exact ⟨⟨h1, h2, by rw [e]; exact h3, by rw [e]; exact h4⟩, e⟩

theorem add_plain_spec (r : Nat) (hr : 2 ≤ r) (hr256 : r ≤ 256) (a b : BigNum)
    (ha : plain_operand r a) (hb : plain_operand r b) :
    (add_BigNum a b).ok = true ∧ plain_operand r (add_BigNum a b).bg1 ∧
    magnitude r (add_BigNum a b).bg1.digits.array
      = magnitude r a.digits.array + magnitude r b.digits.array ∧
    plain_operand r (add_BigNum a b).bg2 ∧
    (add_BigNum a b).bg2.digits.array = b.digits.array := by
  obtain ⟨a1, a2, a3, a4⟩ := id ha
  obtain ⟨b1, b2, b3, b4⟩ := id hb
  rw [add_BigNum_same a b (a1.trans b1.symm) (a2.trans b2.symm)]
  obtain ⟨h1, h2, h3, h4, h5, h6, h7, h8, h9⟩ := add_same_sign_spec a b r hr hr256 b1 a3 b3
  have h9' := h9 b4
  refine ⟨h1, ⟨h5.trans a1, ?_, h3, h2⟩, h4, ⟨h7.trans b1, ?_, by rw [h9']; exact b3,
    by rw [h9']; exact b4⟩, h9'⟩
  · rw [h6, a2]; split <;> rfl
  · rw [h8, b2]; split <;> rfl

theorem subtract_plain_spec (r : Nat) (hr : 2 ≤ r) (hr256 : r ≤ 256) (a b : BigNum)
    (ha : plain_operand r a) (hb : plain_operand r b)
    (hle : magnitude r b.digits.array ≤ magnitude r a.digits.array) :
    (subtract_BigNum a b).ok = true ∧ plain_operand r (subtract_BigNum a b).bg1 ∧
    magnitude r (subtract_BigNum a b).bg1.digits.array + magnitude r b.digits.array
      = magnitude r a.digits.array ∧
    plain_operand r (subtract_BigNum a b).bg2 ∧
    (subtract_BigNum a b).bg2.digits.array = b.digits.array := by
  obtain ⟨a1, a2, a3, a4⟩ := id ha
  obtain ⟨b1, b2, b3, b4⟩ := id hb
  rw [subtract_BigNum_unsigned a b (a1.trans b1.symm) (by rw [a2]; decide) (by rw [b2]; decide)]
  obtain ⟨s1, s2, s3, s4, s5, _, s7, s8, s9, s10⟩ := subtract_magnitude_spec a b r hr hr256
    a1 b1 a3 b3 a4 b4
  have hval : magnitude r (subtract_magnitude a b).bg1.digits.array + magnitude r b.digits.array
      = magnitude r a.digits.array ∧ (subtract_magnitude a b).bg1.sign_bit = PLUS := by
    rcases Nat.lt_or_eq_of_le hle with h | h
    · obtain ⟨e1, e2⟩ := s5 h
      exact ⟨e1, e2.trans a2⟩
    · obtain ⟨e1, e2⟩ := s7 h.symm
      rw [e1]
      exact ⟨by simp [magnitude, h], e2⟩
  exact ⟨s1, ⟨s2, hval.2, s4, s3⟩, hval.1,
    ⟨s8, (s10 (fun _ => b2)).trans b2, by rw [s9]; exact b3, by rw [s9]; exact b4⟩, s9⟩

theorem multiply_plain_spec (r : Nat) (hr : 2 ≤ r) (hr256 : r ≤ 256) (a b : BigNum)
    (ha : plain_operand r a) (hb : plain_operand r b)
    (hbz : 0 < magnitude r b.digits.array) :
    (multiply_BigNum a b).ok = true ∧ plain_operand r (multiply_BigNum a b).bg1 ∧
    magnitude r (multiply_BigNum a b).bg1.digits.array
      = magnitude r a.digits.array * magnitude r b.digits.array ∧
    (multiply_BigNum a b).bg2 = b := by
  obtain ⟨a1, a2, a3, a4⟩ := id ha
  obtain ⟨b1, b2, _, _⟩ := id hb
  have hinv : multiply_invariant r PLUS
      { clear_BigNum a with sign_bit := (copy_BigNum a).sign_bit } (copy_BigNum a) := by
    refine ⟨a1, a1, a2, a2, ?_, ?_, ?_, fun _ => rfl⟩
    · intro d hd; simp [clear_BigNum, vector_clear] at hd
    · intro d hd
      simp only [copy_BigNum, copy_vector_array] at hd
      exact a3 d hd
    · simp only [copy_BigNum, copy_vector_array]; exact a4
  obtain ⟨k1, k2, k3⟩ := multiply_loop_spec r hr hr256 PLUS b (BigNum_size b) 0 _ _ []
    b.digits.array (by simp) rfl (by simp [BigNum_size, vector_size]) hinv
  have k3' := k3 (Or.inr hbz)
  generalize hst : multiply_loop b (BigNum_size b) 0
    { clear_BigNum a with sign_bit := (copy_BigNum a).sign_bit } (copy_BigNum a) = st
    at k1 k2 k3'
  simp only [clear_BigNum, vector_clear, magnitude, Nat.zero_add, copy_BigNum,
    copy_vector_array] at k2
  obtain ⟨i1, _, i3, _, i5, _, _, _⟩ := k1
  have hres : multiply_BigNum a b
      = ⟨true, zero_justify { st.1 with sign_bit := st.1.sign_bit * b.sign_bit }, b⟩ := by
    unfold multiply_BigNum
    rw [if_neg (by simp [BigNum_base, a1, b1])]
    simp only [hst]
  have harr : (zero_justify { st.1 with sign_bit := st.1.sign_bit * b.sign_bit }).digits.array
      = st.1.digits.array := zero_justify_normalized_eq _ k3'
  have hsgn : (zero_justify { st.1 with sign_bit := st.1.sign_bit * b.sign_bit }).sign_bit
      = PLUS := by
    rw [zero_justify_sign, harr, i3, b2]
    split
    · rfl
    · rfl
  have hnum : (zero_justify { st.1 with sign_bit := st.1.sign_bit * b.sign_bit }).num_system
      = r := by
    rw [zero_justify_num_system]; exact i1
  rw [hres]
  exact ⟨rfl, ⟨hnum, hsgn, by rw [harr]; exact i5, by rw [harr]; exact k3'⟩,
    by rw [harr, k2], rfl⟩

theorem divide_plain_spec (r : Nat) (hr : 2 ≤ r) (hr16 : r ≤ 16) (fuel : Nat)
    (hf : r ≤ fuel + 1) (a b : BigNum) (ha : plain_operand r a) (hb : plain_operand r b)
    (hbz : 0 < magnitude r b.digits.array) :
    ∃ res, divide_BigNum fuel a b = some res ∧ res.ok = true ∧ plain_operand r res.bg1 ∧
      magnitude r res.bg1.digits.array
        = magnitude r a.digits.array / magnitude r b.digits.array ∧
      plain_operand r res.bg2 ∧ res.bg2.digits.array = b.digits.array := by
  obtain ⟨a1, a2, _, _⟩ := id ha
  obtain ⟨b1, b2, b3, b4⟩ := id hb
  obtain ⟨res, h1, h2, h3, h4, h5, h6, h7, h8, h9, h10⟩ := divide_BigNum_spec fuel a b
    (normalized_of_plain r hr hr16 a ha) (normalized_of_plain r hr hr16 b hb) (a1.trans b1.symm)
    (by rw [b1]; exact hbz) (by rw [a1]; exact hf)
  rw [a1] at h3 h6 h7
  rw [b1] at h7 h10
  refine ⟨res, h1, h2, ⟨h3, ?_, h6, h5⟩, h7, ⟨h10, h8.trans b2, by rw [h9]; exact b3,
    by rw [h9]; exact b4⟩, h9⟩
  rw [h4, a2, b2]; rfl

theorem modulo_plain_spec (r : Nat) (hr : 2 ≤ r) (hr16 : r ≤ 16) (fuel : Nat)
    (hf : r ≤ fuel + 1) (a b : BigNum) (ha : plain_operand r a) (hb : plain_operand r b)
    (hbz : 0 < magnitude r b.digits.array) :
    ∃ res, modulo_BigNum fuel a b = some res ∧ res.ok = true ∧ plain_operand r res.bg1 ∧
      magnitude r res.bg1.digits.array
        = magnitude r a.digits.array % magnitude r b.digits.array ∧
      plain_operand r res.bg2 ∧ res.bg2.digits.array = b.digits.array := by
  obtain ⟨a1, a2, _, _⟩ := id ha
  obtain ⟨b1, b2, _, _⟩ := id hb
  have hnz : ¬ (BigNum_size b = 1 ∧ vector_get b.digits 0 = 0) := by
    rintro ⟨h1, h2⟩
    obtain ⟨s, ⟨c, l⟩, n⟩ := b
    simp only [BigNum_size, vector_size] at h1
    match l, h1 with
    | [x], _ =>
      simp [vector_get, vector_size] at h2
      simp [h2, magnitude] at hbz
  obtain ⟨hc1, hc2⟩ := plain_copy r a ha
  obtain ⟨q, d1, _, d3, d4, d5, d6⟩ := divide_plain_spec r hr hr16 fuel hf (copy_BigNum a) b
    hc1 hb hbz
  rw [hc2] at d4
  obtain ⟨_, m2, m3, m4⟩ := multiply_plain_spec r hr (by omega) q.bg1 q.bg2 d3 d5
    (by rw [d6]; exact hbz)
  rw [d4, d6] at m3
  have hle : magnitude r (multiply_BigNum q.bg1 q.bg2).bg1.digits.array
      ≤ magnitude r a.digits.array := by
    rw [m3]; exact Nat.div_mul_le_self _ _
  obtain ⟨_, s2, s3, _, _⟩ := subtract_plain_spec r hr (by omega) a
    (multiply_BigNum q.bg1 q.bg2).bg1 ha m2 hle
  have hres : modulo_BigNum fuel a b = some ⟨true,
      (subtract_BigNum a (multiply_BigNum q.bg1 q.bg2).bg1).bg1,
      (multiply_BigNum q.bg1 q.bg2).bg2⟩ := by
    unfold modulo_BigNum
    rw [if_neg (by simp [BigNum_base, a1, b1]), if_neg hnz,
      if_neg (by simp [BigNum_sign, a2, b2, PLUS, MINUS])]
    simp only [d1]
  refine ⟨_, hres, rfl, s2, ?_, by rw [m4]; exact d5, by rw [m4]; exact d6⟩
  simp only []
  rw [m3] at s3
  have := Nat.div_add_mod (magnitude r a.digits.array) (magnitude r b.digits.array)
  have e : magnitude r a.digits.array / magnitude r b.digits.array * magnitude r b.digits.array
      = magnitude r b.digits.array * (magnitude r a.digits.array / magnitude r b.digits.array) :=
    Nat.mul_comm _ _
  omega

theorem plain_unique (r : Nat) (hr : 2 ≤ r) (x y : BigNum) (hx : plain_operand r x)
    (hy : plain_operand r y)
    (h : magnitude r x.digits.array = magnitude r y.digits.array) :
    x.digits.array = y.digits.array := by
  obtain ⟨x1, _, x3, x4⟩ := hx
  obtain ⟨y1, _, y3, y4⟩ := hy
  rcases compare_abs_spec x y r hr x1 y1 x3 y3 x4 y4 with ⟨_, hm⟩ | ⟨_, hm⟩ | ⟨_, hm⟩
  · omega
  · exact hm
  · omega

theorem sign_plus_of_nonneg (a : BigNum) (ha : normalized a) (h : 0 ≤ val a) :
    a.sign_bit = PLUS := by
  obtain ⟨a2, _, asg, _, aj, az⟩ := id ha
  rcases asg with hs | hs
  · exact hs
  · apply az
    apply justified_magnitude_zero a.num_system (by omega) _ aj
    simp only [val, hs, MINUS] at h
    have : (0 : Int) ≤ (magnitude a.num_system a.digits.array : Int) := Int.ofNat_nonneg _
    have h0 : (magnitude a.num_system a.digits.array : Int) = 0 := by omega
    exact_mod_cast h0

theorem val_of_plain (r : Nat) (x : BigNum) (hx : plain_operand r x) :
    val x = (magnitude r x.digits.array : Int) := by
  obtain ⟨x1, x2, _, _⟩ := hx
  simp [val, x1, x2, PLUS]

/-- C13: for normalized operands of equal radix with val(a) >= 0 and val(b) > 0,
`modulo_BigNum` returns (any bound of at least radix - 1 inner iterations per digit of
the division is enough) and leaves the first operand normalized, of the same radix, with
value val(a) mod val(b): the remainder r with 0 <= r < val(b) and
val(a) = val(b) * floor(val(a) / val(b)) + r.  The second operand keeps its sign, digits
and radix. -/
theorem C13_modulo (fuel : Nat) (a b : BigNum) (ha : normalized a) (hb : normalized b)
    (hr : a.num_system = b.num_system) (ha0 : 0 ≤ val a) (hb0 : 0 < val b)
    (hf : a.num_system ≤ fuel + 1) :
    ∃ res, modulo_BigNum fuel a b = some res ∧ res.ok = true ∧
      normalized res.bg1 ∧ res.bg1.num_system = a.num_system ∧
      val res.bg1 = val a % val b ∧
      0 ≤ val res.bg1 ∧ val res.bg1 < val b ∧
      val a = val b * (val a / val b) + val res.bg1 ∧
      res.bg2.sign_bit = b.sign_bit ∧ res.bg2.digits.array = b.digits.array ∧
      res.bg2.num_system = b.num_system := by
  obtain ⟨a2, a16, _, _, _, _⟩ := id ha
  have hpa : plain_operand a.num_system a :=
    plain_of_normalized a ha (sign_plus_of_nonneg a ha ha0)
  have hpb : plain_operand a.num_system b := by
    rw [hr]
    exact plain_of_normalized b hb (sign_plus_of_nonneg b hb (le_of_lt hb0))
  have hva := val_of_plain _ a hpa
  have hvb := val_of_plain _ b hpb
  have hbz : 0 < magnitude a.num_system b.digits.array := by
    rw [hvb] at hb0
    exact_mod_cast hb0
  obtain ⟨res, m1, m2, m3, m4, m5, m6⟩ := modulo_plain_spec a.num_system a2 a16 fuel hf a b
    hpa hpb hbz
  have hvr := val_of_plain _ res.bg1 m3
  have hmod : val res.bg1 = val a % val b := by
    rw [hvr, hva, hvb, m4]
    push_cast
    rfl
  refine ⟨res, m1, m2, normalized_of_plain _ a2 a16 _ m3, m3.1, hmod, ?_, ?_, ?_,
    m5.2.1.trans hpb.2.1.symm, m6, m5.1.trans hr⟩
  · rw [hmod]; exact Int.emod_nonneg _ (ne_of_gt hb0)
  · rw [hmod]; exact Int.emod_lt_of_pos _ hb0
  · rw [hmod]; exact (Int.ediv_add_emod _ _).symm

/-- The decimal numbers 26 and 3, with nine inner iterations allowed, for C13. -/
theorem C13_modulo_witness :
    normalized ⟨1, ⟨2, [6, 2]⟩, 10⟩ ∧ normalized ⟨1, ⟨1, [3]⟩, 10⟩ ∧
    ∃ res, modulo_BigNum 9 ⟨1, ⟨2, [6, 2]⟩, 10⟩ ⟨1, ⟨1, [3]⟩, 10⟩ = some res ∧
      val res.bg1 = val ⟨1, ⟨2, [6, 2]⟩, 10⟩ % val ⟨1, ⟨1, [3]⟩, 10⟩ := by
  obtain ⟨res, h1, _, _, _, h5, _⟩ := C13_modulo 9 ⟨1, ⟨2, [6, 2]⟩, 10⟩ ⟨1, ⟨1, [3]⟩, 10⟩
    (by decide) (by decide) rfl (by decide) (by decide) (by decide)
  exact ⟨by decide, by decide, res, h1, h5⟩

/-- C14: for normalized operands of equal radix with val(a) >= 0 and val(b) > 0, the
quotient of copies of a and b, multiplied by a copy of b and added to the remainder of
copies of a and b, has the sign, the digits and the radix of a (every call succeeds
with a bound of at least radix - 1 inner iterations). -/
theorem C14_divide_modulo_identity (fuel : Nat) (a b : BigNum) (ha : normalized a)
    (hb : normalized b) (hr : a.num_system = b.num_system) (ha0 : 0 ≤ val a)
    (hb0 : 0 < val b) (hf : a.num_system ≤ fuel + 1) :
    ∃ q m, divide_BigNum fuel (copy_BigNum a) (copy_BigNum b) = some q ∧ q.ok = true ∧
      modulo_BigNum fuel (copy_BigNum a) (copy_BigNum b) = some m ∧ m.ok = true ∧
      (multiply_BigNum q.bg1 (copy_BigNum b)).ok = true ∧
      (add_BigNum (multiply_BigNum q.bg1 (copy_BigNum b)).bg1 m.bg1).ok = true ∧
      (add_BigNum (multiply_BigNum q.bg1 (copy_BigNum b)).bg1 m.bg1).bg1.sign_bit
        = a.sign_bit ∧
      (add_BigNum (multiply_BigNum q.bg1 (copy_BigNum b)).bg1 m.bg1).bg1.digits.array
        = a.digits.array ∧
      (add_BigNum (multiply_BigNum q.bg1 (copy_BigNum b)).bg1 m.bg1).bg1.num_system
        = a.num_system := by
  obtain ⟨a2, a16, _, _, _, _⟩ := id ha
  have hpa : plain_operand a.num_system a :=
    plain_of_normalized a ha (sign_plus_of_nonneg a ha ha0)
  have hpb : plain_operand a.num_system b := by
    rw [hr]
    exact plain_of_normalized b hb (sign_plus_of_nonneg b hb (le_of_lt hb0))
  have hbz : 0 < magnitude a.num_system b.digits.array := by
    rw [val_of_plain _ b hpb] at hb0
    exact_mod_cast hb0
  obtain ⟨ca1, ca2⟩ := plain_copy _ a hpa
  obtain ⟨cb1, cb2⟩ := plain_copy _ b hpb
  obtain ⟨q, d1, d2, d3, d4, _, _⟩ := divide_plain_spec a.num_system a2 a16 fuel hf
    (copy_BigNum a) (copy_BigNum b) ca1 cb1 (by rw [cb2]; exact hbz)
  obtain ⟨m, m1, m2, m3, m4, _, _⟩ := modulo_plain_spec a.num_system a2 a16 fuel hf
    (copy_BigNum a) (copy_BigNum b) ca1 cb1 (by rw [cb2]; exact hbz)
  obtain ⟨p1, p2, p3, _⟩ := multiply_plain_spec a.num_system a2 (by omega) q.bg1
    (copy_BigNum b) d3 cb1 (by rw [cb2]; exact hbz)
  obtain ⟨s1, s2, s3, _, _⟩ := add_plain_spec a.num_system a2 (by omega)
    (multiply_BigNum q.bg1 (copy_BigNum b)).bg1 m.bg1 p2 m3
  rw [ca2, cb2] at d4 m4
  rw [cb2, d4] at p3
  rw [p3, m4] at s3
  have hmag : magnitude a.num_system
      (add_BigNum (multiply_BigNum q.bg1 (copy_BigNum b)).bg1 m.bg1).bg1.digits.array
      = magnitude a.num_system a.digits.array := by
    rw [s3, Nat.mul_comm]
    exact Nat.div_add_mod _ _
  exact ⟨q, m, d1, d2, m1, m2, p1, s1, s2.2.1.trans hpa.2.1.symm,
    plain_unique _ a2 _ _ s2 hpa hmag, s2.1⟩

/-- The decimal numbers 26 and 3, with nine inner iterations allowed, for C14. -/
theorem C14_divide_modulo_identity_witness :
    normalized ⟨1, ⟨2, [6, 2]⟩, 10⟩ ∧ normalized ⟨1, ⟨1, [3]⟩, 10⟩ ∧
    ∃ q m, divide_BigNum 9 (copy_BigNum ⟨1, ⟨2, [6, 2]⟩, 10⟩) (copy_BigNum ⟨1, ⟨1, [3]⟩, 10⟩)
        = some q ∧
      modulo_BigNum 9 (copy_BigNum ⟨1, ⟨2, [6, 2]⟩, 10⟩) (copy_BigNum ⟨1, ⟨1, [3]⟩, 10⟩)
        = some m ∧
      (add_BigNum (multiply_BigNum q.bg1 (copy_BigNum ⟨1, ⟨1, [3]⟩, 10⟩)).bg1
        m.bg1).bg1.digits.array = [6, 2] := by
  obtain ⟨q, m, h1, _, h3, _, _, _, _, h8, _⟩ := C14_divide_modulo_identity 9
    ⟨1, ⟨2, [6, 2]⟩, 10⟩ ⟨1, ⟨1, [3]⟩, 10⟩ (by decide) (by decide) rfl (by decide) (by decide)
    (by decide)
  exact ⟨by decide, by decide, q, m, h1, h3, h8⟩

/-! ## Decimal text of machine integers -/

theorem justified_cons (x : Nat) (l : List Nat) (hl : justified l) (h0 : l ≠ [0]) :
    justified (x :: l) := by
  refine ⟨by simp, Or.inl ?_⟩
  rcases hl.2 with hj | hj
  · match l, hl.1, hj with
    | y :: t, _, hj => simpa [List.getLast?_cons_cons] using hj
  · exact absurd hj h0

theorem justified_singleton (d : Nat) : justified [d] := by
  refine ⟨by simp, ?_⟩
  by_cases h0 : d = 0
  · right; rw [h0]
  · left; simp [h0]

theorem decimal_digits_spec (f : Nat) : ∀ n : Nat, n < f →
    (∀ d ∈ decimal_digits f n, d < 10) ∧ magnitude 10 (decimal_digits f n) = n ∧
    justified (decimal_digits f n) := by
  induction f with
  | zero => intro n hn; omega
  | succ f ih =>
    intro n hn
    simp only [decimal_digits]
    by_cases h10 : n < 10
    · rw [if_pos h10]
      refine ⟨?_, by simp [magnitude], justified_singleton n⟩
      intro d hd
      simp only [List.mem_singleton] at hd
      omega
    · rw [if_neg h10]
      obtain ⟨i1, i2, i3⟩ := ih (n / 10) (by omega)
      refine ⟨?_, ?_, ?_⟩
      · intro d hd
        rcases List.mem_cons.mp hd with rfl | hd
        · omega
        · exact i1 d hd
      · simp only [magnitude, i2]
        omega
      · apply justified_cons _ _ i3
        intro hz
        rw [hz] at i2
        simp [magnitude] at i2
        omega

theorem digit_char_facts : ∀ d < 10,
    map_digit (Char.ofNat (('0' : Char).toNat + d)) = d ∧
    Char.ofNat (('0' : Char).toNat + d) ≠ '-' ∧
    Char.ofNat (('0' : Char).toNat + d) ≠ '+' ∧
    hex_digits.getD d '?' = Char.ofNat (('0' : Char).toNat + d) := by
  decide

theorem assign_value_unsigned (bg : BigNum) (r : Nat) (c : Char) (cs : List Char)
    (hc1 : c ≠ '-') (hc2 : c ≠ '+') (hv : ∀ x ∈ c :: cs, map_digit x < r)
    (hj : justified ((c :: cs).map map_digit).reverse) :
    (assign_value bg (c :: cs) r).ok = true ∧
    (assign_value bg (c :: cs) r).bg.num_system = r ∧
    (assign_value bg (c :: cs) r).bg.digits.array = ((c :: cs).map map_digit).reverse ∧
    (assign_value bg (c :: cs) r).bg.sign_bit = PLUS := by
  obtain ⟨hok, harr⟩ := assign_value_loop_ok r (c :: cs) (vector_clear bg.digits) hv
  simp only [vector_clear, List.nil_append] at harr hok
  have hbody : (if c = '-' ∨ c = '+' then cs else c :: cs) = c :: cs := by
    rw [if_neg (by simp [hc1, hc2])]
  simp only [assign_value, clear_BigNum, vector_clear, hbody, hok, if_neg hc1]
  generalize hrv : (assign_value_loop r (c :: cs) ⟨bg.digits.capacity, []⟩).2 = rv at harr
  have hrev : (reverse_vector rv).array = ((c :: cs).map map_digit).reverse := by
    rw [reverse_vector_array, harr]
  simp only [Bool.true_eq_false, if_false]
  have harr2 : (zero_justify ⟨1, reverse_vector rv, r⟩).digits.array
      = ((c :: cs).map map_digit).reverse := by
    rw [zero_justify_normalized_eq _ (by simpa [hrev] using hj)]
    exact hrev
  refine ⟨trivial, zero_justify_num_system _, harr2, ?_⟩
  rw [zero_justify_sign]
  split <;> rfl

theorem int_to_BigNum_spec (n : Nat) :
    plain_operand 10 (int_to_BigNum (n : Int)).bg ∧
    magnitude 10 (int_to_BigNum (n : Int)).bg.digits.array = n := by
  obtain ⟨d1, d2, d3⟩ := decimal_digits_spec (n + 1) n (by omega)
  have htext : sprintf_d (n : Int) = (decimal_digits (n + 1) n).reverse.map
      (fun d => Char.ofNat (('0' : Char).toNat + d)) := by
    unfold sprintf_d
    simp only [Int.natAbs_ofNat]
    rw [if_neg (by omega)]
  generalize decimal_digits (n + 1) n = D at d1 d2 d3 htext
  have hmap : ((D.reverse.map (fun d => Char.ofNat (('0' : Char).toNat + d))).map
      map_digit).reverse = D := by
    rw [List.map_map, ← List.map_reverse, List.reverse_reverse]
    conv_rhs => rw [← List.map_id D]
    apply List.map_congr_left
    intro d hd
    exact (digit_char_facts d (d1 d hd)).1
  cases htxt : D.reverse.map (fun d => Char.ofNat (('0' : Char).toNat + d)) with
  | nil =>
    exfalso
    have := congrArg List.length htxt
    simp at this
    exact d3.1 this
  | cons c cs =>
    have hmem : ∀ x ∈ c :: cs, ∃ d, d < 10 ∧ x = Char.ofNat (('0' : Char).toNat + d) := by
      intro x hx
      rw [← htxt] at hx
      obtain ⟨d, hd, rfl⟩ := List.mem_map.mp hx
      exact ⟨d, d1 d (List.mem_reverse.mp hd), rfl⟩
    obtain ⟨d0, hd0, hc⟩ := hmem c (List.mem_cons_self _ _)
    have f0 := digit_char_facts d0 hd0
    rw [htxt] at hmap
    obtain ⟨_, a2, a3, a4⟩ := assign_value_unsigned create_BigNum 10 c cs
      (by rw [hc]; exact f0.2.1) (by rw [hc]; exact f0.2.2.1)
      (by
        intro x hx
        obtain ⟨d, hd, rfl⟩ := hmem x hx
        rw [(digit_char_facts d hd).1]; exact hd)
      (by rw [hmap]; exact d3)
    unfold int_to_BigNum
    rw [htext, htxt]
    rw [hmap] at a3
    exact ⟨⟨a2, a4, by rw [a3]; exact d1, by rw [a3]; exact d3⟩, by rw [a3]; exact d2⟩

theorem zero_decimal_spec :
    plain_operand 10 (assign_value create_BigNum ['0'] 10).bg ∧
    (assign_value create_BigNum ['0'] 10).bg.digits.array = [0] :=
  ⟨⟨by decide, by decide, by decide, by decide⟩, by decide⟩

theorem hex_decimal_facts : ∀ d < 10,
    ('0' ≤ hex_digits.getD d '?' ∧ hex_digits.getD d '?' ≤ '9') ∧
    (hex_digits.getD d '?').toNat - ('0' : Char).toNat = d ∧
    hex_digits.getD d '?' ≠ '-' ∧ hex_digits.getD d '?' ≠ '+' := by
  decide

theorem atoi_loop_msb (m : List Nat) : ∀ (acc : Nat), (∀ d ∈ m, d < 10) →
    atoi_loop (m.map (fun d => hex_digits.getD d '?')) acc
      = acc * 10 ^ m.length + magnitude 10 m.reverse := by
  induction m with
  | nil => intro acc _; simp [atoi_loop, magnitude]
  | cons a m ih =>
    intro acc h
    have ha := hex_decimal_facts a (h a (List.mem_cons_self _ _))
    simp only [List.map_cons, atoi_loop]
    rw [if_pos ha.1, ha.2.1, ih _ (fun d hd => h d (List.mem_cons_of_mem _ hd))]
    rw [List.reverse_cons, magnitude_append]
    simp only [magnitude, Nat.mul_zero, Nat.add_zero, List.length_reverse, List.length_cons,
      pow_succ]
    ring

theorem atoi_to_cstring (x : BigNum) (hx : plain_operand 10 x) :
    atoi (BigNum_to_cstring x) = (magnitude 10 x.digits.array : Int) := by
  obtain ⟨_, x2, x3, x4⟩ := hx
  rw [to_cstring_eq, if_pos x2, List.nil_append]
  have hm := atoi_loop_msb x.digits.array.reverse 0
    (fun d hd => x3 d (List.mem_reverse.mp hd))
  rw [List.reverse_reverse, Nat.zero_mul, Nat.zero_add] at hm
  cases hrev : x.digits.array.reverse with
  | nil =>
    exfalso
    apply x4.1
    simpa using hrev
  | cons d ds =>
    rw [hrev] at hm
    have hd : d < 10 := x3 d (by
      have : d ∈ x.digits.array.reverse := by rw [hrev]; simp
      exact List.mem_reverse.mp this)
    have hf := hex_decimal_facts d hd
    simp only [List.map_cons, atoi]
    rw [if_neg hf.2.2.1, if_neg hf.2.2.2]
    simp only [List.map_cons] at hm
    rw [hm]

/-! ## Conversion between number systems -/

theorem convert_to_decimal_loop_spec (bg : BigNum) (r0 : Nat) (hr0 : 0 < r0) (k : Nat) :
    ∀ (i : Nat) (result mult ns : BigNum) (pre ys : List Nat),
    bg.digits.array = pre ++ ys → pre.length = i → ys.length = k →
    plain_operand 10 result → plain_operand 10 mult → plain_operand 10 ns →
    0 < magnitude 10 mult.digits.array → magnitude 10 ns.digits.array = r0 →
    plain_operand 10 (convert_to_decimal_loop bg k i result mult ns).1 ∧
    magnitude 10 (convert_to_decimal_loop bg k i result mult ns).1.digits.array
      = magnitude 10 result.digits.array + magnitude 10 mult.digits.array * magnitude r0 ys := by
  induction k with
  | zero =>
    intro i result mult ns pre ys _ _ hy hres _ _ _ _
    rw [List.length_eq_zero.mp hy]
    exact ⟨hres, by simp [convert_to_decimal_loop, magnitude]⟩
  | succ k ih =>
    intro i result mult ns pre ys hb hp hy hres hmult hns hM hN
    obtain ⟨y, ys', rfl⟩ := List.exists_cons_of_length_eq_add_one hy
    simp only [convert_to_decimal_loop]
    rw [vector_get_mid bg.digits pre ys' y i hb hp]
    obtain ⟨t1, t2⟩ := int_to_BigNum_spec y
    generalize (int_to_BigNum (y : Int)).bg = tmp at t1 t2
    obtain ⟨_, m2, m3, m4⟩ := multiply_plain_spec 10 (by omega) (by omega) tmp mult t1 hmult hM
    generalize multiply_BigNum tmp mult = r1 at m2 m3 m4
    rw [m4]
    obtain ⟨_, a2, a3, _, _⟩ := add_plain_spec 10 (by omega) (by omega) result r1.bg1 hres m2
    generalize add_BigNum result r1.bg1 = r2 at a2 a3
    obtain ⟨_, n2, n3, n4⟩ := multiply_plain_spec 10 (by omega) (by omega) mult ns hmult hns
      (by rw [hN]; exact hr0)
    generalize multiply_BigNum mult ns = r3 at n2 n3 n4
    rw [n4]
    obtain ⟨c1, c2⟩ := ih (i + 1) r2.bg1 r3.bg1 ns (pre ++ [y]) ys' (by rw [hb]; simp)
      (by simp [hp]) (by simpa using hy) a2 n2 hns
      (by rw [n3, hN]; exact Nat.mul_pos hM hr0) hN
    refine ⟨c1, ?_⟩
    rw [c2, a3, m3, t2, n3, hN]
    simp only [magnitude]
    ring

theorem convert_from_decimal_loop_spec (fuel : Nat) (hf : 10 ≤ fuel + 1) (t : Nat)
    (ht2 : 2 ≤ t) (ht16 : t ≤ 16) (zero : BigNum) (hz : plain_operand 10 zero)
    (hz0 : zero.digits.array = [0]) (n : Nat) :
    ∀ (d : Vector) (result ns : BigNum), plain_operand 10 result → plain_operand 10 ns →
    magnitude 10 ns.digits.array = t → magnitude 10 result.digits.array < t ^ n →
    ∃ d' result' ns' E, convert_from_decimal_loop fuel n d result ns zero
        = some (d', result', ns') ∧
      d'.array = d.array ++ E ∧ magnitude t E = magnitude 10 result.digits.array ∧
      (∀ e ∈ E, e < t) ∧
      (magnitude 10 result.digits.array = 0 → E = []) ∧
      (0 < magnitude 10 result.digits.array → E ≠ [] ∧ E.getLast? ≠ some 0) := by
  induction n with
  | zero =>
    intro d result ns hres hns hN hV
    obtain ⟨r1, _, r3, r4⟩ := id hres
    obtain ⟨z1, _, z3, z4⟩ := id hz
    rw [convert_from_decimal_loop]
    simp only [pow_zero, Nat.lt_one_iff] at hV
    rcases compare_abs_spec result zero 10 (by omega) r1 z1 r3 z3 r4 z4 with
      ⟨_, hm⟩ | ⟨hc, _⟩ | ⟨_, hm⟩
    · omega
    · rw [if_neg (by rw [hc]; decide)]
      exact ⟨d, result, ns, [], rfl, by simp, by simp [magnitude, hV], by simp, fun _ => rfl,
        fun h => by omega⟩
    · rw [hz0] at hm; simp [magnitude] at hm
  | succ n ih =>
    intro d result ns hres hns hN hV
    obtain ⟨r1, _, r3, r4⟩ := id hres
    obtain ⟨z1, _, z3, z4⟩ := id hz
    rw [convert_from_decimal_loop]
    rcases compare_abs_spec result zero 10 (by omega) r1 z1 r3 z3 r4 z4 with
      ⟨hc, hm⟩ | ⟨hc, hm⟩ | ⟨_, hm⟩
    · rw [if_pos (by rw [hc]; rfl)]
      simp only []
      obtain ⟨c1, c2⟩ := plain_copy 10 result hres
      obtain ⟨m, m1, _, m3, m4, m5, m6⟩ := modulo_plain_spec 10 (by omega) (by omega) fuel hf
        (copy_BigNum result) ns c1 hns (by rw [hN]; omega)
      rw [c2, hN] at m4
      have hmt : magnitude 10 m.bg2.digits.array = t := by rw [m6]; exact hN
      obtain ⟨q, q1, _, q3, q4, q5, q6⟩ := divide_plain_spec 10 (by omega) (by omega) fuel hf
        result m.bg2 hres m5 (by rw [hmt]; omega)
      rw [hmt] at q4
      have hdig : (atoi (BigNum_to_cstring m.bg1) % 256).toNat
          = magnitude 10 result.digits.array % t := by
        rw [atoi_to_cstring m.bg1 m3, m4]
        have : magnitude 10 result.digits.array % t < t := Nat.mod_lt _ (by omega)
        omega
      have hlt : magnitude 10 q.bg1.digits.array < t ^ n := by
        rw [q4]
        apply Nat.div_lt_of_lt_mul
        rw [pow_succ] at hV
        rw [Nat.mul_comm]; exact hV
      obtain ⟨d', result', ns', E, e1, e2, e3, e4, e5, e6⟩ := ih
        (push_back d (magnitude 10 result.digits.array % t)) q.bg1 q.bg2 q3 q5
        (by rw [q6]; exact hmt) hlt
      rw [m1]
      simp only [hdig, q1]
      rw [e1]
      refine ⟨d', result', ns', (magnitude 10 result.digits.array % t) :: E, rfl, ?_, ?_, ?_, ?_,
        ?_⟩
      · rw [e2, push_back_array]; simp
      · simp only [magnitude, e3, q4]
        exact Nat.mod_add_div _ _
      · intro e he
        rcases List.mem_cons.mp he with rfl | he
        · exact Nat.mod_lt _ (by omega)
        · exact e4 e he
      · intro h0
        rw [hz0] at hm
        simp [magnitude] at hm
        omega
      · intro _
        refine ⟨by simp, ?_⟩
        rcases Nat.eq_zero_or_pos (magnitude 10 q.bg1.digits.array) with h0 | h0
        · rw [e5 h0]
          simp only [List.getLast?_singleton, ne_eq, Option.some.injEq]
          rw [q4] at h0
          have := Nat.mod_add_div (magnitude 10 result.digits.array) t
          rw [h0] at this
          rw [hz0] at hm
          simp [magnitude] at hm
          omega
        · obtain ⟨k1, k2⟩ := e6 h0
          match E, k1, k2 with
          | x :: E', _, k2 => simpa [List.getLast?_cons_cons] using k2
    · rw [if_neg (by rw [hc]; decide)]
      have h0 : magnitude 10 result.digits.array = 0 := by
        rw [hm, hz0]; simp [magnitude]
      exact ⟨d, result, ns, [], rfl, by simp, by simp [magnitude, h0], by simp, fun _ => rfl,
        fun h => by omega⟩
    · rw [hz0] at hm; simp [magnitude] at hm

theorem size_t_to_int_small (n : Nat) (h : n < 2 ^ 31) : size_t_to_int n = (n : Int) := by
  unfold size_t_to_int
  have e : (n + 2 ^ 31) % 2 ^ 32 = n + 2 ^ 31 := Nat.mod_eq_of_lt (by omega)
  rw [e]
  push_cast
  ring

theorem convert_to_decimal_spec (a : BigNum) (a2 : 2 ≤ a.num_system)
    (a16 : a.num_system ≤ 16) :
    plain_operand 10 (convert_to_decimal a) ∧
    magnitude 10 (convert_to_decimal a).digits.array
      = magnitude a.num_system a.digits.array := by
  unfold convert_to_decimal
  simp only []
  obtain ⟨z1, z2⟩ := zero_decimal_spec
  obtain ⟨o1, o2⟩ := int_to_BigNum_spec 1
  obtain ⟨n1, n2⟩ := int_to_BigNum_spec a.num_system
  rw [← size_t_to_int_small a.num_system (by omega)] at n1 n2
  obtain ⟨p1, p2⟩ := convert_to_decimal_loop_spec { a with num_system := 10 } a.num_system
    (by omega) (BigNum_size ({ a with num_system := 10 } : BigNum)) 0
    (assign_value create_BigNum ['0'] 10).bg (int_to_BigNum 1).bg
    (int_to_BigNum (size_t_to_int a.num_system)).bg [] a.digits.array (by simp) rfl
    (by simp [BigNum_size, vector_size]) z1 o1 n1
    (by
      have := o2
      simp only [Nat.cast_one] at this
      rw [this]; omega) n2
  have o2' : magnitude 10 (int_to_BigNum 1).bg.digits.array = 1 := by
    have := o2
    simp only [Nat.cast_one] at this
    exact this
  rw [z2, o2'] at p2
  simp only [magnitude, Nat.zero_add, Nat.one_mul, Nat.mul_zero, Nat.add_zero] at p2
  exact ⟨p1, p2⟩

theorem convert_from_decimal_spec (fuel : Nat) (a : BigNum) (t : Nat)
    (a2 : 2 ≤ a.num_system) (a16 : a.num_system ≤ 16) (ht2 : 2 ≤ t) (ht16 : t ≤ 16)
    (hf : 10 ≤ fuel + 1) (hfit : magnitude a.num_system a.digits.array < t ^ fuel) :
    ∃ d, convert_from_decimal fuel a t = some d ∧
      magnitude t d.array = magnitude a.num_system a.digits.array ∧
      (∀ e ∈ d.array, e < t) ∧
      (magnitude a.num_system a.digits.array = 0 → d.array = []) ∧
      (0 < magnitude a.num_system a.digits.array →
        d.array ≠ [] ∧ d.array.getLast? ≠ some 0) := by
  obtain ⟨p1, p2⟩ := convert_to_decimal_spec a a2 a16
  obtain ⟨z1, z2⟩ := zero_decimal_spec
  obtain ⟨t1, t2⟩ := int_to_BigNum_spec t
  rw [← size_t_to_int_small t (by omega)] at t1 t2
  obtain ⟨d', result', ns', E, e1, e2, e3, e4, e5, e6⟩ := convert_from_decimal_loop_spec fuel
    hf t ht2 ht16 (assign_value create_BigNum ['0'] 10).bg z1 z2 fuel
    (vector_clear a.digits) (convert_to_decimal a) (int_to_BigNum (size_t_to_int t)).bg p1 t1
    t2 (by rw [p2]; exact hfit)
  simp only [vector_clear, List.nil_append] at e2
  rw [p2] at e3 e5 e6
  refine ⟨d', ?_, by rw [e2]; exact e3, by rw [e2]; exact e4,
    fun h => by rw [e2]; exact e5 h, fun h => by rw [e2]; exact e6 h⟩
  unfold convert_from_decimal
  simp only []
  rw [e1]

theorem convert_system_invalid_free (fuel : Nat) (a : BigNum) (t : Nat)
    (a2 : 2 ≤ a.num_system) (a16 : a.num_system ≤ 16) (ht2 : 2 ≤ t) (ht16 : t ≤ 16)
    (hne : a.num_system ≠ t) (h10 : t ≠ 10) (hf : 10 ≤ fuel + 1)
    (hfit : magnitude a.num_system a.digits.array < t ^ fuel) :
    convert_system_BigNum fuel a t = Outcome.invalid_free := by
  obtain ⟨d, hd, _⟩ := convert_from_decimal_spec fuel a t a2 a16 ht2 ht16 hf hfit
  unfold convert_system_BigNum
  rw [if_neg (by omega), if_neg hne]
  simp only []
  rw [if_neg h10, hd]

theorem convert_system_decimal_spec (fuel : Nat) (a : BigNum) (ha : normalized a)
    (hnz : 0 < magnitude a.num_system a.digits.array) :
    ∃ res, convert_system_BigNum fuel a 10 = Outcome.returned res ∧ res.ok = true ∧
      res.bg.num_system = 10 ∧ res.bg.sign_bit = a.sign_bit ∧
      (∀ d ∈ res.bg.digits.array, d < 10) ∧ justified res.bg.digits.array ∧
      magnitude 10 res.bg.digits.array = magnitude a.num_system a.digits.array := by
  obtain ⟨a2, a16, _, ad, aj, _⟩ := id ha
  unfold convert_system_BigNum
  rw [if_neg (by omega)]
  by_cases hsame : a.num_system = 10
  · rw [if_pos hsame]
    exact ⟨_, rfl, rfl, hsame, rfl, by rw [← hsame]; exact ad, aj, by rw [hsame]⟩
  · rw [if_neg hsame]
    simp only []
    rw [if_pos True.intro]
    obtain ⟨p1, p2⟩ := convert_to_decimal_spec a a2 a16
    generalize convert_to_decimal a = st at p1 p2
    obtain ⟨_, _, q3, q4⟩ := id p1
    have harr : (zero_justify ⟨a.sign_bit, st.digits, 10⟩).digits.array
        = st.digits.array := zero_justify_normalized_eq _ q4
    refine ⟨_, rfl, rfl, ?_, ?_, ?_, ?_, ?_⟩
    · simp only [zero_justify_num_system]
    · simp only []
      rw [zero_justify_sign, harr, if_neg]
      apply magnitude_pos_not_zero 10
      rw [p2]; exact hnz
    · simp only []
      rw [harr]; exact q3
    · simp only []
      rw [harr]; exact q4
    · simp only []
      rw [harr, p2]

theorem magnitude_pos_of_val_ne_zero (a : BigNum) (h : val a ≠ 0) :
    0 < magnitude a.num_system a.digits.array := by
  rcases Nat.eq_zero_or_pos (magnitude a.num_system a.digits.array) with h0 | h0
  · exfalso; apply h
    simp [val, h0]
  · exact h0

/-- C20 (failing input): the conversion of the normalized number 540263 of radix 7 to
radix 12 runs both loops to their end and then reaches the second `delete_BigNum(tmp)`:
the call does not return a BigNum. -/
theorem C20_convert_invalid_free_failing :
    normalized ⟨1, ⟨6, [3, 6, 2, 0, 4, 5]⟩, 7⟩ ∧
    val (⟨1, ⟨6, [3, 6, 2, 0, 4, 5]⟩, 7⟩ : BigNum) ≠ 0 ∧
    convert_system_BigNum 9 ⟨1, ⟨6, [3, 6, 2, 0, 4, 5]⟩, 7⟩ 12 = Outcome.invalid_free :=
  ⟨by decide, by decide,
    convert_system_invalid_free 9 ⟨1, ⟨6, [3, 6, 2, 0, 4, 5]⟩, 7⟩ 12 (by decide) (by decide)
      (by decide) (by decide) (by decide) (by decide) (by decide) (by decide)⟩

/-! ## Exponentiation -/

theorem exponentiate_loop_spec (r : Nat) (hr : 2 ≤ r) (hr256 : r ≤ 256) (bg1 : BigNum)
    (hb : plain_operand r bg1) (hA : 0 < magnitude r bg1.digits.array) (k : Nat) :
    ∀ (exp : Vector) (result : BigNum), exp.array.length = k →
    (∀ d ∈ exp.array, d < 2) → plain_operand r result →
    0 < magnitude r result.digits.array →
    (exponentiate_loop bg1 k exp result).1 = true ∧
    plain_operand r (exponentiate_loop bg1 k exp result).2 ∧
    magnitude r (exponentiate_loop bg1 k exp result).2.digits.array
      = magnitude r result.digits.array ^ 2 ^ k
        * magnitude r bg1.digits.array ^ magnitude 2 exp.array := by
  induction k with
  | zero =>
    intro exp result he _ hres _
    rw [List.length_eq_zero.mp he]
    exact ⟨rfl, hres, by simp [exponentiate_loop, magnitude]⟩
  | succ k ih =>
    intro exp result he hbits hres hR
    obtain ⟨c, l⟩ := exp
    simp only at he hbits
    rcases List.eq_nil_or_concat l with rfl | ⟨m, b, hm⟩
    · simp at he
    rw [List.concat_eq_append] at hm
    subst hm
    simp only [List.length_append, List.length_singleton, Nat.add_right_cancel_iff] at he
    have hb2 : b < 2 := hbits b (by simp)
    obtain ⟨c1, c2⟩ := plain_copy r result hres
    obtain ⟨_, s2, s3, _⟩ := multiply_plain_spec r hr hr256 result (copy_BigNum result) hres c1
      (by rw [c2]; exact hR)
    rw [c2] at s3
    simp only [exponentiate_loop, vector_back_concat, pop_back_concat]
    rw [magnitude_append]
    simp only [magnitude, Nat.mul_zero, Nat.add_zero, he]
    by_cases h0 : b = 0
    · subst h0
      rw [if_pos rfl]
      obtain ⟨i1, i2, i3⟩ := ih ⟨c, m⟩ (multiply_BigNum result (copy_BigNum result)).bg1 he
        (fun d hd => hbits d (List.mem_append_left _ hd)) s2
        (by rw [s3]; exact Nat.mul_pos hR hR)
      refine ⟨i1, i2, ?_⟩
      rw [i3, s3]
      simp only [Nat.mul_zero, Nat.add_zero]
      rw [← pow_two, ← pow_mul, pow_succ, Nat.mul_comm (2 ^ k) 2]
    · have h1 : b = 1 := by omega
      subst h1
      rw [if_neg (by decide), if_pos rfl]
      obtain ⟨_, t2, t3, _⟩ := multiply_plain_spec r hr hr256
        (multiply_BigNum result (copy_BigNum result)).bg1 bg1 s2 hb hA
      rw [s3] at t3
      obtain ⟨i1, i2, i3⟩ := ih ⟨c, m⟩
        (multiply_BigNum (multiply_BigNum result (copy_BigNum result)).bg1 bg1).bg1 he
        (fun d hd => hbits d (List.mem_append_left _ hd)) t2
        (by rw [t3]; exact Nat.mul_pos (Nat.mul_pos hR hR) hA)
      refine ⟨i1, i2, ?_⟩
      rw [i3, t3]
      simp only [Nat.mul_one]
      rw [mul_pow, ← pow_two, ← pow_mul, pow_succ, Nat.mul_comm (2 ^ k) 2, pow_add]
      ring

theorem exponentiate_radix_two_spec (fuel : Nat) (a n : BigNum) (ha : normalized a)
    (hn : normalized n) (ha2 : a.num_system = 2) (hn2 : n.num_system = 2)
    (ha1 : 1 ≤ val a) (hn1 : 1 ≤ val n) :
    ∃ res, exponentiate_BigNum fuel a n = Outcome.returned res ∧ res.ok = true ∧
      normalized res.bg1 ∧ res.bg1.num_system = a.num_system ∧
      val res.bg1 = val a ^ (val n).toNat ∧ res.bg2 = n := by
  obtain ⟨a2, a16, _, _, _, _⟩ := id ha
  have hr : a.num_system = n.num_system := by rw [ha2, hn2]
  have hpa : plain_operand a.num_system a :=
    plain_of_normalized a ha (sign_plus_of_nonneg a ha (by omega))
  have hpn : plain_operand n.num_system n :=
    plain_of_normalized n hn (sign_plus_of_nonneg n hn (by omega))
  have hva := val_of_plain _ a hpa
  have hvn := val_of_plain _ n hpn
  have hA : 0 < magnitude a.num_system a.digits.array := by
    rw [hva] at ha1; exact_mod_cast ha1
  have hN : 0 < magnitude n.num_system n.digits.array := by
    rw [hvn] at hn1; exact_mod_cast hn1
  -- the exponent is already in binary: the conversion returns at once
  obtain ⟨cn1, cn2⟩ := plain_copy _ n hpn
  have c1 : convert_system_BigNum fuel (copy_BigNum n) 2
      = Outcome.returned ⟨true, copy_BigNum n⟩ := by
    unfold convert_system_BigNum
    rw [if_neg (by omega)]
    exact if_pos hn2
  have c5 : ∀ d ∈ (copy_BigNum n).digits.array, d < 2 := by
    rw [cn2, ← hn2]; exact hpn.2.2.1
  have c6 : justified (copy_BigNum n).digits.array := cn1.2.2.2
  have c7 : magnitude 2 (copy_BigNum n).digits.array
      = magnitude n.num_system n.digits.array := by rw [cn2, hn2]
  have hcd : (copy_BigNum n).digits
      = ⟨(copy_BigNum n).digits.capacity, (copy_BigNum n).digits.array⟩ := rfl
  generalize (copy_BigNum n).digits.capacity = cap at hcd
  generalize (copy_BigNum n).digits.array = B at hcd c5 c6 c7
  rcases List.eq_nil_or_concat B with rfl | ⟨B', top, hB⟩
  · exact absurd rfl c6.1
  rw [List.concat_eq_append] at hB
  subst hB
  have htop : top = 1 := by
    have h2 : top < 2 := c5 top (by simp)
    have h0 : top ≠ 0 := by
      rintro rfl
      rcases c6.2 with h | h
      · simp at h
      · have hl := congrArg List.length h
        simp only [List.length_append, List.length_singleton, List.length_cons,
          List.length_nil] at hl
        have : B' = [] := List.length_eq_zero.mp (by omega)
        subst this
        simp [magnitude] at c7
        omega
    omega
  subst htop
  rw [magnitude_append] at c7
  simp only [magnitude, Nat.mul_zero, Nat.add_zero, Nat.mul_one] at c7
  -- the loop
  obtain ⟨ca1, ca2⟩ := plain_copy _ a hpa
  obtain ⟨l1, l2, l3⟩ := exponentiate_loop_spec a.num_system a2 (by omega) a hpa hA B'.length
    ⟨cap, B'⟩ (copy_BigNum a) rfl (fun d hd => c5 d (List.mem_append_left _ hd)) ca1
    (by rw [ca2]; exact hA)
  rw [ca2, ← pow_add] at l3
  simp only [] at l3
  rw [Nat.add_comm (2 ^ B'.length), c7] at l3
  have hres : exponentiate_BigNum fuel a n = Outcome.returned ⟨true,
      { a with digits := (exponentiate_loop a B'.length ⟨cap, B'⟩ (copy_BigNum a)).2.digits },
      n⟩ := by
    unfold exponentiate_BigNum
    rw [if_neg (by simp [BigNum_base, hr]),
      if_neg (by simp [BigNum_sign, hpn.2.1, PLUS, MINUS])]
    simp only [c1, hcd, pop_back_concat, vector_size, l1]
    simp
  generalize exponentiate_loop a B'.length ⟨cap, B'⟩ (copy_BigNum a) = st at l2 l3 hres
  obtain ⟨_, _, q3, q4⟩ := l2
  have hpl : plain_operand a.num_system ({ a with digits := st.2.digits } : BigNum) :=
    ⟨rfl, hpa.2.1, q3, q4⟩
  refine ⟨_, hres, rfl, normalized_of_plain _ a2 a16 _ hpl, rfl, ?_, rfl⟩
  rw [val_of_plain _ _ hpl, hva, hvn]
  simp only [Int.toNat_ofNat]
  rw [l3]
  push_cast
  rfl

/-- C16 (failing input): for the decimal numbers 3 and 10 of the test scenario
`3 ^ 10`, `exponentiate_BigNum` converts a copy of the exponent to radix 2; that call
reaches the second `delete_BigNum(tmp)`, so the exponentiation does not return a
BigNum. -/
theorem C16_exponentiate_invalid_free_failing :
    normalized ⟨1, ⟨1, [3]⟩, 10⟩ ∧ normalized ⟨1, ⟨2, [0, 1]⟩, 10⟩ ∧
    1 ≤ val ⟨1, ⟨1, [3]⟩, 10⟩ ∧ 1 ≤ val ⟨1, ⟨2, [0, 1]⟩, 10⟩ ∧
    convert_system_BigNum 9 (copy_BigNum ⟨1, ⟨2, [0, 1]⟩, 10⟩) 2 = Outcome.invalid_free ∧
    exponentiate_BigNum 9 ⟨1, ⟨1, [3]⟩, 10⟩ ⟨1, ⟨2, [0, 1]⟩, 10⟩ = Outcome.invalid_free := by
  have hc := convert_system_invalid_free 9 (copy_BigNum ⟨1, ⟨2, [0, 1]⟩, 10⟩) 2 (by decide)
    (by decide) (by decide) (by decide) (by decide) (by decide) (by decide) (by decide)
  refine ⟨by decide, by decide, by decide, by decide, hc, ?_⟩
  unfold exponentiate_BigNum
  rw [if_neg (by decide), if_neg (by decide), hc]

/-! ## Guards on the radix and the growth of the digit buffer -/

/-- C23: for a normalized BigNum, `convert_system_BigNum` returns NULL_TYPE when the
target radix is below 2 or above 16, and succeeds without any change when the target
equals the radix of the operand; in both cases the operand is exactly what it was. -/
theorem C23_convert_guards (fuel : Nat) (a : BigNum) (t : Nat) (ha : normalized a) :
    (t < 2 ∨ t > 16 → convert_system_BigNum fuel a t = Outcome.returned ⟨false, a⟩) ∧
    (t = a.num_system → convert_system_BigNum fuel a t = Outcome.returned ⟨true, a⟩) := by
  constructor
  · intro h
    unfold convert_system_BigNum
    rw [if_pos h]
  · intro h
    obtain ⟨a2, a16, _⟩ := ha
    unfold convert_system_BigNum
    rw [if_neg (by omega), if_pos h.symm]

/-- The decimal number -251 with the targets 17 and 10, for C23. -/
theorem C23_convert_guards_witness :
    normalized ⟨-1, ⟨3, [1, 5, 2]⟩, 10⟩ ∧
    convert_system_BigNum 9 ⟨-1, ⟨3, [1, 5, 2]⟩, 10⟩ 17
      = Outcome.returned ⟨false, ⟨-1, ⟨3, [1, 5, 2]⟩, 10⟩⟩ ∧
    convert_system_BigNum 9 ⟨-1, ⟨3, [1, 5, 2]⟩, 10⟩ 10
      = Outcome.returned ⟨true, ⟨-1, ⟨3, [1, 5, 2]⟩, 10⟩⟩ :=
  ⟨by decide,
    (C23_convert_guards 9 ⟨-1, ⟨3, [1, 5, 2]⟩, 10⟩ 17 (by decide)).1 (Or.inr (by decide)),
    (C23_convert_guards 9 ⟨-1, ⟨3, [1, 5, 2]⟩, 10⟩ 10 (by decide)).2 rfl⟩

/-- C29: when the two operands have different radices, `add_BigNum`,
`subtract_BigNum`, `multiply_BigNum`, `divide_BigNum`, `modulo_BigNum` and
`exponentiate_BigNum` return NULL_TYPE with both operands exactly as they were, and
`compare_BigNum` and `compare_abs_BigNum` return -2. -/
theorem C29_radix_mismatch (fuel : Nat) (a b : BigNum) (h : a.num_system ≠ b.num_system) :
    add_BigNum a b = ⟨false, a, b⟩ ∧
    subtract_BigNum a b = ⟨false, a, b⟩ ∧
    multiply_BigNum a b = ⟨false, a, b⟩ ∧
    divide_BigNum fuel a b = some ⟨false, a, b⟩ ∧
    modulo_BigNum fuel a b = some ⟨false, a, b⟩ ∧
    exponentiate_BigNum fuel a b = Outcome.returned ⟨false, a, b⟩ ∧
    compare_BigNum a b = -2 ∧
    compare_abs_BigNum a b = -2 := by
  have hb : BigNum_base a ≠ BigNum_base b := h
  refine ⟨?_, ?_, ?_, ?_, ?_, ?_, ?_, ?_⟩
  · rw [add_BigNum]; exact if_pos hb
  · rw [subtract_BigNum]; exact if_pos hb
  · unfold multiply_BigNum; exact if_pos hb
  · unfold divide_BigNum; exact if_pos hb
  · unfold modulo_BigNum; exact if_pos hb
  · unfold exponentiate_BigNum; exact if_pos hb
  · unfold compare_BigNum; exact if_pos hb
  · unfold compare_abs_BigNum; exact if_pos hb

/-- The number 123 of radix 9 and the decimal number 125, for C29. -/
theorem C29_radix_mismatch_witness :
    add_BigNum ⟨1, ⟨3, [3, 2, 1]⟩, 9⟩ ⟨1, ⟨3, [5, 2, 1]⟩, 10⟩
      = ⟨false, ⟨1, ⟨3, [3, 2, 1]⟩, 9⟩, ⟨1, ⟨3, [5, 2, 1]⟩, 10⟩⟩ ∧
    compare_BigNum ⟨1, ⟨3, [3, 2, 1]⟩, 9⟩ ⟨1, ⟨3, [5, 2, 1]⟩, 10⟩ = -2 :=
  ⟨(C29_radix_mismatch 9 ⟨1, ⟨3, [3, 2, 1]⟩, 9⟩ ⟨1, ⟨3, [5, 2, 1]⟩, 10⟩ (by decide)).1,
    (C29_radix_mismatch 9 ⟨1, ⟨3, [3, 2, 1]⟩, 9⟩ ⟨1, ⟨3, [5, 2, 1]⟩, 10⟩
      (by decide)).2.2.2.2.2.2.1⟩

/-- C30: for a vector with size <= capacity, `push_back` stores the value at the index
that was the size, increases the size by exactly 1, keeps every earlier element, leaves
the capacity unchanged when the size was below it and otherwise sets it to
max(2, 2 * capacity); the ten pushes of `vector_test` onto an empty vector give size 10
and capacity 16. -/
theorem C30_push_back (v : Vector) (x : Nat) (hwf : vector_size v ≤ v.capacity) :
    vector_size (push_back v x) = vector_size v + 1 ∧
    vector_get (push_back v x) (vector_size v) = x ∧
    (∀ i, i < vector_size v → vector_get (push_back v x) i = vector_get v i) ∧
    (vector_size v < v.capacity → (push_back v x).capacity = v.capacity) ∧
    (¬ vector_size v < v.capacity → (push_back v x).capacity = max 2 (2 * v.capacity)) ∧
    vector_size (vector_test_fill 10 1 create_vector) = 10 ∧
    (vector_test_fill 10 1 create_vector).capacity = 16 := by
  have harr := push_back_array v x
  refine ⟨?_, ?_, ?_, ?_, ?_, by decide, by decide⟩
  · simp [vector_size, harr]
  · exact vector_get_mid (push_back v x) v.array [] x _ harr rfl
  · intro i hi
    simp only [vector_size] at hi
    simp only [vector_get, vector_size, harr, List.length_append, List.length_singleton]
    rw [if_neg (by omega), if_neg (by omega)]
    rw [List.getD_eq_getElem _ _ (by simp; omega), List.getD_eq_getElem _ _ hi]
    exact List.getElem_append_left hi
  · intro h
    unfold push_back
    simp only []
    rw [if_neg (by omega)]
  · intro h
    unfold push_back
    simp only []
    rw [if_pos (by omega)]
    unfold vector_reserve
    simp only [vector_size] at hwf h ⊢
    by_cases h0 : v.capacity = 0
    · rw [if_pos h0, if_neg (by omega)]
      simp [h0]
    · rw [if_neg h0, if_neg (by omega)]
      simp only []
      omega

/-- A full vector of capacity 2, for C30. -/
theorem C30_push_back_witness :
    vector_size ⟨2, [1, 4]⟩ ≤ (⟨2, [1, 4]⟩ : Vector).capacity ∧
    vector_size (push_back ⟨2, [1, 4]⟩ 9) = vector_size ⟨2, [1, 4]⟩ + 1 ∧
    vector_get (push_back ⟨2, [1, 4]⟩ 9) (vector_size ⟨2, [1, 4]⟩) = 9 :=
  ⟨by decide, (C30_push_back ⟨2, [1, 4]⟩ 9 (by decide)).1,
    (C30_push_back ⟨2, [1, 4]⟩ 9 (by decide)).2.1⟩

/-! ## Signed comparison -/

theorem compare_abs_loop_antisymm (d1 d2 : Vector) (n k : Nat) : ∀ i : Nat,
    compare_abs_loop d1 d2 n k i = -compare_abs_loop d2 d1 n k i := by
  induction k with
  | zero => intro i; simp [compare_abs_loop]
  | succ k ih =>
    intro i
    simp only [compare_abs_loop]
    split_ifs <;> first | omega | exact ih (i + 1)

theorem compare_abs_loop_self (d : Vector) (n k : Nat) : ∀ i : Nat,
    compare_abs_loop d d n k i = 0 := by
  induction k with
  | zero => intro i; rfl
  | succ k ih =>
    intro i
    simp only [compare_abs_loop, gt_iff_lt, lt_self_iff_false, if_false]
    exact ih (i + 1)

theorem compare_abs_antisymm (a b : BigNum) (hr : a.num_system = b.num_system) :
    compare_abs_BigNum a b = -compare_abs_BigNum b a := by
  have h1 : ¬ BigNum_base a ≠ BigNum_base b := by simp [BigNum_base, hr]
  have h2 : ¬ BigNum_base b ≠ BigNum_base a := by simp [BigNum_base, hr]
  unfold compare_abs_BigNum
  simp only [h1, h2, if_false]
  by_cases c1 : BigNum_size a > BigNum_size b
  · simp only [c1, if_true]
    have c2 : ¬ BigNum_size b > BigNum_size a := by omega
    have c3 : ¬ BigNum_size b = BigNum_size a := by omega
    simp only [c2, c3, if_false]
    rfl
  · simp only [c1, if_false]
    by_cases c2 : BigNum_size a = BigNum_size b
    · rw [c2]
      simp only [gt_iff_lt, lt_self_iff_false, if_false, if_true]
      exact compare_abs_loop_antisymm _ _ _ _ 0
    · have c3 : BigNum_size b > BigNum_size a := by omega
      simp only [c2, c3, if_true, if_false]

theorem compare_abs_self (a : BigNum) : compare_abs_BigNum a a = 0 := by
  unfold compare_abs_BigNum
  simp only [ne_eq, not_true_eq_false, if_false, gt_iff_lt, lt_self_iff_false, if_true]
  exact compare_abs_loop_self _ _ _ 0

/-- C25: for BigNums of equal radix whose signs are PLUS or MINUS (no condition on the
digit buffers), `compare_BigNum(a, b) = -compare_BigNum(b, a)` and
`compare_BigNum(a, a) = 0`. -/
theorem C25_compare_antisymmetric (a b : BigNum) (hr : a.num_system = b.num_system)
    (ha : a.sign_bit = PLUS ∨ a.sign_bit = MINUS)
    (hb : b.sign_bit = PLUS ∨ b.sign_bit = MINUS) :
    compare_BigNum a b = -compare_BigNum b a ∧ compare_BigNum a a = 0 := by
  have h1 : ¬ BigNum_base a ≠ BigNum_base b := by simp [BigNum_base, hr]
  have h2 : ¬ BigNum_base b ≠ BigNum_base a := by simp [BigNum_base, hr]
  have h3 : ¬ BigNum_base a ≠ BigNum_base a := by simp
  constructor
  · unfold compare_BigNum
    simp only [h1, h2, if_false]
    rw [compare_abs_antisymm a b hr]
    rcases ha with ha | ha <;> rcases hb with hb | hb <;> rw [ha, hb] <;>
      simp [PLUS, MINUS]
  · unfold compare_BigNum
    simp only [h3, if_false]
    rw [compare_abs_self]
    rcases ha with ha | ha <;> rw [ha] <;> simp [PLUS, MINUS]

/-- The hexadecimal numbers FB and -FB of the test, for C25. -/
theorem C25_compare_antisymmetric_witness :
    compare_BigNum ⟨1, ⟨2, [11, 15]⟩, 16⟩ ⟨-1, ⟨2, [11, 15]⟩, 16⟩
      = -compare_BigNum ⟨-1, ⟨2, [11, 15]⟩, 16⟩ ⟨1, ⟨2, [11, 15]⟩, 16⟩ ∧
    compare_BigNum ⟨1, ⟨2, [11, 15]⟩, 16⟩ ⟨1, ⟨2, [11, 15]⟩, 16⟩ = 0 :=
  ⟨(C25_compare_antisymmetric ⟨1, ⟨2, [11, 15]⟩, 16⟩ ⟨-1, ⟨2, [11, 15]⟩, 16⟩ rfl (Or.inl rfl)
      (Or.inr rfl)).1,
    (C25_compare_antisymmetric ⟨1, ⟨2, [11, 15]⟩, 16⟩ ⟨1, ⟨2, [11, 15]⟩, 16⟩ rfl (Or.inl rfl)
      (Or.inl rfl)).2⟩

theorem magnitude_pos_of_minus (a : BigNum) (ha : normalized a) (hs : a.sign_bit = MINUS) :
    0 < magnitude a.num_system a.digits.array := by
  obtain ⟨a2, _, _, _, aj, az⟩ := ha
  rcases Nat.eq_zero_or_pos (magnitude a.num_system a.digits.array) with h | h
  · exfalso
    have := az (justified_magnitude_zero _ (by omega) _ aj h)
    rw [hs] at this
    simp [PLUS, MINUS] at this
  · exact h

theorem abs_val_eq (a : BigNum) (ha : normalized a) :
    |val a| = (magnitude a.num_system a.digits.array : Int) := by
  obtain ⟨_, _, asg, _, _, _⟩ := ha
  simp only [val]
  rcases asg with h | h <;> rw [h] <;> simp [PLUS, MINUS]

/-- C24: for normalized BigNums of equal radix, `compare_BigNum(a, b)` is 1, 0 or -1
according to whether val(a) is greater than, equal to or less than val(b), and
`compare_abs_BigNum(a, b)` is 1, 0 or -1 in the same way for |val(a)| and |val(b)|. -/
theorem C24_compare_orders_values (a b : BigNum) (ha : normalized a) (hb : normalized b)
    (hr : a.num_system = b.num_system) :
    ((compare_BigNum a b = 1 ∧ val b < val a) ∨
      (compare_BigNum a b = 0 ∧ val a = val b) ∨
      (compare_BigNum a b = -1 ∧ val a < val b)) ∧
    ((compare_abs_BigNum a b = 1 ∧ |val b| < |val a|) ∨
      (compare_abs_BigNum a b = 0 ∧ |val a| = |val b|) ∨
      (compare_abs_BigNum a b = -1 ∧ |val a| < |val b|)) := by
  obtain ⟨a2, _, asg, ad, aj, _⟩ := id ha
  obtain ⟨_, _, bsg, bd, bj, _⟩ := id hb
  have hcmp := compare_abs_spec a b a.num_system a2 rfl hr.symm ad (by rw [hr]; exact bd) aj bj
  have hab : compare_abs_BigNum a b = 0 → val a = val b →
      a.digits.array = b.digits.array := by
    intro h0 _
    rcases hcmp with ⟨h, _⟩ | ⟨_, h⟩ | ⟨h, _⟩
    · rw [h] at h0; simp at h0
    · exact h
    · rw [h] at h0; simp at h0
  have hbase : ¬ BigNum_base a ≠ BigNum_base b := by simp [BigNum_base, hr]
  constructor
  · unfold compare_BigNum
    simp only [hbase, if_false]
    rcases asg with hsa | hsa <;> rcases bsg with hsb | hsb
    · -- both PLUS
      rw [if_neg (by rw [hsb]; simp [PLUS, MINUS]), if_neg (by rw [hsa]; simp [PLUS, MINUS])]
      simp only [val, hsa, hsb, ← hr, PLUS, mul_one, one_mul]
      rcases hcmp with ⟨h, hm⟩ | ⟨h, hm⟩ | ⟨h, hm⟩
      · exact Or.inl ⟨h, by exact_mod_cast hm⟩
      · exact Or.inr (Or.inl ⟨h, by rw [hm]⟩)
      · exact Or.inr (Or.inr ⟨h, by exact_mod_cast hm⟩)
    · -- PLUS against MINUS
      rw [if_pos ⟨hsa, hsb⟩]
      left
      refine ⟨rfl, ?_⟩
      have hpos := magnitude_pos_of_minus b hb hsb
      simp only [val, hsa, hsb, PLUS, MINUS, one_mul]
      have h1 : (0 : Int) ≤ (magnitude a.num_system a.digits.array : Int) := Int.ofNat_nonneg _
      have h2 : (0 : Int) < (magnitude b.num_system b.digits.array : Int) := by
        exact_mod_cast hpos
      omega
    · -- MINUS against PLUS
      rw [if_neg (by rw [hsa]; simp [PLUS, MINUS]), if_pos ⟨hsa, hsb⟩]
      right; right
      refine ⟨rfl, ?_⟩
      have hpos := magnitude_pos_of_minus a ha hsa
      simp only [val, hsa, hsb, PLUS, MINUS, one_mul]
      have h1 : (0 : Int) ≤ (magnitude b.num_system b.digits.array : Int) := Int.ofNat_nonneg _
      have h2 : (0 : Int) < (magnitude a.num_system a.digits.array : Int) := by
        exact_mod_cast hpos
      omega
    · -- both MINUS
      rw [if_neg (by rw [hsa]; simp [PLUS, MINUS]), if_neg (by rw [hsb]; simp [PLUS, MINUS])]
      simp only [val, hsa, hsb, ← hr, MINUS]
      rcases hcmp with ⟨h, hm⟩ | ⟨h, hm⟩ | ⟨h, hm⟩
      · right; right
        rw [h]
        refine ⟨by norm_num, ?_⟩
        have : (magnitude a.num_system b.digits.array : Int)
            < (magnitude a.num_system a.digits.array : Int) := by exact_mod_cast hm
        omega
      · right; left
        rw [h, hm]
        exact ⟨by norm_num, rfl⟩
      · left
        rw [h]
        refine ⟨by norm_num, ?_⟩
        have : (magnitude a.num_system a.digits.array : Int)
            < (magnitude a.num_system b.digits.array : Int) := by exact_mod_cast hm
        omega
  · rw [abs_val_eq a ha, abs_val_eq b hb, ← hr]
    rcases hcmp with ⟨h, hm⟩ | ⟨h, hm⟩ | ⟨h, hm⟩
    · exact Or.inl ⟨h, by exact_mod_cast hm⟩
    · exact Or.inr (Or.inl ⟨h, by rw [hm]⟩)
    · exact Or.inr (Or.inr ⟨h, by exact_mod_cast hm⟩)

/-- The hexadecimal numbers FB and -FB of the test, for C24. -/
theorem C24_compare_orders_values_witness :
    normalized ⟨1, ⟨2, [11, 15]⟩, 16⟩ ∧ normalized ⟨-1, ⟨2, [11, 15]⟩, 16⟩ ∧
    ((compare_BigNum ⟨1, ⟨2, [11, 15]⟩, 16⟩ ⟨-1, ⟨2, [11, 15]⟩, 16⟩ = 1 ∧
        val ⟨-1, ⟨2, [11, 15]⟩, 16⟩ < val ⟨1, ⟨2, [11, 15]⟩, 16⟩) ∨
      (compare_BigNum ⟨1, ⟨2, [11, 15]⟩, 16⟩ ⟨-1, ⟨2, [11, 15]⟩, 16⟩ = 0 ∧
        val ⟨1, ⟨2, [11, 15]⟩, 16⟩ = val ⟨-1, ⟨2, [11, 15]⟩, 16⟩) ∨
      (compare_BigNum ⟨1, ⟨2, [11, 15]⟩, 16⟩ ⟨-1, ⟨2, [11, 15]⟩, 16⟩ = -1 ∧
        val ⟨1, ⟨2, [11, 15]⟩, 16⟩ < val ⟨-1, ⟨2, [11, 15]⟩, 16⟩)) :=
  ⟨by decide, by decide,
    (C24_compare_orders_values ⟨1, ⟨2, [11, 15]⟩, 16⟩ ⟨-1, ⟨2, [11, 15]⟩, 16⟩ (by decide)
      (by decide) rfl).1⟩

/-! ## Rejection of numerals by `assign_value` -/

theorem char_digit_mem (c : Char) (h : '0' ≤ c ∧ c ≤ '9') : c ∈ hex_digits := by
  obtain ⟨h1, h2⟩ := h
  have e1 : ('0' : Char).toNat ≤ c.toNat := h1
  have e2 : c.toNat ≤ ('9' : Char).toNat := h2
  have e3 : ('0' : Char).toNat = 48 := rfl
  have e4 : ('9' : Char).toNat = 57 := rfl
  rw [e3] at e1
  rw [e4] at e2
  have hc : c = Char.ofNat c.toNat := (Char.ofNat_toNat c).symm
  rw [hc]
  generalize c.toNat = n at e1 e2
  interval_cases n <;> decide

theorem map_digit_alphabet (c : Char) : c ∈ hex_digits ∨ map_digit c = 255 := by
  unfold map_digit
  by_cases h0 : '0' ≤ c ∧ c ≤ '9'
  · exact Or.inl (char_digit_mem c h0)
  · rw [if_neg h0]
    by_cases hA : c = 'A'
    · left; rw [hA]; decide
    rw [if_neg hA]
    by_cases hB : c = 'B'
    · left; rw [hB]; decide
    rw [if_neg hB]
    by_cases hC : c = 'C'
    · left; rw [hC]; decide
    rw [if_neg hC]
    by_cases hD : c = 'D'
    · left; rw [hD]; decide
    rw [if_neg hD]
    by_cases hE : c = 'E'
    · left; rw [hE]; decide
    rw [if_neg hE]
    by_cases hF : c = 'F'
    · left; rw [hF]; decide
    rw [if_neg hF]
    exact Or.inr rfl

theorem map_digit_lt_16 : ∀ c ∈ hex_digits, map_digit c < 16 := by
  decide

theorem assign_value_loop_fails_iff (r : Nat) (body : List Char) : ∀ d : Vector,
    (assign_value_loop r body d).1 = false ↔ ∃ c ∈ body, map_digit c ≥ r := by
  induction body with
  | nil => intro d; simp [assign_value_loop]
  | cons c cs ih =>
    intro d
    simp only [assign_value_loop]
    by_cases hc : map_digit c ≥ r
    · rw [if_pos hc]
      exact ⟨fun _ => ⟨c, List.mem_cons_self _ _, hc⟩, fun _ => rfl⟩
    · rw [if_neg hc, ih]
      constructor
      · rintro ⟨x, hx, hxr⟩
        exact ⟨x, List.mem_cons_of_mem _ hx, hxr⟩
      · rintro ⟨x, hx, hxr⟩
        rcases List.mem_cons.mp hx with rfl | hx
        · exact absurd hxr hc
        · exact ⟨x, hx, hxr⟩

theorem assign_value_fails_iff (bg : BigNum) (s : List Char) (r : Nat) (hs : s ≠ []) :
    ((assign_value bg s r).ok = false ↔ ∃ c ∈ numeral_body s, map_digit c ≥ r) ∧
    ((assign_value bg s r).ok = true → (assign_value bg s r).bg.num_system = r) := by
  match s, hs with
  | c :: cs, _ =>
    have h := assign_value_loop_fails_iff r (if c = '-' ∨ c = '+' then cs else c :: cs)
      (vector_clear bg.digits)
    simp only [assign_value, numeral_body, clear_BigNum]
    by_cases hf : (assign_value_loop r (if c = '-' ∨ c = '+' then cs else c :: cs)
        (vector_clear bg.digits)).1 = false
    · rw [if_pos hf]
      exact ⟨⟨fun _ => h.mp hf, fun _ => rfl⟩, fun hc => by simp at hc⟩
    · rw [if_neg hf]
      refine ⟨⟨fun hc => by simp at hc, fun hc => absurd (h.mpr hc) hf⟩, fun _ => ?_⟩
      simp [zero_justify_num_system]

/-- C27: for a radix in 2..16 and a non-empty string, `assign_value` returns NULL_TYPE if
and only if some character after one optional leading '+' or '-' is outside the alphabet
0-9, A-F or has a digit value that is not below the radix. -/
theorem C27_assign_value_rejects (bg : BigNum) (s : List Char) (r : Nat) (_hr2 : 2 ≤ r)
    (hr16 : r ≤ 16) (hs : s ≠ []) :
    (assign_value bg s r).ok = false ↔
      ∃ c ∈ numeral_body s, c ∉ hex_digits ∨ map_digit c ≥ r := by
  rw [(assign_value_fails_iff bg s r hs).1]
  constructor
  · rintro ⟨c, hc, hcr⟩
    exact ⟨c, hc, Or.inr hcr⟩
  · rintro ⟨c, hc, hcr⟩
    refine ⟨c, hc, ?_⟩
    rcases hcr with hcr | hcr
    · rcases map_digit_alphabet c with h | h
      · exact absurd h hcr
      · rw [h]; omega
    · exact hcr

/-- The string "-1a" in radix 16, whose lower-case letter is outside the alphabet, for
C27. -/
theorem C27_assign_value_rejects_witness :
    (assign_value create_BigNum ['-', '1', 'a'] 16).ok = false ∧
    ∃ c ∈ numeral_body ['-', '1', 'a'], c ∉ hex_digits ∨ map_digit c ≥ 16 :=
  ⟨by decide,
    (C27_assign_value_rejects create_BigNum ['-', '1', 'a'] 16 (by decide) (by decide)
      (by decide)).mp (by decide)⟩

/-! ## Zero as the right operand of `add_BigNum` -/

theorem add_zero_spec (a z : BigNum) (ha : normalized a) (hz : z.sign_bit = PLUS)
    (hzd : z.digits.array = [0]) (hzr : z.num_system = a.num_system) :
    (add_BigNum (copy_BigNum a) z).ok = true ∧
    (add_BigNum (copy_BigNum a) z).bg1.sign_bit = a.sign_bit ∧
    (add_BigNum (copy_BigNum a) z).bg1.digits.array = a.digits.array ∧
    (add_BigNum (copy_BigNum a) z).bg1.num_system = a.num_system := by
  obtain ⟨a2, a16, asg, ad, aj, az⟩ := ha
  have hzm : magnitude a.num_system z.digits.array = 0 := by rw [hzd]; simp [magnitude]
  have hzdig : ∀ d ∈ z.digits.array, d < a.num_system := by
    rw [hzd]; intro d hd; simp at hd; omega
  have hzj : justified z.digits.array := by rw [hzd]; decide
  rcases asg with hs | hs
  · have pa : plain_operand a.num_system a := ⟨rfl, hs, ad, aj⟩
    obtain ⟨pc, hc⟩ := plain_copy _ a pa
    have pz : plain_operand a.num_system z := ⟨hzr, hz, hzdig, hzj⟩
    obtain ⟨hok, pr, hm, _, _⟩ := add_plain_spec a.num_system a2 (by omega) _ _ pc pz
    rw [hc, hzm, Nat.add_zero] at hm
    exact ⟨hok, by rw [pr.2.1, hs], plain_unique _ a2 _ _ pr pa hm, pr.1⟩
  · have hcs : (copy_BigNum a).sign_bit = MINUS := hs
    have hcr : (copy_BigNum a).num_system = z.num_system := hzr.symm
    have hzs : z.sign_bit ≠ MINUS := by rw [hz]; decide
    have hca : (copy_BigNum a).digits.array = a.digits.array := copy_vector_array _
    rw [add_BigNum_minus_plus (copy_BigNum a) z hcr hcs hzs]
    generalize hA : ({ copy_BigNum a with sign_bit := PLUS } : BigNum) = A
    have hAd : A.digits.array = a.digits.array := by rw [← hA]; exact hca
    have hAr : A.num_system = a.num_system := by rw [← hA]; rfl
    obtain ⟨hok, hn, hj, hd, hgt, _, _, _, _, _⟩ :=
      subtract_magnitude_spec A z a.num_system a2 (by omega) hAr hzr
        (by rw [hAd]; exact ad) hzdig (by rw [hAd]; exact aj) hzj
    have hpos : magnitude a.num_system z.digits.array < magnitude a.num_system A.digits.array := by
      rw [hzm, hAd]
      exact magnitude_pos_of_minus a ⟨a2, a16, Or.inr hs, ad, aj, az⟩ hs
    obtain ⟨hm, _⟩ := hgt hpos
    rw [hzm, Nat.add_zero, hAd] at hm
    have pr : plain_operand a.num_system
        ⟨PLUS, (subtract_magnitude A z).bg1.digits, a.num_system⟩ := ⟨rfl, rfl, hd, hj⟩
    have pa : plain_operand a.num_system ⟨PLUS, a.digits, a.num_system⟩ := ⟨rfl, rfl, ad, aj⟩
    have hu := plain_unique _ a2 _ _ pr pa hm
    exact ⟨hok, hs.symm, hu, hn⟩

/-- C26: for every normalized BigNum a (positive, negative or zero) and the canonical
zero z of the same radix, `add_BigNum(copy_BigNum(a), z)` succeeds and its result has the
sign, digits and radix of a. -/
theorem C26_add_zero_identity (a z : BigNum) (ha : normalized a) (hz : z.sign_bit = PLUS)
    (hzd : z.digits.array = [0]) (hzr : z.num_system = a.num_system) :
    (add_BigNum (copy_BigNum a) z).ok = true ∧
    (add_BigNum (copy_BigNum a) z).bg1.sign_bit = a.sign_bit ∧
    (add_BigNum (copy_BigNum a) z).bg1.digits.array = a.digits.array ∧
    (add_BigNum (copy_BigNum a) z).bg1.num_system = a.num_system :=
  add_zero_spec a z ha hz hzd hzr

/-- The negative number -FB of radix 16 plus zero, for C26. -/
theorem C26_add_zero_identity_witness :
    normalized ⟨-1, ⟨2, [11, 15]⟩, 16⟩ ∧
    (add_BigNum (copy_BigNum ⟨-1, ⟨2, [11, 15]⟩, 16⟩) ⟨1, ⟨1, [0]⟩, 16⟩).bg1.sign_bit = -1 ∧
    (add_BigNum (copy_BigNum ⟨-1, ⟨2, [11, 15]⟩, 16⟩) ⟨1, ⟨1, [0]⟩, 16⟩).bg1.digits.array
      = [11, 15] :=
  ⟨by decide,
    (C26_add_zero_identity ⟨-1, ⟨2, [11, 15]⟩, 16⟩ ⟨1, ⟨1, [0]⟩, 16⟩ (by decide) rfl rfl
      rfl).2.1,
    (C26_add_zero_identity ⟨-1, ⟨2, [11, 15]⟩, 16⟩ ⟨1, ⟨1, [0]⟩, 16⟩ (by decide) rfl rfl
      rfl).2.2.1⟩

/-! ## The radix argument of `assign_value` -/

/-- C28 as stated fails: `assign_value` accepts the numeral "0" with radix 17 and with
radix 1 and builds a BigNum carrying that radix. -/
theorem C28_radix_17_accepted :
    (assign_value create_BigNum ['0'] 17).ok = true ∧
    (assign_value create_BigNum ['0'] 17).bg.num_system = 17 ∧
    (assign_value create_BigNum ['0'] 1).ok = true ∧
    (assign_value create_BigNum ['0'] 1).bg.num_system = 1 := by
  decide

/-- C28, amended: `assign_value` has no check of the radix range. For every radix and
every non-empty string it fails exactly when some character after one optional sign has a
digit value that is not below the radix, and on success the BigNum carries the given
radix; so radix 0 rejects every string that has a digit character, and a radix of 17 or
more accepts every string over the alphabet 0-9, A-F. -/
theorem C28_assign_value_radix_unchecked (bg : BigNum) (s : List Char) (r : Nat)
    (hs : s ≠ []) :
    ((assign_value bg s r).ok = false ↔ ∃ c ∈ numeral_body s, map_digit c ≥ r) ∧
    ((assign_value bg s r).ok = true → (assign_value bg s r).bg.num_system = r) ∧
    (r = 0 → numeral_body s ≠ [] → (assign_value bg s r).ok = false) ∧
    (17 ≤ r → (∀ c ∈ numeral_body s, c ∈ hex_digits) → (assign_value bg s r).ok = true) := by
  obtain ⟨h1, h2⟩ := assign_value_fails_iff bg s r hs
  refine ⟨h1, h2, ?_, ?_⟩
  · intro h0 hb
    rw [h1]
    obtain ⟨c, hc⟩ := List.exists_mem_of_ne_nil _ hb
    exact ⟨c, hc, by omega⟩
  · intro h17 hall
    cases hok : (assign_value bg s r).ok with
    | true => rfl
    | false =>
      obtain ⟨c, hc, hcr⟩ := h1.mp hok
      have := map_digit_lt_16 c (hall c hc)
      omega

/-- The numeral "-1F" with radix 20, for the amended C28. -/
theorem C28_assign_value_radix_unchecked_witness :
    (assign_value create_BigNum ['-', '1', 'F'] 20).ok = true ∧
    (assign_value create_BigNum ['-', '1', 'F'] 20).bg.num_system = 20 :=
  ⟨(C28_assign_value_radix_unchecked create_BigNum ['-', '1', 'F'] 20 (by decide)).2.2.2
      (by decide) (by decide),
    (C28_assign_value_radix_unchecked create_BigNum ['-', '1', 'F'] 20 (by decide)).2.1
      (by decide)⟩

/-! ## The round trip of the conversion -/

theorem convert_system_decimal_digits (fuel : Nat) (a : BigNum) (L : List Nat)
    (ha : normalized a) (hnz : 0 < magnitude a.num_system a.digits.array)
    (hLj : justified L) (hLd : ∀ d ∈ L, d < 10)
    (hLm : magnitude 10 L = magnitude a.num_system a.digits.array) :
    ∃ res, convert_system_BigNum fuel a 10 = Outcome.returned res ∧ res.ok = true ∧
      res.bg.num_system = 10 ∧ res.bg.sign_bit = a.sign_bit ∧ res.bg.digits.array = L := by
  obtain ⟨res, c1, c2, c3, c4, c5, c6, c7⟩ := convert_system_decimal_spec fuel a ha hnz
  have p1 : plain_operand 10 ⟨PLUS, res.bg.digits, 10⟩ := ⟨rfl, rfl, c5, c6⟩
  have p2 : plain_operand 10 ⟨PLUS, ⟨0, L⟩, 10⟩ := ⟨rfl, rfl, hLd, hLj⟩
  have hu := plain_unique 10 (by decide) _ _ p1 p2 (by rw [c7]; exact hLm.symm)
  exact ⟨res, c1, c2, c3, c4, hu⟩

theorem convert_from_decimal_digits (fuel : Nat) (a : BigNum) (t : Nat) (L : List Nat)
    (a2 : 2 ≤ a.num_system) (a16 : a.num_system ≤ 16) (ht2 : 2 ≤ t) (ht16 : t ≤ 16)
    (hf : 10 ≤ fuel + 1) (hfit : magnitude a.num_system a.digits.array < t ^ fuel)
    (hnz : 0 < magnitude a.num_system a.digits.array) (hLj : justified L)
    (hLd : ∀ d ∈ L, d < t) (hLm : magnitude t L = magnitude a.num_system a.digits.array) :
    ∃ d, convert_from_decimal fuel a t = some d ∧ d.array = L := by
  obtain ⟨d, c1, c2, c3, _, c5⟩ := convert_from_decimal_spec fuel a t a2 a16 ht2 ht16 hf hfit
  obtain ⟨k1, k2⟩ := c5 hnz
  have p1 : plain_operand t ⟨PLUS, d, t⟩ := ⟨rfl, rfl, c3, k1, Or.inl k2⟩
  have p2 : plain_operand t ⟨PLUS, ⟨0, L⟩, t⟩ := ⟨rfl, rfl, hLd, hLj⟩
  have hu := plain_unique t ht2 _ _ p1 p2 (by rw [c2]; exact hLm.symm)
  exact ⟨d, c1, hu⟩

/-- C21 (failing input): the conversion of a copy of the decimal number 5 to radix 2
reaches the second `delete_BigNum(tmp)` and returns no BigNum; the conversion of a copy
of the binary number 101 to radix 10 returns the decimal 5, and the conversion of that
result back to radix 2 reaches the second `delete_BigNum(tmp)` as well. -/
theorem C21_round_trip_failing :
    normalized ⟨1, ⟨1, [5]⟩, 10⟩ ∧
    convert_system_BigNum 9 (copy_BigNum ⟨1, ⟨1, [5]⟩, 10⟩) 2 = Outcome.invalid_free ∧
    normalized ⟨1, ⟨3, [1, 0, 1]⟩, 2⟩ ∧
    ∃ r1, convert_system_BigNum 9 (copy_BigNum ⟨1, ⟨3, [1, 0, 1]⟩, 2⟩) 10
        = Outcome.returned r1 ∧
      r1.ok = true ∧ r1.bg.num_system = 10 ∧ r1.bg.digits.array = [5] ∧
      convert_system_BigNum 9 r1.bg 2 = Outcome.invalid_free := by
  have h1 := convert_system_invalid_free 9 (copy_BigNum ⟨1, ⟨1, [5]⟩, 10⟩) 2 (by decide)
    (by decide) (by decide) (by decide) (by decide) (by decide) (by decide) (by decide)
  obtain ⟨r1, c1, c2, c3, _, c5⟩ := convert_system_decimal_digits 9
    (copy_BigNum ⟨1, ⟨3, [1, 0, 1]⟩, 2⟩) [5] (by decide) (by decide) (by decide) (by decide)
    (by decide)
  have h2 := convert_system_invalid_free 9 r1.bg 2 (by rw [c3]; decide) (by rw [c3]; decide)
    (by decide) (by decide) (by rw [c3]; decide) (by decide) (by decide)
    (by rw [c3, c5]; decide)
  exact ⟨by decide, h1, by decide, r1, c1, c2, c3, c5, h2⟩

/-! ## The conversion scenario of test.c -/

/-- C22 as stated fails: neither `assign_value(bg, "540263", 7)` followed by
`convert_system_BigNum(bg, 12)` nor the same for "47440" in radix 10 returns a BigNum,
both reach the second `delete_BigNum(tmp)`; and the digits that the second loop has
pushed by then differ, 2, 3, 3, 6, 4 (least significant first) for 540263 of radix 7 and
4, 5, 5, 3, 2 for the decimal 47440. -/
theorem C22_no_common_text :
    convert_system_BigNum 9 (assign_value create_BigNum ['5', '4', '0', '2', '6', '3'] 7).bg 12
      = Outcome.invalid_free ∧
    convert_system_BigNum 9 (assign_value create_BigNum ['4', '7', '4', '4', '0'] 10).bg 12
      = Outcome.invalid_free ∧
    (¬ ∃ r1 r2,
      convert_system_BigNum 9 (assign_value create_BigNum ['5', '4', '0', '2', '6', '3'] 7).bg 12
        = Outcome.returned r1 ∧
      convert_system_BigNum 9 (assign_value create_BigNum ['4', '7', '4', '4', '0'] 10).bg 12
        = Outcome.returned r2 ∧
      BigNum_to_cstring r1.bg = BigNum_to_cstring r2.bg) ∧
    ∃ d1 d2,
      convert_from_decimal 9 (assign_value create_BigNum ['5', '4', '0', '2', '6', '3'] 7).bg 12
        = some d1 ∧
      convert_from_decimal 9 (assign_value create_BigNum ['4', '7', '4', '4', '0'] 10).bg 12
        = some d2 ∧
      d1.array = [2, 3, 3, 6, 4] ∧ d2.array = [4, 5, 5, 3, 2] := by
  have h1 := convert_system_invalid_free 9
    (assign_value create_BigNum ['5', '4', '0', '2', '6', '3'] 7).bg 12 (by decide) (by decide)
    (by decide) (by decide) (by decide) (by decide) (by decide) (by decide)
  have h2 := convert_system_invalid_free 9
    (assign_value create_BigNum ['4', '7', '4', '4', '0'] 10).bg 12 (by decide) (by decide)
    (by decide) (by decide) (by decide) (by decide) (by decide) (by decide)
  obtain ⟨d1, e1, f1⟩ := convert_from_decimal_digits 9
    (assign_value create_BigNum ['5', '4', '0', '2', '6', '3'] 7).bg 12 [2, 3, 3, 6, 4]
    (by decide) (by decide) (by decide) (by decide) (by decide) (by decide) (by decide)
    (by decide) (by decide) (by decide)
  obtain ⟨d2, e2, f2⟩ := convert_from_decimal_digits 9
    (assign_value create_BigNum ['4', '7', '4', '4', '0'] 10).bg 12 [4, 5, 5, 3, 2]
    (by decide) (by decide) (by decide) (by decide) (by decide) (by decide) (by decide)
    (by decide) (by decide) (by decide)
  refine ⟨h1, h2, ?_, d1, d2, e1, e2, f1, f2⟩
  rintro ⟨r1, r2, k1, _, _⟩
  rw [h1] at k1
  cases k1

/-- C22, amended: in `assign_value(bg, "540263", 7)` followed by
`convert_system_BigNum(bg, 12)` the first loop accumulates the decimal value 93782 and
the second loop pushes the radix-12 digits 4, 6, 3, 3, 2 (most significant first, the
text "46332"), the same digits as for the decimal value 93782 (`assign_value` of "93782"
in radix 10, then the conversion to radix 12). -/
theorem C22_digits_of_540263 :
    (assign_value create_BigNum ['5', '4', '0', '2', '6', '3'] 7).ok = true ∧
    (assign_value create_BigNum ['9', '3', '7', '8', '2'] 10).ok = true ∧
    magnitude 10
      (convert_to_decimal
        (assign_value create_BigNum ['5', '4', '0', '2', '6', '3'] 7).bg).digits.array = 93782 ∧
    ∃ d1 d2,
      convert_from_decimal 9 (assign_value create_BigNum ['5', '4', '0', '2', '6', '3'] 7).bg 12
        = some d1 ∧
      convert_from_decimal 9 (assign_value create_BigNum ['9', '3', '7', '8', '2'] 10).bg 12
        = some d2 ∧
      d1.array = [2, 3, 3, 6, 4] ∧ d2.array = d1.array ∧
      d1.array.reverse.map (fun d => hex_digits.getD d '?') = ['4', '6', '3', '3', '2'] := by
  obtain ⟨_, p2⟩ := convert_to_decimal_spec
    (assign_value create_BigNum ['5', '4', '0', '2', '6', '3'] 7).bg (by decide) (by decide)
  obtain ⟨d1, e1, f1⟩ := convert_from_decimal_digits 9
    (assign_value create_BigNum ['5', '4', '0', '2', '6', '3'] 7).bg 12 [2, 3, 3, 6, 4]
    (by decide) (by decide) (by decide) (by decide) (by decide) (by decide) (by decide)
    (by decide) (by decide) (by decide)
  obtain ⟨d2, e2, f2⟩ := convert_from_decimal_digits 9
    (assign_value create_BigNum ['9', '3', '7', '8', '2'] 10).bg 12 [2, 3, 3, 6, 4]
    (by decide) (by decide) (by decide) (by decide) (by decide) (by decide) (by decide)
    (by decide) (by decide) (by decide)
  refine ⟨by decide, by decide, p2.trans (by decide), d1, d2, e1, e2, f1, by rw [f1, f2], ?_⟩
  rw [f1]
  decide

/-! ## The digit buffer: resize, the capacity invariant and indexed access -/

theorem vector_resize_no_shrink (v : Vector) (n : Nat) (h : n ≤ vector_size v)
    (hwf : vector_size v ≤ v.capacity) : vector_resize v n = v := by
  unfold vector_resize
  rw [if_neg (by omega)]
  simp only []
  rw [Nat.sub_eq_zero_of_le h]
  rfl

/-- C31 (failing input): `vector_resize` to a size below the current one leaves the
vector as it was; the vector [1, 2, 3] resized to 1 still has its three elements. The
growth to size 5 keeps the elements and appends zeros. -/
theorem C31_resize_shrink_failing :
    vector_size (vector_resize ⟨4, [1, 2, 3]⟩ 1) = 3 ∧
    (vector_resize ⟨4, [1, 2, 3]⟩ 1).array = [1, 2, 3] ∧
    (vector_resize ⟨4, [1, 2, 3]⟩ 5).array = [1, 2, 3, 0, 0] := by
  decide

theorem push_back_capacity_ok (v : Vector) (x : Nat) (h : vector_size v ≤ v.capacity) :
    vector_size (push_back v x) ≤ (push_back v x).capacity := by
  unfold push_back vector_reserve
  simp only [vector_size] at *
  by_cases h1 : v.array.length ≥ v.capacity
  · rw [if_pos h1]
    by_cases h0 : v.capacity = 0
    · rw [if_pos h0, if_neg (by omega)]
      simp only [List.length_append, List.length_singleton]
      omega
    · rw [if_neg h0, if_neg (by omega)]
      simp only [List.length_append, List.length_singleton]
      omega
  · rw [if_neg h1]
    simp only [List.length_append, List.length_singleton]
    omega

theorem vector_resize_loop_capacity_ok (k : Nat) : ∀ v : Vector,
    vector_size v ≤ v.capacity →
    vector_size (vector_resize_loop k v) ≤ (vector_resize_loop k v).capacity := by
  induction k with
  | zero => intro v h; exact h
  | succ k ih => intro v h; exact ih _ (push_back_capacity_ok v 0 h)

theorem copy_vector_loop_capacity_ok (p : Vector) (k : Nat) : ∀ (i : Nat) (vec : Vector),
    vector_size vec ≤ vec.capacity →
    vector_size (copy_vector_loop p k i vec) ≤ (copy_vector_loop p k i vec).capacity := by
  induction k with
  | zero => intro i vec h; exact h
  | succ k ih => intro i vec h; exact ih _ _ (push_back_capacity_ok vec _ h)

theorem reverse_vector_loop_capacity (k : Nat) : ∀ (i : Nat) (v : Vector),
    (reverse_vector_loop k i v).capacity = v.capacity := by
  induction k with
  | zero => intro i v; rfl
  | succ k ih => intro i v; simp only [reverse_vector_loop]; rw [ih]; rfl

/-- C32: a freshly created vector has size <= capacity, and from a vector with
size <= capacity each of `push_back`, `pop_back`, `vector_set`, `vector_reserve`,
`vector_resize`, `vector_clear`, `reverse_vector` and `copy_vector` gives a vector with
size <= capacity; `vector_reserve` with a capacity below the size leaves the vector as it
was. -/
theorem C32_size_le_capacity (v : Vector) (x i n c : Nat)
    (h : vector_size v ≤ vector_capacity v) :
    vector_size create_vector ≤ vector_capacity create_vector ∧
    vector_size (push_back v x) ≤ vector_capacity (push_back v x) ∧
    vector_size (pop_back v) ≤ vector_capacity (pop_back v) ∧
    vector_size (vector_set v i x) ≤ vector_capacity (vector_set v i x) ∧
    vector_size (vector_reserve v c) ≤ vector_capacity (vector_reserve v c) ∧
    (c < vector_size v → vector_reserve v c = v) ∧
    vector_size (vector_resize v n) ≤ vector_capacity (vector_resize v n) ∧
    vector_size (vector_clear v) ≤ vector_capacity (vector_clear v) ∧
    vector_size (reverse_vector v) ≤ vector_capacity (reverse_vector v) ∧
    vector_size (copy_vector v) ≤ vector_capacity (copy_vector v) := by
  have h0 : vector_size v ≤ v.capacity := h
  refine ⟨by decide, push_back_capacity_ok v x h0, ?_, ?_, ?_, ?_, ?_, ?_, ?_, ?_⟩
  · unfold pop_back
    split
    · exact h
    · simp only [vector_size, vector_capacity, List.length_dropLast] at *
      omega
  · unfold vector_set
    split
    · exact h
    · simp only [vector_size, vector_capacity, List.length_set] at *
      exact h
  · unfold vector_reserve
    split
    · exact h
    · simp only [vector_size, vector_capacity] at *
      omega
  · intro hc
    unfold vector_reserve
    rw [if_pos hc]
  · unfold vector_resize
    simp only []
    apply vector_resize_loop_capacity_ok
    split
    · unfold vector_reserve
      split
      · exact h0
      · simp only [vector_size] at *
        omega
    · exact h0
  · simp [vector_clear, vector_size, vector_capacity]
  · simp only [vector_capacity, vector_size, reverse_vector_array, List.length_reverse]
    unfold reverse_vector
    rw [reverse_vector_loop_capacity]
    exact h0
  · unfold copy_vector
    apply copy_vector_loop_capacity_ok
    unfold vector_reserve
    split
    · decide
    · simp [vector_size, create_vector]

/-- The full vector [1, 2] of capacity 2, for C32. -/
theorem C32_size_le_capacity_witness :
    vector_size (⟨2, [1, 2]⟩ : Vector) ≤ vector_capacity ⟨2, [1, 2]⟩ ∧
    vector_size (push_back ⟨2, [1, 2]⟩ 7) ≤ vector_capacity (push_back ⟨2, [1, 2]⟩ 7) ∧
    vector_reserve ⟨2, [1, 2]⟩ 1 = ⟨2, [1, 2]⟩ :=
  ⟨by decide,
    (C32_size_le_capacity ⟨2, [1, 2]⟩ 7 0 5 1 (by decide)).2.1,
    (C32_size_le_capacity ⟨2, [1, 2]⟩ 7 0 5 1 (by decide)).2.2.2.2.2.1 (by decide)⟩

/-- C33: with an index at or beyond the size, `vector_get` returns the error value (-1
as an unsigned char, 255) and `vector_set` leaves the vector as it was; with an index
below the size, `vector_get` after `vector_set` returns the value written, and the size,
the capacity and the element at every other index are unchanged. -/
theorem C33_get_set_bounds (v : Vector) (i x : Nat) :
    (vector_size v ≤ i → vector_get v i = 255 ∧ vector_set v i x = v) ∧
    (i < vector_size v →
      vector_get (vector_set v i x) i = x ∧
      vector_size (vector_set v i x) = vector_size v ∧
      vector_capacity (vector_set v i x) = vector_capacity v ∧
      ∀ j, j ≠ i → vector_get (vector_set v i x) j = vector_get v j) := by
  constructor
  · intro h
    exact ⟨if_pos h, if_pos h⟩
  · intro h
    have hs : vector_set v i x = { v with array := v.array.set i x } := if_neg (by omega)
    rw [hs]
    simp only [vector_size] at h
    refine ⟨?_, ?_, rfl, ?_⟩
    · simp only [vector_get, vector_size, List.length_set]
      rw [if_neg (by omega)]
      simp [List.getD_eq_getElem?_getD, List.getElem?_set, h]
    · simp [vector_size]
    · intro j hj
      simp only [vector_get, vector_size, List.length_set]
      by_cases hjs : j ≥ v.array.length
      · rw [if_pos hjs, if_pos hjs]
      · rw [if_neg hjs, if_neg hjs]
        simp [List.getD_eq_getElem?_getD, List.getElem?_set, Ne.symm hj]

/-- The vector [1, 4, 9] with the indices 5 and 1, for C33. -/
theorem C33_get_set_bounds_witness :
    vector_get ⟨4, [1, 4, 9]⟩ 5 = 255 ∧ vector_set ⟨4, [1, 4, 9]⟩ 5 13 = ⟨4, [1, 4, 9]⟩ ∧
    vector_get (vector_set ⟨4, [1, 4, 9]⟩ 1 13) 1 = 13 :=
  ⟨((C33_get_set_bounds ⟨4, [1, 4, 9]⟩ 5 13).1 (by decide)).1,
    ((C33_get_set_bounds ⟨4, [1, 4, 9]⟩ 5 13).1 (by decide)).2,
    ((C33_get_set_bounds ⟨4, [1, 4, 9]⟩ 1 13).2 (by decide)).1⟩

/-! ## The base check of the calculator -/

/-- C34 (failing input): `is_base` accepts the strings "0" and "1", which are not in the
range 2..16; it accepts "2" and "16" and rejects "17", "02" and the empty string. -/
theorem C34_is_base_failing :
    is_base ['1'] = true ∧ is_base ['0'] = true ∧
    is_base ['2'] = true ∧ is_base ['1', '6'] = true ∧ is_base ['1', '7'] = false ∧
    is_base ['0', '2'] = false ∧ is_base [] = false := by
  decide

/-! ## Normalization by `zero_justify` -/

theorem zero_justify_loop_fixed (fuel : Nat) (v : Vector) (hv : justified v.array) :
    zero_justify_loop fuel v = v := by
  cases fuel with
  | zero => rfl
  | succ f =>
    simp only [zero_justify_loop]
    obtain ⟨c, l⟩ := v
    rw [if_neg ((justified_iff_exit c l hv.1).mp hv)]

theorem zero_justify_fixed (y : BigNum) (hj : justified y.digits.array)
    (hs : y.digits.array = [0] → y.sign_bit = PLUS) : zero_justify y = y := by
  unfold zero_justify
  simp only []
  rw [zero_justify_loop_fixed _ _ hj]
  split
  · rename_i hc
    have := hs ((single_zero_iff _).mp hc)
    obtain ⟨s, d, n⟩ := y
    simp only at this
    rw [this]
  · rfl

/-- C36: for a BigNum with at least one digit, `zero_justify` removes most-significant
zero digits and nothing else, and stops exactly when no most-significant zero is left or
a single digit remains; the magnitude in every radix and the radix are kept, the sign
becomes PLUS when the result is the single digit 0 and is kept otherwise, and a second
`zero_justify` changes nothing. -/
theorem C36_zero_justify (x : BigNum) (r : Nat) (hne : x.digits.array ≠ []) :
    (∃ k, x.digits.array = (zero_justify x).digits.array ++ List.replicate k 0) ∧
    justified (zero_justify x).digits.array ∧
    magnitude r (zero_justify x).digits.array = magnitude r x.digits.array ∧
    (zero_justify x).sign_bit
      = (if (zero_justify x).digits.array = [0] then PLUS else x.sign_bit) ∧
    (zero_justify x).num_system = x.num_system ∧
    zero_justify (zero_justify x) = zero_justify x := by
  obtain ⟨hj, hm, _⟩ := zero_justify_spec x r hne
  have hsign := zero_justify_sign x
  refine ⟨?_, hj, hm, hsign, zero_justify_num_system x, ?_⟩
  · obtain ⟨k, hk, _⟩ := zero_justify_loop_prefix (vector_size x.digits) x.digits
    rw [zero_justify_digits]
    exact ⟨k, hk⟩
  · apply zero_justify_fixed _ hj
    intro h0
    rw [hsign, if_pos h0]

/-- The number -000 of radix 10 (digits 0, 0, 0), for C36. -/
theorem C36_zero_justify_witness :
    (zero_justify ⟨-1, ⟨4, [0, 0, 0]⟩, 10⟩).digits.array = [0] ∧
    (zero_justify ⟨-1, ⟨4, [0, 0, 0]⟩, 10⟩).sign_bit = PLUS ∧
    zero_justify (zero_justify ⟨-1, ⟨4, [0, 0, 0]⟩, 10⟩) = zero_justify ⟨-1, ⟨4, [0, 0, 0]⟩, 10⟩ :=
  ⟨by decide, by decide,
    (C36_zero_justify ⟨-1, ⟨4, [0, 0, 0]⟩, 10⟩ 10 (by decide)).2.2.2.2.2⟩

/-! ## The BigNum left by `assign_value` -/

theorem assign_value_loop_array (r : Nat) (body : List Char) : ∀ d : Vector,
    (assign_value_loop r body d).2.array
      = d.array ++ (body.takeWhile (fun x => decide (map_digit x < r))).map map_digit := by
  induction body with
  | nil => intro d; simp [assign_value_loop]
  | cons c cs ih =>
    intro d
    simp only [assign_value_loop]
    by_cases hc : map_digit c ≥ r
    · rw [if_pos hc]
      have : ¬ map_digit c < r := by omega
      simp [List.takeWhile, this]
    · rw [if_neg hc, ih, push_back_array]
      have : map_digit c < r := by omega
      simp [List.takeWhile, this]

theorem assign_value_success (bg : BigNum) (c : Char) (cs : List Char) (r : Nat)
    (hok : (assign_value bg (c :: cs) r).ok = true) :
    (∀ x ∈ numeral_body (c :: cs), map_digit x < r) ∧
    (assign_value bg (c :: cs) r).bg
      = zero_justify ⟨if c = '-' then -1 else 1,
          reverse_vector (assign_value_loop r (numeral_body (c :: cs))
            (vector_clear bg.digits)).2, r⟩ := by
  have hall : ∀ x ∈ numeral_body (c :: cs), map_digit x < r := by
    intro x hx
    by_contra hlt
    have hf := (assign_value_fails_iff bg (c :: cs) r (by simp)).1.mpr ⟨x, hx, by omega⟩
    rw [hok] at hf
    exact absurd hf (by decide)
  refine ⟨hall, ?_⟩
  have h1 := (assign_value_loop_ok r (numeral_body (c :: cs)) (vector_clear bg.digits) hall).1
  simp only [numeral_body] at h1 ⊢
  simp only [assign_value, clear_BigNum]
  rw [if_neg (by rw [h1]; decide)]

theorem assign_value_normalized (bg : BigNum) (s : List Char) (r : Nat) (hr2 : 2 ≤ r)
    (hr16 : r ≤ 16) (hb : numeral_body s ≠ [])
    (hok : (assign_value bg s r).ok = true) : normalized (assign_value bg s r).bg := by
  match s, hb with
  | c :: cs, hb =>
    obtain ⟨hall, he⟩ := assign_value_success bg c cs r hok
    obtain ⟨_, harr⟩ := assign_value_loop_ok r (numeral_body (c :: cs))
      (vector_clear bg.digits) hall
    rw [he]
    generalize hL : (assign_value_loop r (numeral_body (c :: cs)) (vector_clear bg.digits)).2
      = L at harr
    have hrev : (reverse_vector L).array = ((numeral_body (c :: cs)).map map_digit).reverse := by
      rw [reverse_vector_array, harr]
      simp [vector_clear]
    have hne : (reverse_vector L).array ≠ [] := by
      rw [hrev]
      simpa using hb
    obtain ⟨hj, _, hmem⟩ := zero_justify_spec
      ⟨if c = '-' then -1 else 1, reverse_vector L, r⟩ r hne
    have hsg := zero_justify_sign ⟨if c = '-' then -1 else 1, reverse_vector L, r⟩
    refine ⟨by rw [zero_justify_num_system]; exact hr2,
      by rw [zero_justify_num_system]; exact hr16, ?_, ?_, hj, ?_⟩
    · rw [hsg]
      by_cases h0 : (zero_justify
          ⟨if c = '-' then -1 else 1, reverse_vector L, r⟩).digits.array = [0]
      · rw [if_pos h0]; exact Or.inl rfl
      · rw [if_neg h0]
        by_cases hc : c = '-'
        · exact Or.inr (if_pos hc)
        · exact Or.inl (if_neg hc)
    · intro d hd
      rw [zero_justify_num_system]
      have := hmem d hd
      simp only [hrev, List.mem_reverse, List.mem_map] at this
      obtain ⟨x, hx, rfl⟩ := this
      exact hall x hx
    · intro h0
      rw [hsg, if_pos h0]

/-- C38 (failing input): `assign_value` accepts the string "-" with radix 10 and leaves a
BigNum of sign MINUS without any digit, which is not normalized; the same holds for
"+". -/
theorem C38_sign_only_failing :
    (assign_value create_BigNum ['-'] 10).ok = true ∧
    (assign_value create_BigNum ['-'] 10).bg.digits.array = [] ∧
    (assign_value create_BigNum ['-'] 10).bg.sign_bit = MINUS ∧
    ¬ normalized (assign_value create_BigNum ['-'] 10).bg ∧
    (assign_value create_BigNum ['+'] 10).ok = true ∧
    (assign_value create_BigNum ['+'] 10).bg.digits.array = [] := by
  decide

/-- C39 as stated fails: `assign_value` of "-1G" with radix 16 on the decimal number 5
returns NULL_TYPE and leaves the target with sign MINUS, the digit 1 and radix 16. -/
theorem C39_target_overwritten :
    (assign_value ⟨1, ⟨1, [5]⟩, 10⟩ ['-', '1', 'G'] 16).ok = false ∧
    (assign_value ⟨1, ⟨1, [5]⟩, 10⟩ ['-', '1', 'G'] 16).bg.sign_bit = -1 ∧
    (assign_value ⟨1, ⟨1, [5]⟩, 10⟩ ['-', '1', 'G'] 16).bg.digits.array = [1] ∧
    (assign_value ⟨1, ⟨1, [5]⟩, 10⟩ ['-', '1', 'G'] 16).bg.num_system = 16 ∧
    (assign_value ⟨1, ⟨1, [5]⟩, 10⟩ ['-', '1', 'G'] 16).bg ≠ ⟨1, ⟨1, [5]⟩, 10⟩ := by
  decide

/-- C39, amended: when `assign_value(bg, s, r)` fails because of a character that is not
a digit of radix r, the target has been overwritten: its radix is r, its sign is MINUS
when s starts with '-' and PLUS otherwise, and its digits are the values of the
characters before the first invalid one, in the order read. -/
theorem C39_assign_value_failure_state (bg : BigNum) (c : Char) (cs : List Char) (r : Nat)
    (hf : (assign_value bg (c :: cs) r).ok = false) :
    (assign_value bg (c :: cs) r).bg.num_system = r ∧
    (assign_value bg (c :: cs) r).bg.sign_bit = (if c = '-' then MINUS else PLUS) ∧
    (assign_value bg (c :: cs) r).bg.digits.array
      = ((numeral_body (c :: cs)).takeWhile (fun x => decide (map_digit x < r))).map
          map_digit := by
  have harr := assign_value_loop_array r (numeral_body (c :: cs)) (vector_clear bg.digits)
  simp only [assign_value, clear_BigNum, numeral_body] at hf harr ⊢
  by_cases h1 : (assign_value_loop r (if c = '-' ∨ c = '+' then cs else c :: cs)
      (vector_clear bg.digits)).1 = false
  · rw [if_pos h1]
    refine ⟨rfl, rfl, ?_⟩
    simp only []
    rw [harr]
    simp [vector_clear]
  · rw [if_neg h1] at hf
    simp at hf

/-- The string "-1G" with radix 16 on the decimal number 5, for the amended C39. -/
theorem C39_assign_value_failure_state_witness :
    (assign_value ⟨1, ⟨1, [5]⟩, 10⟩ ['-', '1', 'G'] 16).ok = false ∧
    (assign_value ⟨1, ⟨1, [5]⟩, 10⟩ ['-', '1', 'G'] 16).bg.num_system = 16 ∧
    (assign_value ⟨1, ⟨1, [5]⟩, 10⟩ ['-', '1', 'G'] 16).bg.sign_bit = MINUS :=
  ⟨by decide,
    (C39_assign_value_failure_state ⟨1, ⟨1, [5]⟩, 10⟩ '-' ['1', 'G'] 16 (by decide)).1,
    (C39_assign_value_failure_state ⟨1, ⟨1, [5]⟩, 10⟩ '-' ['1', 'G'] 16 (by decide)).2.1⟩

/-! ## The digit bound after the arithmetic operations -/

theorem zero_justify_mem (bg : BigNum) :
    ∀ d ∈ (zero_justify bg).digits.array, d ∈ bg.digits.array := by
  intro d hd
  rw [zero_justify_digits] at hd
  obtain ⟨k, hk, _⟩ := zero_justify_loop_prefix (vector_size bg.digits) bg.digits
  rw [hk]
  exact List.mem_append_left _ hd

theorem add_digits_bound (r : Nat) (hr : 2 ≤ r) (hr256 : r ≤ 256) (a b : BigNum)
    (hra : a.num_system = r) (hrb : b.num_system = r)
    (hda : ∀ d ∈ a.digits.array, d < r) (hdb : ∀ d ∈ b.digits.array, d < r)
    (hja : justified a.digits.array) (hjb : justified b.digits.array)
    (hsa : a.sign_bit = PLUS ∨ a.sign_bit = MINUS)
    (hsb : b.sign_bit = PLUS ∨ b.sign_bit = MINUS) :
    (∀ d ∈ (add_BigNum a b).bg1.digits.array, d < r) ∧
    (∀ d ∈ (add_BigNum a b).bg2.digits.array, d < r) := by
  have hrr : a.num_system = b.num_system := by rw [hra, hrb]
  by_cases hs : a.sign_bit = b.sign_bit
  · rw [add_BigNum_same a b hrr hs]
    obtain ⟨_, _, h3, _, _, _, _, _, h9⟩ := add_same_sign_spec a b r hr hr256 hrb hda hdb
    exact ⟨h3, by rw [h9 hjb]; exact hdb⟩
  · rcases hsa with ha | ha
    · have hb : b.sign_bit = MINUS := by
        rcases hsb with hb | hb
        · exact absurd (ha.trans hb.symm) hs
        · exact hb
      rw [add_BigNum_plus_other a b hrr (by rw [ha]; decide) hs]
      obtain ⟨_, _, _, h4, _, _, _, _, h9, _⟩ := subtract_magnitude_spec a
        { b with sign_bit := PLUS } r hr hr256 hra hrb hda hdb hja hjb
      exact ⟨h4, by
        intro d hd
        have e : (subtract_magnitude a { b with sign_bit := PLUS }).bg2.digits.array
            = b.digits.array := h9
        exact hdb d (by rw [← e]; exact hd)⟩
    · have hb : b.sign_bit ≠ MINUS := by
        intro hb
        exact hs (ha.trans hb.symm)
      rw [add_BigNum_minus_plus a b hrr ha hb]
      obtain ⟨_, _, _, h4, _, _, _, _, h9, _⟩ := subtract_magnitude_spec
        { a with sign_bit := PLUS } b r hr hr256 hra hrb hda hdb hja hjb
      exact ⟨h4, by rw [h9]; exact hdb⟩

theorem subtract_digits_bound (r : Nat) (hr : 2 ≤ r) (hr256 : r ≤ 256) (a b : BigNum)
    (hra : a.num_system = r) (hrb : b.num_system = r)
    (hda : ∀ d ∈ a.digits.array, d < r) (hdb : ∀ d ∈ b.digits.array, d < r)
    (hja : justified a.digits.array) (hjb : justified b.digits.array)
    (hsa : a.sign_bit = PLUS ∨ a.sign_bit = MINUS)
    (hsb : b.sign_bit = PLUS ∨ b.sign_bit = MINUS) :
    (∀ d ∈ (subtract_BigNum a b).bg1.digits.array, d < r) ∧
    (∀ d ∈ (subtract_BigNum a b).bg2.digits.array, d < r) := by
  have hrr : a.num_system = b.num_system := by rw [hra, hrb]
  by_cases hm : a.sign_bit = MINUS ∨ b.sign_bit = MINUS
  · rw [subtract_BigNum_signed a b hrr hm]
    have hsb2 : b.sign_bit * -1 = PLUS ∨ b.sign_bit * -1 = MINUS := by
      rcases hsb with h | h <;> rw [h] <;> decide
    exact add_digits_bound r hr hr256 a { b with sign_bit := b.sign_bit * -1 } hra hrb hda hdb
      hja hjb hsa hsb2
  · have h1 : a.sign_bit ≠ MINUS := fun h => hm (Or.inl h)
    have h2 : b.sign_bit ≠ MINUS := fun h => hm (Or.inr h)
    rw [subtract_BigNum_unsigned a b hrr h1 h2]
    obtain ⟨_, _, _, h4, _, _, _, _, h9, _⟩ := subtract_magnitude_spec a b r hr hr256 hra hrb
      hda hdb hja hjb
    exact ⟨h4, by rw [h9]; exact hdb⟩

theorem multiply_digits_bound (a b : BigNum) (ha : normalized a)
    (hrr : a.num_system = b.num_system) :
    (∀ d ∈ (multiply_BigNum a b).bg1.digits.array, d < a.num_system) ∧
    (multiply_BigNum a b).bg2 = b := by
  obtain ⟨a2, a16, _, ad, aj, az⟩ := ha
  have hinv : multiply_invariant a.num_system a.sign_bit
      { clear_BigNum a with sign_bit := (copy_BigNum a).sign_bit } (copy_BigNum a) := by
    refine ⟨rfl, rfl, rfl, rfl, ?_, ?_, ?_, ?_⟩
    · intro d hd; simp [clear_BigNum, vector_clear] at hd
    · intro d hd
      simp only [copy_BigNum, copy_vector_array] at hd
      exact ad d hd
    · simp only [copy_BigNum, copy_vector_array]; exact aj
    · intro h0
      simp only [copy_BigNum, copy_vector_array] at h0
      exact az (justified_magnitude_zero _ (by omega) _ aj h0)
  obtain ⟨k1, _, _⟩ := multiply_loop_spec a.num_system a2 (by omega) a.sign_bit b
    (BigNum_size b) 0 _ _ [] b.digits.array (by simp) rfl (by simp [BigNum_size, vector_size])
    hinv
  generalize hst : multiply_loop b (BigNum_size b) 0
    { clear_BigNum a with sign_bit := (copy_BigNum a).sign_bit } (copy_BigNum a) = st at k1
  obtain ⟨_, _, _, _, i5, _, _, _⟩ := k1
  have hres : multiply_BigNum a b
      = ⟨true, zero_justify { st.1 with sign_bit := st.1.sign_bit * b.sign_bit }, b⟩ := by
    unfold multiply_BigNum
    rw [if_neg (by simp [BigNum_base, hrr])]
    simp only [hst]
  rw [hres]
  refine ⟨?_, rfl⟩
  intro d hd
  exact i5 d (zero_justify_mem { st.1 with sign_bit := st.1.sign_bit * b.sign_bit } d hd)

/-- C35: for normalized operands of equal radix r, after `add_BigNum`, `subtract_BigNum`
and `multiply_BigNum` every digit stored in either operand is below r; for a nonzero
divisor `divide_BigNum` returns (with a bound of r - 1 or more on the subtractions per
digit) and every digit of the quotient and of the divisor is below r. -/
theorem C35_digits_below_radix (a b : BigNum) (ha : normalized a) (hb : normalized b)
    (hr : a.num_system = b.num_system) :
    ((∀ d ∈ (add_BigNum a b).bg1.digits.array, d < a.num_system) ∧
      (∀ d ∈ (add_BigNum a b).bg2.digits.array, d < a.num_system)) ∧
    ((∀ d ∈ (subtract_BigNum a b).bg1.digits.array, d < a.num_system) ∧
      (∀ d ∈ (subtract_BigNum a b).bg2.digits.array, d < a.num_system)) ∧
    ((∀ d ∈ (multiply_BigNum a b).bg1.digits.array, d < a.num_system) ∧
      (∀ d ∈ (multiply_BigNum a b).bg2.digits.array, d < a.num_system)) ∧
    (val b ≠ 0 → ∀ fuel, a.num_system ≤ fuel + 1 →
      ∃ res, divide_BigNum fuel a b = some res ∧ res.ok = true ∧
        (∀ d ∈ res.bg1.digits.array, d < a.num_system) ∧
        (∀ d ∈ res.bg2.digits.array, d < a.num_system)) := by
  obtain ⟨a2, a16, asg, ad, aj, _⟩ := id ha
  obtain ⟨_, _, bsg, bd, bj, _⟩ := id hb
  have bd2 : ∀ d ∈ b.digits.array, d < a.num_system := by rw [hr]; exact bd
  refine ⟨add_digits_bound _ a2 (by omega) a b rfl hr.symm ad bd2 aj bj asg bsg,
    subtract_digits_bound _ a2 (by omega) a b rfl hr.symm ad bd2 aj bj asg bsg, ?_, ?_⟩
  · obtain ⟨m1, m2⟩ := multiply_digits_bound a b ha hr
    exact ⟨m1, by rw [m2]; exact bd2⟩
  · intro hv fuel hf
    have hbz := magnitude_pos_of_val_ne_zero b hv
    obtain ⟨res, h1, h2, _, _, _, h6, _, _, h9, _⟩ := divide_BigNum_spec fuel a b ha hb hr hbz hf
    exact ⟨res, h1, h2, h6, by rw [h9]; exact bd2⟩

/-- The numbers -FB and 1A of radix 16, for C35. -/
theorem C35_digits_below_radix_witness :
    normalized ⟨-1, ⟨2, [11, 15]⟩, 16⟩ ∧ normalized ⟨1, ⟨2, [10, 1]⟩, 16⟩ ∧
    (∀ d ∈ (add_BigNum ⟨-1, ⟨2, [11, 15]⟩, 16⟩ ⟨1, ⟨2, [10, 1]⟩, 16⟩).bg1.digits.array,
      d < 16) ∧
    ∃ res, divide_BigNum 15 ⟨-1, ⟨2, [11, 15]⟩, 16⟩ ⟨1, ⟨2, [10, 1]⟩, 16⟩ = some res ∧
      res.ok = true ∧ (∀ d ∈ res.bg1.digits.array, d < 16) ∧
      (∀ d ∈ res.bg2.digits.array, d < 16) :=
  ⟨by decide, by decide,
    (C35_digits_below_radix ⟨-1, ⟨2, [11, 15]⟩, 16⟩ ⟨1, ⟨2, [10, 1]⟩, 16⟩ (by decide)
      (by decide) rfl).1.1,
    (C35_digits_below_radix ⟨-1, ⟨2, [11, 15]⟩, 16⟩ ⟨1, ⟨2, [10, 1]⟩, 16⟩ (by decide)
      (by decide) rfl).2.2.2 (by decide) 15 (by decide)⟩

/-! ## Exponentiation of a negative base -/

theorem exponentiate_sign_kept (fuel : Nat) (a n : BigNum) (res : Result)
    (h : exponentiate_BigNum fuel a n = Outcome.returned res) :
    res.bg1.sign_bit = a.sign_bit ∧ res.bg1.num_system = a.num_system := by
  unfold exponentiate_BigNum at h
  split at h
  · cases h; exact ⟨rfl, rfl⟩
  · split at h
    · cases h; exact ⟨rfl, rfl⟩
    · split at h
      · cases h
      · cases h
      · simp only [] at h
        split at h
        · cases h; exact ⟨rfl, rfl⟩
        · cases h; exact ⟨rfl, rfl⟩

theorem multiply_minus_one_sq :
    (multiply_BigNum (copy_BigNum ⟨-1, ⟨1, [1]⟩, 2⟩)
      (copy_BigNum (copy_BigNum ⟨-1, ⟨1, [1]⟩, 2⟩))).bg1 = ⟨1, ⟨2, [1]⟩, 2⟩ := by
  unfold multiply_BigNum
  rw [if_neg (by decide)]
  simp only []
  have h1 : BigNum_size (copy_BigNum (copy_BigNum ⟨-1, ⟨1, [1]⟩, 2⟩)) = 1 := by decide
  rw [h1]
  simp only [multiply_loop]
  have h2 : vector_get (copy_BigNum (copy_BigNum ⟨-1, ⟨1, [1]⟩, 2⟩)).digits 0 = 1 := by decide
  rw [h2]
  simp only [multiply_inner]
  rw [add_BigNum_same _ _ (by decide) (by decide)]
  decide

/-- C37 (failing input): raising the normalized binary number -1 to the exponent 10 (two)
succeeds and leaves the base operand with sign MINUS and the digit 1, the value -1, while
(-1)^2 = 1 and the claim requires sign PLUS for an even exponent. -/
theorem C37_negative_base_failing :
    normalized ⟨-1, ⟨1, [1]⟩, 2⟩ ∧ normalized ⟨1, ⟨2, [0, 1]⟩, 2⟩ ∧
    val ⟨-1, ⟨1, [1]⟩, 2⟩ = -1 ∧ val ⟨1, ⟨2, [0, 1]⟩, 2⟩ = 2 ∧
    exponentiate_BigNum 9 ⟨-1, ⟨1, [1]⟩, 2⟩ ⟨1, ⟨2, [0, 1]⟩, 2⟩
      = Outcome.returned ⟨true, ⟨-1, ⟨2, [1]⟩, 2⟩, ⟨1, ⟨2, [0, 1]⟩, 2⟩⟩ ∧
    val ⟨-1, ⟨2, [1]⟩, 2⟩ = -1 ∧ val ⟨-1, ⟨1, [1]⟩, 2⟩ ^ 2 = 1 := by
  refine ⟨by decide, by decide, by decide, by decide, ?_, by decide, by decide⟩
  have hloop : exponentiate_loop ⟨-1, ⟨1, [1]⟩, 2⟩ 1 ⟨2, [0]⟩ (copy_BigNum ⟨-1, ⟨1, [1]⟩, 2⟩)
      = (true, (multiply_BigNum (copy_BigNum ⟨-1, ⟨1, [1]⟩, 2⟩)
          (copy_BigNum (copy_BigNum ⟨-1, ⟨1, [1]⟩, 2⟩))).bg1) := by
    simp only [exponentiate_loop]
    rw [if_pos (by decide)]
  rw [multiply_minus_one_sq] at hloop
  unfold exponentiate_BigNum
  rw [if_neg (by decide), if_neg (by decide)]
  have hc : convert_system_BigNum 9 (copy_BigNum ⟨1, ⟨2, [0, 1]⟩, 2⟩) 2
      = Outcome.returned ⟨true, ⟨1, ⟨2, [0, 1]⟩, 2⟩⟩ := by decide
  rw [hc]
  simp only []
  have hp : pop_back (⟨2, [0, 1]⟩ : Vector) = ⟨2, [0]⟩ := by decide
  have hs : vector_size (⟨2, [0]⟩ : Vector) = 1 := by decide
  rw [hp, hs, hloop]
  rfl

/-! ## Termination of the division -/

theorem divide_step_spec (r : Nat) (hr : 2 ≤ r) (hr256 : r ≤ 256) (i : Nat)
    (bg1 row bg2 : BigNum) (pre Q : List Nat) (q : Nat)
    (h1 : bg1.digits.array = pre ++ q :: Q) (hi : pre.length = i) (hq : q < r)
    (r1 : row.num_system = r) (r2 : row.sign_bit = PLUS)
    (r3 : ∀ x ∈ row.digits.array, x < r)
    (r4 : row.digits.array = [] ∨ justified row.digits.array)
    (hb : plain_operand r bg2)
    (hlt : magnitude r row.digits.array < magnitude r bg2.digits.array) :
    ∃ bg1' row' bg2' q',
      divide_while (r - 1) i { bg1 with digits := vector_set bg1.digits i 0 }
        { row with digits := { digit_shift row.digits 1 with
            array := (digit_shift row.digits 1).array.set 0 (vector_get bg1.digits i) } } bg2
        = some (bg1', row', bg2') ∧
      bg1'.digits.array = pre ++ q' :: Q ∧ q' < r ∧
      magnitude r row'.digits.array < magnitude r bg2.digits.array ∧
      plain_operand r row' ∧ plain_operand r bg2' ∧
      bg2'.digits.array = bg2.digits.array := by
  rw [vector_get_mid bg1.digits pre Q q i h1 hi]
  obtain ⟨hinj1, hinj2⟩ := divide_inject r row q hq r1 r2 r3 r4
  generalize hrow1 : ({ row with digits := { digit_shift row.digits 1 with
    array := (digit_shift row.digits 1).array.set 0 q } } : BigNum) = row1 at hinj1
  have hm1 : magnitude r row1.digits.array = q + r * magnitude r row.digits.array := by
    rw [← hrow1]; exact hinj2
  have hbound : magnitude r row1.digits.array < r * magnitude r bg2.digits.array := by
    rw [hm1]
    have : r * (magnitude r row.digits.array + 1) ≤ r * magnitude r bg2.digits.array :=
      Nat.mul_le_mul_left _ hlt
    rw [Nat.mul_add, Nat.mul_one] at this
    omega
  obtain ⟨hset, _⟩ := vector_set_mid bg1.digits pre Q q 0 i h1 hi
  have hfuel : r - 1 + 1 = r := by omega
  obtain ⟨bg1', row', bg2', q', w1, w2, _, _, w5, w6, w7, w8, w9⟩ := divide_while_spec r hr
    hr256 bg2.digits.array (r - 1) i { bg1 with digits := vector_set bg1.digits i 0 } row1 bg2
    pre Q 0 hset hi hinj1 hb rfl (by rw [hfuel]; exact hbound) (by simpa using hbound)
  simp only [Nat.zero_mul, Nat.zero_add] at w5
  have hq' : q' < r := by
    by_contra hc
    have : r * magnitude r bg2.digits.array ≤ q' * magnitude r bg2.digits.array :=
      Nat.mul_le_mul_right _ (by omega)
    omega
  exact ⟨bg1', row', bg2', q', w1, w2, hq', w6, w7, w8, w9⟩

/-- C40: for normalized operands of equal radix r with a nonzero divisor,
`divide_BigNum` returns whenever the inner loop is allowed r - 1 subtractions per digit;
the running remainder is below |b| at the start (it is empty), and from a remainder below
|b| the injection of the next dividend digit followed by the inner loop ends within r - 1
subtractions, leaves a quotient digit below r and a remainder below |b| again. -/
theorem C40_divide_terminates (a b : BigNum) (ha : normalized a) (hb : normalized b)
    (hr : a.num_system = b.num_system) (hv : val b ≠ 0) :
    (∀ fuel, a.num_system ≤ fuel + 1 →
      ∃ res, divide_BigNum fuel a b = some res ∧ res.ok = true) ∧
    magnitude b.num_system ({ create_BigNum with num_system := b.num_system } : BigNum).digits.array
      < magnitude b.num_system b.digits.array ∧
    (∀ (i : Nat) (bg1 row : BigNum) (pre Q : List Nat) (q : Nat),
      bg1.digits.array = pre ++ q :: Q → pre.length = i → q < b.num_system →
      row.num_system = b.num_system → row.sign_bit = PLUS →
      (∀ x ∈ row.digits.array, x < b.num_system) →
      (row.digits.array = [] ∨ justified row.digits.array) →
      magnitude b.num_system row.digits.array < magnitude b.num_system b.digits.array →
      ∃ bg1' row' bg2' q',
        divide_while (b.num_system - 1) i { bg1 with digits := vector_set bg1.digits i 0 }
          { row with digits := { digit_shift row.digits 1 with
              array := (digit_shift row.digits 1).array.set 0 (vector_get bg1.digits i) } }
          { b with sign_bit := PLUS }
          = some (bg1', row', bg2') ∧
        bg1'.digits.array = pre ++ q' :: Q ∧ q' < b.num_system ∧
        magnitude b.num_system row'.digits.array < magnitude b.num_system b.digits.array ∧
        row'.num_system = b.num_system ∧ row'.sign_bit = PLUS ∧
        (∀ x ∈ row'.digits.array, x < b.num_system) ∧ justified row'.digits.array ∧
        bg2'.digits.array = b.digits.array) := by
  have hbz := magnitude_pos_of_val_ne_zero b hv
  obtain ⟨b2, b16, _, bd, bj, _⟩ := id hb
  refine ⟨?_, ?_, ?_⟩
  · intro fuel hf
    obtain ⟨res, h1, h2, _⟩ := divide_BigNum_spec fuel a b ha hb hr hbz hf
    exact ⟨res, h1, h2⟩
  · simpa [create_BigNum, create_vector, magnitude] using hbz
  · intro i bg1 row pre Q q h1 hi hq r1 r2 r3 r4 hlt
    have hpb : plain_operand b.num_system { b with sign_bit := PLUS } := ⟨rfl, rfl, bd, bj⟩
    obtain ⟨bg1', row', bg2', q', w1, w2, w3, w4, w5, _, w7⟩ := divide_step_spec b.num_system
      b2 (by omega) i bg1 row { b with sign_bit := PLUS } pre Q q h1 hi hq r1 r2 r3 r4 hpb hlt
    exact ⟨bg1', row', bg2', q', w1, w2, w3, w4, w5.1, w5.2.1, w5.2.2.1, w5.2.2.2, w7⟩

/-- The decimal division of 97 by -7 with a bound of 9 subtractions per digit, for
C40. -/
theorem C40_divide_terminates_witness :
    normalized ⟨1, ⟨2, [7, 9]⟩, 10⟩ ∧ normalized ⟨-1, ⟨1, [7]⟩, 10⟩ ∧
    ∃ res, divide_BigNum 9 ⟨1, ⟨2, [7, 9]⟩, 10⟩ ⟨-1, ⟨1, [7]⟩, 10⟩ = some res ∧
      res.ok = true :=
  ⟨by decide, by decide,
    (C40_divide_terminates ⟨1, ⟨2, [7, 9]⟩, 10⟩ ⟨-1, ⟨1, [7]⟩, 10⟩ (by decide) (by decide) rfl
      (by decide)).1 9 (by decide)⟩

end BigNumCalc
